import Mathlib

/-!
# Haralick texture features of `ml_Extract_Temporal_Texture.c`

A shallow embedding of `src/timefeatcalc/source/ml_Extract_Temporal_Texture.c`.

Conventions of the embedding.

* C `float`/`double` arithmetic is modelled by exact arithmetic in a linearly ordered
  field `α` (rounding, overflow and infinities are not modelled).
* The libm functions `sqrt`, `log10`, `exp` are parameters of the functions that call
  them; theorems that need their mathematical meaning instantiate them with the real
  functions.
* A quotient whose divisor depends on the data and is not guarded in the source
  (`f3_corr`, `f12_icorr`, the construction of `Q` in `f14_maxcorr`) yields a `Val`,
  which is either a number or `Val.undef` (the non-number that a division by zero
  leaves behind).
* `f14_maxcorr` does not stop at such a quotient: it hands the matrix `Q` with its
  non-numbers to `mkbalanced`, `reduction` and `hessenberg`. The definitions named
  `..._nan` embed these functions on `Val`, with the behaviour of an IEEE NaN: an
  operation with a non-number operand gives a non-number, a comparison with one is false,
  and in a condition it counts as non-zero. The quotient of a non-zero number by zero,
  which is infinite in IEEE arithmetic, is not told apart from a NaN; the inputs at
  which the theorems evaluate this part (the all-zero matrix, `P_corner`) only produce
  quotients `0 / 0`.
* Matrices and vectors are functions on indices, with the index base of the source
  (`P` is 0-based, the eigen-solver matrices are 1-based).
* `int` loop counters are natural numbers; the source never lets one go negative
  inside a loop body.
* Memory allocation is assumed to succeed. Uninitialised storage (the locals of the
  aggregator, the global scratch array `Pxpy`, fresh `malloc` memory) is an explicit
  argument holding its contents on entry.
* The `while` loops of `mkbalanced` carry an iteration budget `fuel`; `none` means the
  budget was exhausted. The loops of `hessenberg` are bounded by the source itself
  (`its == 30`), which the theorems on `hessenberg` establish.
-/

namespace SLIC

/-- C loop `for (i = lo; i < hi; ++i) body`, threading the program state `s`. -/
def forLoop {σ : Type} (lo hi : ℕ) (body : ℕ → σ → σ) (s : σ) : σ :=
  (List.range' lo (hi - lo)).foldl (fun acc i => body i acc) s

/-- Value of a C floating expression: a number, or the non-number left by `x / 0`. -/
inductive Val (α : Type) where
  | num : α → Val α
  | undef : Val α

section Features

variable {α : Type} [LinearOrderedField α]

/-- Division with an unguarded, data-dependent divisor. -/
def cdiv (x y : α) : Val α :=
  if y = 0 then Val.undef else Val.num (x / y)

/-- The constant `#define EPSILON 0.000000001`. -/
def EPSILON : α := 1 / 1000000000

/-- The constant `#define RADIX 2.0`. -/
def RADIX : α := 2

/-- Conversion of a floating value to `int` (truncation toward zero), as performed on the
argument of the integer function `abs`. Values outside the range of `int` are not modelled. -/
def ctrunc [FloorRing α] (x : α) : ℤ :=
  if 0 ≤ x then Int.floor x else Int.ceil x

/-- The helper `pgm_vector (nl, nh)`: cells `nl..nh` are zeroed; `mem` stands for what
lies outside the allocation. -/
def pgm_vector (nl nh : ℕ) (mem : ℕ → α) : ℕ → α :=
  fun i => if nl ≤ i ∧ i ≤ nh then 0 else mem i

/-- Angular Second Moment, `f1_asm`. -/
def f1_asm (P : ℕ → ℕ → α) (Ng : ℕ) : α :=
  forLoop 0 Ng (fun i sum =>
    forLoop 0 Ng (fun j sum => sum + P i j * P i j) sum) 0

/-- Contrast, `f2_contrast`. The loop state is `(sum, bigsum)`. -/
def f2_contrast (P : ℕ → ℕ → α) (Ng : ℕ) : α :=
  (forLoop 0 Ng (fun n (st : α × α) =>
    let sum := forLoop 0 Ng (fun i sum =>
      forLoop 0 Ng (fun j sum =>
        if (i : ℤ) - (j : ℤ) = (n : ℤ) ∨ (j : ℤ) - (i : ℤ) = (n : ℤ) then sum + P i j
        else sum) sum) st.1
    let bigsum := st.2 + ((n * n : ℕ) : α) * sum
    (0, bigsum)) (0, 0)).2

/-- The row marginal `px` built by the first two loops of `f3_corr`. -/
def f3_px (P : ℕ → ℕ → α) (Ng : ℕ) : ℕ → α :=
  let px := pgm_vector 0 Ng (fun _ => 0)
  let px := forLoop 0 Ng (fun i px => Function.update px i 0) px
  forLoop 0 Ng (fun i px =>
    forLoop 0 Ng (fun j px => Function.update px i (px i + P i j)) px) px

/-- The pair `(meanx, sum_sqrx)` accumulated by the third loop of `f3_corr`. -/
def f3_moments (P : ℕ → ℕ → α) (Ng : ℕ) : α × α :=
  let px := f3_px P Ng
  forLoop 0 Ng (fun i (st : α × α) =>
    (st.1 + px i * (i : α), st.2 + px i * (i : α) * (i : α))) (0, 0)

/-- The local `stddevx = sqrt (sum_sqrx - meanx * meanx)` of `f3_corr`. -/
def f3_stddevx (sqrt : α → α) (P : ℕ → ℕ → α) (Ng : ℕ) : α :=
  let m := f3_moments P Ng
  sqrt (m.2 - m.1 * m.1)

/-- Correlation, `f3_corr`. -/
def f3_corr (sqrt : α → α) (P : ℕ → ℕ → α) (Ng : ℕ) : Val α :=
  let meanx := (f3_moments P Ng).1
  let meany := meanx
  let stddevx := f3_stddevx sqrt P Ng
  let stddevy := stddevx
  let tmp := forLoop 0 Ng (fun i tmp =>
    forLoop 0 Ng (fun j tmp => tmp + ((i * j : ℕ) : α) * P i j) tmp) 0
  cdiv (tmp - meanx * meany) (stddevx * stddevy)

/-- Sum of Squares: Variance, `f4_var`. -/
def f4_var (P : ℕ → ℕ → α) (Ng : ℕ) : α :=
  let mean := forLoop 0 Ng (fun i mean =>
    forLoop 0 Ng (fun j mean => mean + (i : α) * P i j) mean) 0
  forLoop 0 Ng (fun i var =>
    forLoop 0 Ng (fun j var => var + ((i : α) - mean) * ((i : α) - mean) * P i j) var) 0

/-- Inverse Difference Moment, `f5_idm`; the divisor `1 + (i - j) * (i - j)` is an `int`. -/
def f5_idm (P : ℕ → ℕ → α) (Ng : ℕ) : α :=
  forLoop 0 Ng (fun i idm =>
    forLoop 0 Ng (fun j idm =>
      idm + P i j / ((1 + ((i : ℤ) - (j : ℤ)) * ((i : ℤ) - (j : ℤ)) : ℤ) : α)) idm) 0

/-- The loop `for (i = 0; i <= 2 * Ng; ++i) Pxpy[i] = 0;` on the shared scratch array. -/
def Pxpy_reset (Ng : ℕ) (Pxpy : ℕ → α) : ℕ → α :=
  forLoop 0 (2 * Ng + 1) (fun i v => Function.update v i 0) Pxpy

/-- The loop nest `Pxpy[i + j + off] += P[i][j]` (`off` is 0 in `f6_savg`, `f7_svar`
and 2 in `f8_sentropy`). -/
def Pxpy_sum (P : ℕ → ℕ → α) (Ng off : ℕ) (Pxpy : ℕ → α) : ℕ → α :=
  forLoop 0 Ng (fun i v =>
    forLoop 0 Ng (fun j v => Function.update v (i + j + off) (v (i + j + off) + P i j)) v) Pxpy

/-- The loop nest `Pxpy[abs (i - j)] += P[i][j]` of `f10_dvar` and `f11_dentropy`. -/
def Pxpy_diff (P : ℕ → ℕ → α) (Ng : ℕ) (Pxpy : ℕ → α) : ℕ → α :=
  forLoop 0 Ng (fun i v =>
    forLoop 0 Ng (fun j v =>
      Function.update v (Int.natAbs ((i : ℤ) - (j : ℤ)))
        (v (Int.natAbs ((i : ℤ) - (j : ℤ))) + P i j)) v) Pxpy

/-- Sum Average, `f6_savg`: the result and the scratch array it leaves behind.
The last loop runs over `0 <= i <= 2 * Ng - 2`. -/
def f6_savg (P : ℕ → ℕ → α) (Ng : ℕ) (Pxpy : ℕ → α) : α × (ℕ → α) :=
  let Pxpy := Pxpy_sum P Ng 0 (Pxpy_reset Ng Pxpy)
  (forLoop 0 (2 * Ng - 1) (fun i savg => savg + (i : α) * Pxpy i) 0, Pxpy)

/-- Sum Variance, `f7_svar (P, Ng, S)`. -/
def f7_svar (P : ℕ → ℕ → α) (Ng : ℕ) (S : α) (Pxpy : ℕ → α) : α × (ℕ → α) :=
  let Pxpy := Pxpy_sum P Ng 0 (Pxpy_reset Ng Pxpy)
  (forLoop 0 (2 * Ng - 1) (fun i var => var + ((i : α) - S) * ((i : α) - S) * Pxpy i) 0, Pxpy)

/-- Sum Entropy, `f8_sentropy`; the last loop runs over `2 <= i <= 2 * Ng`. -/
def f8_sentropy (log10 : α → α) (P : ℕ → ℕ → α) (Ng : ℕ) (Pxpy : ℕ → α) : α × (ℕ → α) :=
  let Pxpy := Pxpy_sum P Ng 2 (Pxpy_reset Ng Pxpy)
  (forLoop 2 (2 * Ng + 1) (fun i sentropy =>
      sentropy - Pxpy i * log10 (Pxpy i + EPSILON) / log10 2) 0, Pxpy)

/-- Entropy, `f9_entropy`. -/
def f9_entropy (log10 : α → α) (P : ℕ → ℕ → α) (Ng : ℕ) : α :=
  - forLoop 0 Ng (fun i entropy =>
      forLoop 0 Ng (fun j entropy =>
        entropy + P i j * log10 (P i j + EPSILON) / log10 2) entropy) 0

/-- Difference Variance, `f10_dvar`. The loop state is `(sum, sum_sqr)`. -/
def f10_dvar (P : ℕ → ℕ → α) (Ng : ℕ) (Pxpy : ℕ → α) : α × (ℕ → α) :=
  let Pxpy := Pxpy_diff P Ng (Pxpy_reset Ng Pxpy)
  let st := forLoop 0 Ng (fun i (st : α × α) =>
    (st.1 + (i : α) * Pxpy i, st.2 + ((i * i : ℕ) : α) * Pxpy i)) (0, 0)
  (st.2 - st.1 * st.1, Pxpy)

/-- Difference Entropy, `f11_dentropy`. -/
def f11_dentropy (log10 : α → α) (P : ℕ → ℕ → α) (Ng : ℕ) (Pxpy : ℕ → α) : α × (ℕ → α) :=
  let Pxpy := Pxpy_diff P Ng (Pxpy_reset Ng Pxpy)
  (- forLoop 0 Ng (fun i sum => sum + Pxpy i * log10 (Pxpy i + EPSILON) / log10 2) 0, Pxpy)

/-- The marginals `(px, py)` built by the first loop nest of `f12_icorr`, `f13_icorr`
and `f14_maxcorr` from zeroed vectors. -/
def marginals (P : ℕ → ℕ → α) (Ng : ℕ) : (ℕ → α) × (ℕ → α) :=
  forLoop 0 Ng (fun i (m : (ℕ → α) × (ℕ → α)) =>
    forLoop 0 Ng (fun j (m : (ℕ → α) × (ℕ → α)) =>
      (Function.update m.1 i (m.1 i + P i j), Function.update m.2 j (m.2 j + P i j))) m)
    (pgm_vector 0 Ng (fun _ => 0), pgm_vector 0 Ng (fun _ => 0))

/-- The local `hxy` of `f12_icorr` and `f13_icorr`. -/
def icorr_hxy (log10 : α → α) (P : ℕ → ℕ → α) (Ng : ℕ) : α :=
  forLoop 0 Ng (fun i hxy =>
    forLoop 0 Ng (fun j hxy => hxy - P i j * log10 (P i j + EPSILON) / log10 2) hxy) 0

/-- The local `hxy1` of `f12_icorr`. -/
def icorr_hxy1 (log10 : α → α) (P : ℕ → ℕ → α) (Ng : ℕ) : α :=
  let m := marginals P Ng
  forLoop 0 Ng (fun i hxy1 =>
    forLoop 0 Ng (fun j hxy1 =>
      hxy1 - P i j * log10 (m.1 i * m.2 j + EPSILON) / log10 2) hxy1) 0

/-- The local `hxy2` of `f13_icorr`. -/
def icorr_hxy2 (log10 : α → α) (P : ℕ → ℕ → α) (Ng : ℕ) : α :=
  let m := marginals P Ng
  forLoop 0 Ng (fun i hxy2 =>
    forLoop 0 Ng (fun j hxy2 =>
      hxy2 - m.1 i * m.2 j * log10 (m.1 i * m.2 j + EPSILON) / log10 2) hxy2) 0

/-- The pair `(hx, hy)` of marginal entropies of `f12_icorr`. -/
def icorr_hx_hy (log10 : α → α) (P : ℕ → ℕ → α) (Ng : ℕ) : α × α :=
  let m := marginals P Ng
  forLoop 0 Ng (fun i (h : α × α) =>
    (h.1 - m.1 i * log10 (m.1 i + EPSILON) / log10 2,
     h.2 - m.2 i * log10 (m.2 i + EPSILON) / log10 2)) (0, 0)

/-- Information Measure of Correlation 1, `f12_icorr` (the unused local `hxy2` is left out). -/
def f12_icorr (log10 : α → α) (P : ℕ → ℕ → α) (Ng : ℕ) : Val α :=
  let hxy := icorr_hxy log10 P Ng
  let hxy1 := icorr_hxy1 log10 P Ng
  let h := icorr_hx_hy log10 P Ng
  cdiv (hxy - hxy1) (if h.1 > h.2 then h.1 else h.2)

/-- Information Measure of Correlation 2, `f13_icorr` (the unused locals `hxy1`, `hx`, `hy`
are left out). The source calls the integer function `abs`, so its argument is converted
to `int` first. -/
def f13_icorr [FloorRing α] (sqrt log10 exp : α → α) (P : ℕ → ℕ → α) (Ng : ℕ) : α :=
  let hxy := icorr_hxy log10 P Ng
  let hxy2 := icorr_hxy2 log10 P Ng
  sqrt (((Int.natAbs (ctrunc (1 - exp (-2 * (hxy2 - hxy)))) : ℤ) : α))

/-! ### The eigenvalue engine -/

/-- Store `v` in cell `[i][j]` of a matrix. -/
def setM (a : ℕ → ℕ → α) (i j : ℕ) (v : α) : ℕ → ℕ → α :=
  fun i' j' => if i' = i ∧ j' = j then v else a i' j'

/-- The macro `SIGN(x,y) ((y)<0 ? -fabs(x) : fabs(x))`. -/
def SIGN (x y : α) : α := if y < 0 then -|x| else |x|

/-- C loop `for (i = lo; i < hi; ++i) body` whose body may fail to terminate. -/
def forLoopO {σ : Type} (lo hi : ℕ) (body : ℕ → σ → Option σ) (s : σ) : Option σ :=
  (List.range' lo (hi - lo)).foldlM (fun acc i => body i acc) s

/-- The disabled helper `simplesrt (n, arr)`: insertion sort of `arr[1..n]`; the inner
`while` moves larger entries up, `i` steps down from `j - 1`. -/
def simplesrt_insert (a : α) : ℕ → (ℕ → α) → ℕ → α
  | 0, arr => Function.update arr 1 a
  | i + 1, arr =>
    if arr (i + 1) > a then simplesrt_insert a i (Function.update arr (i + 2) (arr (i + 1)))
    else Function.update arr (i + 2) a

/-- The disabled helper `simplesrt (n, arr)`. -/
def simplesrt (n : ℕ) (arr : ℕ → α) : ℕ → α :=
  forLoop 2 (n + 1) (fun j arr => simplesrt_insert (arr j) (j - 1) arr) arr

/-- The loop `while (c < g) { f *= RADIX; c *= sqrdx; }` of `mkbalanced`; state `(f, c)`. -/
def mkbalanced_up : ℕ → α → α × α → Option (α × α)
  | 0, _, _ => none
  | fuel + 1, g, fc =>
    if fc.2 < g then mkbalanced_up fuel g (fc.1 * RADIX, fc.2 * (RADIX * RADIX))
    else some fc

/-- The loop `while (c > g) { f /= RADIX; c /= sqrdx; }` of `mkbalanced`; state `(f, c)`. -/
def mkbalanced_down : ℕ → α → α × α → Option (α × α)
  | 0, _, _ => none
  | fuel + 1, g, fc =>
    if fc.2 > g then mkbalanced_down fuel g (fc.1 / RADIX, fc.2 / (RADIX * RADIX))
    else some fc

/-- The pair `(c, r)` of off-diagonal column and row norms of index `i` in `mkbalanced`. -/
def mkbalanced_norms (a : ℕ → ℕ → α) (n i : ℕ) : α × α :=
  forLoop 1 (n + 1) (fun j (cr : α × α) =>
    if j ≠ i then (cr.1 + |a j i|, cr.2 + |a i j|) else cr) (0, 0)

/-- The scaling `a[i][j] *= g` for all `j`, then `a[j][i] *= f` for all `j`. -/
def mkbalanced_scale (a : ℕ → ℕ → α) (n i : ℕ) (f : α) : ℕ → ℕ → α :=
  let g := 1 / f
  let a := forLoop 1 (n + 1) (fun j a => setM a i j (a i j * g)) a
  forLoop 1 (n + 1) (fun j a => setM a j i (a j i * f)) a

/-- Body of the loop over `i` in `mkbalanced`; the state is `(a, last)`, where `last = true`
stands for `last == 1`. -/
def mkbalanced_row (fuel n i : ℕ) (st : (ℕ → ℕ → α) × Bool) : Option ((ℕ → ℕ → α) × Bool) :=
  let cr := mkbalanced_norms st.1 n i
  let c := cr.1
  let r := cr.2
  if c ≠ 0 ∧ r ≠ 0 then
    let g := r / RADIX
    let s := c + r
    match mkbalanced_up fuel g (1, c) with
    | none => none
    | some fc =>
      let g := r * RADIX
      match mkbalanced_down fuel g fc with
      | none => none
      | some fc =>
        if (fc.2 + r) / fc.1 < 95 / 100 * s then
          some (mkbalanced_scale st.1 n i fc.1, false)
        else some st
  else some st

/-- The loop `while (last == 0)` of `mkbalanced`, entered with `last == 0`. -/
def mkbalanced_loop (fuel0 n : ℕ) : ℕ → (ℕ → ℕ → α) → Option (ℕ → ℕ → α)
  | 0, _ => none
  | fuel + 1, a =>
    match forLoopO 1 (n + 1) (mkbalanced_row fuel0 n) (a, true) with
    | none => none
    | some st => if st.2 = false then mkbalanced_loop fuel0 n fuel st.1 else some st.1

/-- Balancing, `mkbalanced (a, n)`; `none` when one of its `while` loops has not finished
within `fuel` iterations. -/
def mkbalanced (fuel : ℕ) (a : ℕ → ℕ → α) (n : ℕ) : Option (ℕ → ℕ → α) :=
  mkbalanced_loop fuel n fuel a

/-- Pivot search of `reduction`: the state is `(x, i)`. -/
def reduction_pivot (a : ℕ → ℕ → α) (n m : ℕ) : α × ℕ :=
  forLoop m (n + 1) (fun j (xi : α × ℕ) =>
    if |a j (m - 1)| > |xi.1| then (a j (m - 1), j) else xi) (0, m)

/-- Row and column interchange of `reduction`, by the macro `SWAP`. -/
def reduction_swap (a : ℕ → ℕ → α) (n m i : ℕ) : ℕ → ℕ → α :=
  let a := forLoop (m - 1) (n + 1) (fun j a =>
    let y := a i j
    setM (setM a i j (a m j)) m j y) a
  forLoop 1 (n + 1) (fun j a =>
    let y := a j i
    setM (setM a j i (a j m)) j m y) a

/-- Elimination loop of `reduction` for the pivot `x`. -/
def reduction_elim (a : ℕ → ℕ → α) (n m : ℕ) (x : α) : ℕ → ℕ → α :=
  forLoop (m + 1) (n + 1) (fun i a =>
    let y := a i (m - 1)
    if y ≠ 0 then
      let y := y / x
      let a := setM a i (m - 1) y
      let a := forLoop m (n + 1) (fun j a => setM a i j (a i j - y * a m j)) a
      forLoop 1 (n + 1) (fun j a => setM a j m (a j m + y * a j i)) a
    else a) a

/-- Reduction to Hessenberg form, `reduction (a, n)`. The statement `a[j][i] = a[j][i];`
that follows the interchange stores a cell into itself and is left out. -/
def reduction (a : ℕ → ℕ → α) (n : ℕ) : ℕ → ℕ → α :=
  forLoop 2 n (fun m a =>
    let xi := reduction_pivot a n m
    let a := if xi.2 ≠ m then reduction_swap a n m xi.2 else a
    if xi.1 ≠ 0 then reduction_elim a n m xi.1 else a) a

/-- Program state of `hessenberg`. Three lists observe the run without influencing it:
`wrLog` and `wiLog` record, oldest first, the index of every assignment to `wr[]` and to
`wi[]`, and `qrLog` records the value of `nn` at every QR iteration. -/
structure HState (α : Type) where
  a : ℕ → ℕ → α
  wr : ℕ → α
  wi : ℕ → α
  wrLog : List ℕ
  wiLog : List ℕ
  qrLog : List ℕ
  t : α
  nn : ℕ
  its : ℕ
  l : ℕ

/-- The assignment `wr[i] = v`. -/
def HState.setWr (st : HState α) (i : ℕ) (v : α) : HState α :=
  { st with wr := Function.update st.wr i v, wrLog := st.wrLog ++ [i] }

/-- The assignment `wi[i] = v`. -/
def HState.setWi (st : HState α) (i : ℕ) (v : α) : HState α :=
  { st with wi := Function.update st.wi i v, wiLog := st.wiLog ++ [i] }

/-- Outcome of one run of the `do ... while (l < nn - 1)` loop of `hessenberg`. -/
inductive HStep (α : Type) where
  | next : HState α → HStep α
  | giveUp : HState α → HStep α
  | noFuel : HStep α

/-- Outcome of `hessenberg`: the value it returns with its final state, or no return. -/
inductive HResult (α : Type) where
  | ret : ℕ → HState α → HResult α
  | diverged : HResult α

/-- The local `anorm` of `hessenberg`. -/
def hess_anorm (a : ℕ → ℕ → α) (n : ℕ) : α :=
  forLoop 2 (n + 1) (fun i anorm =>
    forLoop (i - 1) (n + 1) (fun j anorm => anorm + |a i j|) anorm) |a 1 1|

/-- The scan `for (l = nn; l >= 2; l--)` for a negligible subdiagonal entry; the result is
the value of `l` after the loop. -/
def hess_scan (a : ℕ → ℕ → α) (anorm : α) : ℕ → ℕ
  | 0 => 0
  | 1 => 1
  | l + 2 =>
    let s := |a (l + 1) (l + 1)| + |a (l + 2) (l + 2)|
    let s := if s = 0 then anorm else s
    if |a (l + 2) (l + 1)| + s = s then l + 2 else hess_scan a anorm (l + 1)

/-- The values `(p, q, r)` computed at index `m` in the loop over `m`. -/
def hess_pqr (a : ℕ → ℕ → α) (x y w : α) (m : ℕ) : α × α × α :=
  let z := a m m
  let r := x - z
  let s := y - z
  let p := (r * s - w) / a (m + 1) m + a m (m + 1)
  let q := a (m + 1) (m + 1) - z - r - s
  let r := a (m + 2) (m + 1)
  let s := |p| + |q| + |r|
  (p / s, q / s, r / s)

/-- The loop `for (m = nn - 2; m >= l; m--)`, started at `m` with the locals `(p, q, r)`;
the result is `m` and `(p, q, r)` after the loop. -/
def hess_mloop (a : ℕ → ℕ → α) (l : ℕ) (x y w : α) : ℕ → α × α × α → ℕ × (α × α × α)
  | 0, pqr => if l = 0 then (0, hess_pqr a x y w 0) else (0, pqr)
  | m + 1, pqr =>
    if m + 1 < l then (m + 1, pqr)
    else
      let pqr' := hess_pqr a x y w (m + 1)
      if m + 1 = l then (m + 1, pqr')
      else
        let z := a (m + 1) (m + 1)
        let u := |a (m + 1) m| * (|pqr'.2.1| + |pqr'.2.2|)
        let v := |pqr'.1| * (|a m m| + |z| + |a (m + 2) (m + 2)|)
        if u + v = v then (m + 1, pqr') else hess_mloop a l x y w m pqr'

/-- The loop `for (i = m + 2; i <= nn; i++)` that clears `a[i][i-2]` and `a[i][i-3]`. -/
def hess_clear (a : ℕ → ℕ → α) (m nn : ℕ) : ℕ → ℕ → α :=
  forLoop (m + 2) (nn + 1) (fun i a =>
    let a := setM a i (i - 2) 0
    if i ≠ m + 2 then setM a i (i - 3) 0 else a) a

/-- Row update `for (j = k; j <= nn; j++)` of a QR step; state `(a, p)`. -/
def hess_rows (k nn : ℕ) (q r x y z : α) (st : (ℕ → ℕ → α) × α) : (ℕ → ℕ → α) × α :=
  forLoop k (nn + 1) (fun j (st : (ℕ → ℕ → α) × α) =>
    let a := st.1
    let p := a k j + q * a (k + 1) j
    let p := if k ≠ nn - 1 then p + r * a (k + 2) j else p
    let a := if k ≠ nn - 1 then setM a (k + 2) j (a (k + 2) j - p * z) else a
    let a := setM a (k + 1) j (a (k + 1) j - p * y)
    let a := setM a k j (a k j - p * x)
    (a, p)) st

/-- Column update `for (i = l; i <= mmin; i++)` of a QR step; state `(a, p)`. -/
def hess_cols (l k nn : ℕ) (q r x y z : α) (st : (ℕ → ℕ → α) × α) : (ℕ → ℕ → α) × α :=
  let mmin := if nn < k + 3 then nn else k + 3
  forLoop l (mmin + 1) (fun i (st : (ℕ → ℕ → α) × α) =>
    let a := st.1
    let p := x * a i k + y * a i (k + 1)
    let p := if k ≠ nn - 1 then p + z * a i (k + 2) else p
    let a := if k ≠ nn - 1 then setM a i (k + 2) (a i (k + 2) - p * r) else a
    let a := setM a i (k + 1) (a i (k + 1) - p * q)
    let a := setM a i k (a i k - p)
    (a, p)) st

/-- Locals that the loop over `k` carries from one pass to the next. -/
structure KState (α : Type) where
  a : ℕ → ℕ → α
  p : α
  q : α
  r : α
  x : α

/-- Body of the loop `for (k = m; k <= nn - 1; k++)` of a QR step. -/
def hess_kstep (sqrt : α → α) (l m nn k : ℕ) (st : KState α) : KState α :=
  let p0 := st.a k (k - 1)
  let q0 := st.a (k + 1) (k - 1)
  let r0 := if k ≠ nn - 1 then st.a (k + 2) (k - 1) else 0
  let x0 := |p0| + |q0| + |r0|
  let p := if k ≠ m then (if x0 ≠ 0 then p0 / x0 else p0) else st.p
  let q := if k ≠ m then (if x0 ≠ 0 then q0 / x0 else q0) else st.q
  let r := if k ≠ m then (if x0 ≠ 0 then r0 / x0 else r0) else st.r
  let x := if k ≠ m then x0 else st.x
  let s := SIGN (sqrt (p * p + q * q + r * r)) p
  if s ≠ 0 then
    let a := if k = m then (if l ≠ m then setM st.a k (k - 1) (-(st.a k (k - 1))) else st.a)
      else setM st.a k (k - 1) (-s * x)
    let p := p + s
    let x := p / s
    let y := q / s
    let z := r / s
    let q := q / p
    let r := r / p
    let ap := hess_rows k nn q r x y z (a, p)
    let ap := hess_cols l k nn q r x y z ap
    { a := ap.1, p := ap.2, q := q, r := r, x := x }
  else { a := st.a, p := p, q := q, r := r, x := x }

/-- One QR iteration of `hessenberg` on the block `l..nn` (the branch that follows the
test `its == 30`), with `x = a[nn][nn]`, `y` and `w` already set. -/
def hess_qr (sqrt : α → α) (st : HState α) (l : ℕ) (x y w : α) : HState α :=
  let nn := st.nn
  let exc : Bool := st.its = 10 ∨ st.its = 20
  let t := if exc then st.t + x else st.t
  let a := if exc then forLoop 1 (nn + 1) (fun i a => setM a i i (a i i - x)) st.a else st.a
  let s := |a nn (nn - 1)| + |a (nn - 1) (nn - 2)|
  let x := if exc then 75 / 100 * s else x
  let y := if exc then 75 / 100 * s else y
  let w := if exc then -(4375 / 10000) * s * s else w
  let mp := hess_mloop a l x y w (nn - 2) (0, 0, 0)
  let m := mp.1
  let a := hess_clear a m nn
  let ks := forLoop m nn (hess_kstep sqrt l m nn)
    { a := a, p := mp.2.1, q := mp.2.2.1, r := mp.2.2.2, x := x }
  { st with a := ks.a, t := t, its := st.its + 1, l := l, qrLog := st.qrLog ++ [nn] }

/-- Deflation of one root: `wr[nn] = x + t; wi[nn--] = 0.0;`. -/
def hess_deflate1 (st : HState α) (l : ℕ) : HState α :=
  let x := st.a st.nn st.nn
  let st := (st.setWr st.nn (x + st.t)).setWi st.nn 0
  { st with nn := st.nn - 1, l := l }

/-- Deflation of two roots, the branch `l == nn - 1`. -/
def hess_deflate2 (sqrt : α → α) (st : HState α) (l : ℕ) : HState α :=
  let nn := st.nn
  let x := st.a nn nn
  let y := st.a (nn - 1) (nn - 1)
  let w := st.a nn (nn - 1) * st.a (nn - 1) nn
  let p := 1 / 2 * (y - x)
  let q := p * p + w
  let z := sqrt |q|
  let x := x + st.t
  let st :=
    if q ≥ 0 then
      let z := p + SIGN z p
      let st := (st.setWr nn (x + z)).setWr (nn - 1) (x + z)
      let st := if z ≠ 0 then st.setWr nn (x - w / z) else st
      (st.setWi nn 0).setWi (nn - 1) 0
    else
      let st := (st.setWr nn (x + p)).setWr (nn - 1) (x + p)
      (st.setWi nn z).setWi (nn - 1) (-z)
  { st with nn := nn - 2, l := l }

/-- The loop `do ... while (l < nn - 1)` of `hessenberg`. Inside the loop `1 <= l <= nn`,
so the tests `l == nn - 1` and `l < nn - 1` are written `l + 1 = nn` and `l + 1 < nn`. -/
def hess_dowhile (sqrt : α → α) (anorm : α) : ℕ → HState α → HStep α
  | 0, _ => HStep.noFuel
  | fuel + 1, st =>
    let l := hess_scan st.a anorm st.nn
    if l = st.nn then
      let st := hess_deflate1 st l
      if l + 1 < st.nn then hess_dowhile sqrt anorm fuel st else HStep.next st
    else if l + 1 = st.nn then
      let st := hess_deflate2 sqrt st l
      if l + 1 < st.nn then hess_dowhile sqrt anorm fuel st else HStep.next st
    else if st.its = 30 then HStep.giveUp { st with l := l }
    else
      let x := st.a st.nn st.nn
      let y := st.a (st.nn - 1) (st.nn - 1)
      let w := st.a st.nn (st.nn - 1) * st.a (st.nn - 1) st.nn
      let st := hess_qr sqrt st l x y w
      if l + 1 < st.nn then hess_dowhile sqrt anorm fuel st else HStep.next st

/-- The loop `while (nn >= 1)` of `hessenberg`. -/
def hess_while (sqrt : α → α) (anorm : α) : ℕ → HState α → HResult α
  | 0, st => if st.nn ≥ 1 then HResult.diverged else HResult.ret 1 st
  | fuel + 1, st =>
    if st.nn ≥ 1 then
      match hess_dowhile sqrt anorm 31 { st with its := 0 } with
      | HStep.next st => hess_while sqrt anorm fuel st
      | HStep.giveUp st => HResult.ret 0 st
      | HStep.noFuel => HResult.diverged
    else HResult.ret 1 st

/-- Eigenvalues by the QR algorithm, `hessenberg (a, n, wr, wi)`. The recursion budgets
(`n` deflations, 31 passes of the inner loop) are never exhausted. -/
def hessenberg (sqrt : α → α) (a : ℕ → ℕ → α) (n : ℕ) (wr wi : ℕ → α) : HResult α :=
  hess_while sqrt (hess_anorm a n) n
    { a := a, wr := wr, wi := wi, wrLog := [], wiLog := [], qrLog := [], t := 0, nn := n,
      its := 0, l := 0 }

/-- Contents of freshly allocated memory that `f14_maxcorr` does not initialise itself:
the matrix `Q` and what surrounds the vectors `x` and `iy`. -/
structure Mem (α : Type) where
  Q : ℕ → ℕ → α
  x : ℕ → α
  iy : ℕ → α

/-- One term `P[i][k] * P[j][k] / px[i] / py[k]` of the matrix `Q`. -/
def f14_term (P : ℕ → ℕ → α) (px py : ℕ → α) (i j k : ℕ) : Val α :=
  match cdiv (P i k * P j k) (px i) with
  | Val.num t => cdiv t (py k)
  | Val.undef => Val.undef

/-- The loop nest of `f14_maxcorr` that finds the matrix `Q`; `none` when a term divides by
zero. -/
def f14_Q (P : ℕ → ℕ → α) (Ng : ℕ) (px py : ℕ → α) (Q : ℕ → ℕ → α) : Option (ℕ → ℕ → α) :=
  forLoopO 0 Ng (fun i Q =>
    forLoopO 0 Ng (fun j Q =>
      forLoopO 0 Ng (fun k Q =>
        match f14_term P px py i j k with
        | Val.num t => some (setM Q (i + 1) (j + 1) (Q (i + 1) (j + 1) + t))
        | Val.undef => none) (setM Q (i + 1) (j + 1) 0)) Q) Q

/-- The matrix that `f14_maxcorr` hands to `hessenberg`: `Q`, balanced and reduced.
The outer `none` means that `mkbalanced` has not finished within `fuel`, the inner one that
the construction of `Q` divided by zero. -/
def f14_derived (fuel : ℕ) (P : ℕ → ℕ → α) (Ng : ℕ) (mem : Mem α) :
    Option (Option (ℕ → ℕ → α)) :=
  let m := marginals P Ng
  match f14_Q P Ng m.1 m.2 mem.Q with
  | none => some none
  | some Q =>
    match mkbalanced fuel Q Ng with
    | none => none
    | some Q => some (some (reduction Q Ng))

/-! ### The eigenvalue engine on values that are not numbers

When the construction of `Q` divides by zero, `f14_maxcorr` goes on with a matrix that holds
non-numbers. The definitions of this section embed `mkbalanced`, `reduction` and `hessenberg`
a second time, on `Val`: an operation with a non-number operand gives a non-number, a
comparison with a non-number is false, and a non-number counts as non-zero in a condition,
as for an IEEE NaN. A quotient by zero is a non-number, as in `cdiv`. -/

/-- The sum `x + y` of C floating values. -/
def Val.add : Val α → Val α → Val α
  | Val.num x, Val.num y => Val.num (x + y)
  | _, _ => Val.undef

/-- The difference `x - y` of C floating values. -/
def Val.sub : Val α → Val α → Val α
  | Val.num x, Val.num y => Val.num (x - y)
  | _, _ => Val.undef

/-- The product `x * y` of C floating values. -/
def Val.mul : Val α → Val α → Val α
  | Val.num x, Val.num y => Val.num (x * y)
  | _, _ => Val.undef

/-- The quotient `x / y` of C floating values. -/
def Val.div : Val α → Val α → Val α
  | Val.num x, Val.num y => cdiv x y
  | _, _ => Val.undef

/-- The opposite `-x` of a C floating value. -/
def Val.neg : Val α → Val α
  | Val.num x => Val.num (-x)
  | Val.undef => Val.undef

/-- The library function `fabs` on C floating values. -/
def Val.abs : Val α → Val α
  | Val.num x => Val.num |x|
  | Val.undef => Val.undef

/-- A library function such as `sqrt` on C floating values. -/
def Val.map (f : α → α) : Val α → Val α
  | Val.num x => Val.num (f x)
  | Val.undef => Val.undef

/-- The comparison `x < y` of C floating values. -/
def Val.lt : Val α → Val α → Bool
  | Val.num x, Val.num y => decide (x < y)
  | _, _ => false

/-- The comparison `x <= y` of C floating values. -/
def Val.le : Val α → Val α → Bool
  | Val.num x, Val.num y => decide (x ≤ y)
  | _, _ => false

/-- The comparison `x == y` of C floating values. -/
def Val.ceq : Val α → Val α → Bool
  | Val.num x, Val.num y => decide (x = y)
  | _, _ => false

/-- The truth value of a C floating value used as a condition, `x != 0`. -/
def Val.nonzero : Val α → Bool
  | Val.num x => decide (x ≠ 0)
  | Val.undef => true

/-- The macro `SIGN(x,y) ((y)<0 ? -fabs(x) : fabs(x))` on C floating values. -/
def SIGN_nan (x y : Val α) : Val α :=
  if y.lt (Val.num 0) then x.abs.neg else x.abs

/-- The loop nest of `f14_maxcorr` that finds the matrix `Q`, with the non-numbers that the
unguarded quotients leave in it. -/
def f14_Q_nan (P : ℕ → ℕ → α) (Ng : ℕ) (px py : ℕ → α) (Q : ℕ → ℕ → Val α) :
    ℕ → ℕ → Val α :=
  forLoop 0 Ng (fun i Q =>
    forLoop 0 Ng (fun j Q =>
      forLoop 0 Ng (fun k Q =>
        setM Q (i + 1) (j + 1) ((Q (i + 1) (j + 1)).add (f14_term P px py i j k)))
        (setM Q (i + 1) (j + 1) (Val.num 0))) Q) Q

/-- The loop `while (c < g) { f *= RADIX; c *= sqrdx; }` of `mkbalanced`; state `(f, c)`. -/
def mkbalanced_up_nan : ℕ → Val α → Val α × Val α → Option (Val α × Val α)
  | 0, _, _ => none
  | fuel + 1, g, fc =>
    if fc.2.lt g then
      mkbalanced_up_nan fuel g (fc.1.mul (Val.num RADIX), fc.2.mul (Val.num (RADIX * RADIX)))
    else some fc

/-- The loop `while (c > g) { f /= RADIX; c /= sqrdx; }` of `mkbalanced`; state `(f, c)`. -/
def mkbalanced_down_nan : ℕ → Val α → Val α × Val α → Option (Val α × Val α)
  | 0, _, _ => none
  | fuel + 1, g, fc =>
    if g.lt fc.2 then
      mkbalanced_down_nan fuel g (fc.1.div (Val.num RADIX), fc.2.div (Val.num (RADIX * RADIX)))
    else some fc

/-- The pair `(c, r)` of off-diagonal column and row norms of index `i` in `mkbalanced`. -/
def mkbalanced_norms_nan (a : ℕ → ℕ → Val α) (n i : ℕ) : Val α × Val α :=
  forLoop 1 (n + 1) (fun j (cr : Val α × Val α) =>
    if j ≠ i then (cr.1.add (a j i).abs, cr.2.add (a i j).abs) else cr) (Val.num 0, Val.num 0)

/-- The scaling `a[i][j] *= g` for all `j`, then `a[j][i] *= f` for all `j`. -/
def mkbalanced_scale_nan (a : ℕ → ℕ → Val α) (n i : ℕ) (f : Val α) : ℕ → ℕ → Val α :=
  let g := (Val.num 1).div f
  let a := forLoop 1 (n + 1) (fun j a => setM a i j ((a i j).mul g)) a
  forLoop 1 (n + 1) (fun j a => setM a j i ((a j i).mul f)) a

/-- Body of the loop over `i` in `mkbalanced`; the state is `(a, last)`, where `last = true`
stands for `last == 1`. -/
def mkbalanced_row_nan (fuel n i : ℕ) (st : (ℕ → ℕ → Val α) × Bool) :
    Option ((ℕ → ℕ → Val α) × Bool) :=
  let cr := mkbalanced_norms_nan st.1 n i
  let c := cr.1
  let r := cr.2
  if c.nonzero ∧ r.nonzero then
    let g := r.div (Val.num RADIX)
    let s := c.add r
    match mkbalanced_up_nan fuel g (Val.num 1, c) with
    | none => none
    | some fc =>
      let g := r.mul (Val.num RADIX)
      match mkbalanced_down_nan fuel g fc with
      | none => none
      | some fc =>
        if ((fc.2.add r).div fc.1).lt ((Val.num (95 / 100)).mul s) then
          some (mkbalanced_scale_nan st.1 n i fc.1, false)
        else some st
  else some st

/-- The loop `while (last == 0)` of `mkbalanced`, entered with `last == 0`. -/
def mkbalanced_loop_nan (fuel0 n : ℕ) : ℕ → (ℕ → ℕ → Val α) → Option (ℕ → ℕ → Val α)
  | 0, _ => none
  | fuel + 1, a =>
    match forLoopO 1 (n + 1) (mkbalanced_row_nan fuel0 n) (a, true) with
    | none => none
    | some st => if st.2 = false then mkbalanced_loop_nan fuel0 n fuel st.1 else some st.1

/-- Balancing, `mkbalanced (a, n)`, on a matrix that may hold non-numbers; `none` when one
of its `while` loops has not finished within `fuel` iterations. -/
def mkbalanced_nan (fuel : ℕ) (a : ℕ → ℕ → Val α) (n : ℕ) : Option (ℕ → ℕ → Val α) :=
  mkbalanced_loop_nan fuel n fuel a

/-- Pivot search of `reduction`: the state is `(x, i)`. -/
def reduction_pivot_nan (a : ℕ → ℕ → Val α) (n m : ℕ) : Val α × ℕ :=
  forLoop m (n + 1) (fun j (xi : Val α × ℕ) =>
    if xi.1.abs.lt (a j (m - 1)).abs then (a j (m - 1), j) else xi) (Val.num 0, m)

/-- Elimination loop of `reduction` for the pivot `x`. -/
def reduction_elim_nan (a : ℕ → ℕ → Val α) (n m : ℕ) (x : Val α) : ℕ → ℕ → Val α :=
  forLoop (m + 1) (n + 1) (fun i a =>
    let y := a i (m - 1)
    if y.nonzero then
      let y := y.div x
      let a := setM a i (m - 1) y
      let a := forLoop m (n + 1) (fun j a => setM a i j ((a i j).sub (y.mul (a m j)))) a
      forLoop 1 (n + 1) (fun j a => setM a j m ((a j m).add (y.mul (a j i)))) a
    else a) a

/-- Reduction to Hessenberg form, `reduction (a, n)`, on a matrix that may hold
non-numbers. -/
def reduction_nan (a : ℕ → ℕ → Val α) (n : ℕ) : ℕ → ℕ → Val α :=
  forLoop 2 n (fun m a =>
    let xi := reduction_pivot_nan a n m
    let a := if xi.2 ≠ m then reduction_swap a n m xi.2 else a
    if xi.1.nonzero then reduction_elim_nan a n m xi.1 else a) a

/-- The local `anorm` of `hessenberg`. -/
def hess_anorm_nan (a : ℕ → ℕ → Val α) (n : ℕ) : Val α :=
  forLoop 2 (n + 1) (fun i anorm =>
    forLoop (i - 1) (n + 1) (fun j (anorm : Val α) => anorm.add (a i j).abs) anorm)
    (a 1 1).abs

/-- The scan `for (l = nn; l >= 2; l--)` for a negligible subdiagonal entry; the result is
the value of `l` after the loop. -/
def hess_scan_nan (a : ℕ → ℕ → Val α) (anorm : Val α) : ℕ → ℕ
  | 0 => 0
  | 1 => 1
  | l + 2 =>
    let s := (a (l + 1) (l + 1)).abs.add (a (l + 2) (l + 2)).abs
    let s := if s.ceq (Val.num 0) then anorm else s
    if ((a (l + 2) (l + 1)).abs.add s).ceq s then l + 2 else hess_scan_nan a anorm (l + 1)

/-- The values `(p, q, r)` computed at index `m` in the loop over `m`. -/
def hess_pqr_nan (a : ℕ → ℕ → Val α) (x y w : Val α) (m : ℕ) : Val α × Val α × Val α :=
  let z := a m m
  let r := x.sub z
  let s := y.sub z
  let p := (((r.mul s).sub w).div (a (m + 1) m)).add (a m (m + 1))
  let q := (((a (m + 1) (m + 1)).sub z).sub r).sub s
  let r := a (m + 2) (m + 1)
  let s := (p.abs.add q.abs).add r.abs
  (p.div s, q.div s, r.div s)

/-- The loop `for (m = nn - 2; m >= l; m--)`, started at `m` with the locals `(p, q, r)`;
the result is `m` and `(p, q, r)` after the loop. -/
def hess_mloop_nan (a : ℕ → ℕ → Val α) (l : ℕ) (x y w : Val α) :
    ℕ → Val α × Val α × Val α → ℕ × (Val α × Val α × Val α)
  | 0, pqr => if l = 0 then (0, hess_pqr_nan a x y w 0) else (0, pqr)
  | m + 1, pqr =>
    if m + 1 < l then (m + 1, pqr)
    else
      let pqr' := hess_pqr_nan a x y w (m + 1)
      if m + 1 = l then (m + 1, pqr')
      else
        let z := a (m + 1) (m + 1)
        let u := (a (m + 1) m).abs.mul (pqr'.2.1.abs.add pqr'.2.2.abs)
        let v := pqr'.1.abs.mul (((a m m).abs.add z.abs).add (a (m + 2) (m + 2)).abs)
        if (u.add v).ceq v then (m + 1, pqr') else hess_mloop_nan a l x y w m pqr'

/-- The loop `for (i = m + 2; i <= nn; i++)` that clears `a[i][i-2]` and `a[i][i-3]`. -/
def hess_clear_nan (a : ℕ → ℕ → Val α) (m nn : ℕ) : ℕ → ℕ → Val α :=
  forLoop (m + 2) (nn + 1) (fun i a =>
    let a := setM a i (i - 2) (Val.num 0)
    if i ≠ m + 2 then setM a i (i - 3) (Val.num 0) else a) a

/-- Row update `for (j = k; j <= nn; j++)` of a QR step; state `(a, p)`. -/
def hess_rows_nan (k nn : ℕ) (q r x y z : Val α) (st : (ℕ → ℕ → Val α) × Val α) :
    (ℕ → ℕ → Val α) × Val α :=
  forLoop k (nn + 1) (fun j (st : (ℕ → ℕ → Val α) × Val α) =>
    let a := st.1
    let p := (a k j).add (q.mul (a (k + 1) j))
    let p := if k ≠ nn - 1 then p.add (r.mul (a (k + 2) j)) else p
    let a := if k ≠ nn - 1 then setM a (k + 2) j ((a (k + 2) j).sub (p.mul z)) else a
    let a := setM a (k + 1) j ((a (k + 1) j).sub (p.mul y))
    let a := setM a k j ((a k j).sub (p.mul x))
    (a, p)) st

/-- Column update `for (i = l; i <= mmin; i++)` of a QR step; state `(a, p)`. -/
def hess_cols_nan (l k nn : ℕ) (q r x y z : Val α) (st : (ℕ → ℕ → Val α) × Val α) :
    (ℕ → ℕ → Val α) × Val α :=
  let mmin := if nn < k + 3 then nn else k + 3
  forLoop l (mmin + 1) (fun i (st : (ℕ → ℕ → Val α) × Val α) =>
    let a := st.1
    let p := (x.mul (a i k)).add (y.mul (a i (k + 1)))
    let p := if k ≠ nn - 1 then p.add (z.mul (a i (k + 2))) else p
    let a := if k ≠ nn - 1 then setM a i (k + 2) ((a i (k + 2)).sub (p.mul r)) else a
    let a := setM a i (k + 1) ((a i (k + 1)).sub (p.mul q))
    let a := setM a i k ((a i k).sub p)
    (a, p)) st

/-- Body of the loop `for (k = m; k <= nn - 1; k++)` of a QR step. -/
def hess_kstep_nan (sqrt : α → α) (l m nn k : ℕ) (st : KState (Val α)) : KState (Val α) :=
  let p0 := st.a k (k - 1)
  let q0 := st.a (k + 1) (k - 1)
  let r0 := if k ≠ nn - 1 then st.a (k + 2) (k - 1) else Val.num 0
  let x0 := (p0.abs.add q0.abs).add r0.abs
  let p := if k ≠ m then (if x0.nonzero then p0.div x0 else p0) else st.p
  let q := if k ≠ m then (if x0.nonzero then q0.div x0 else q0) else st.q
  let r := if k ≠ m then (if x0.nonzero then r0.div x0 else r0) else st.r
  let x := if k ≠ m then x0 else st.x
  let s := SIGN_nan (Val.map sqrt (((p.mul p).add (q.mul q)).add (r.mul r))) p
  if s.nonzero then
    let a := if k = m then (if l ≠ m then setM st.a k (k - 1) (st.a k (k - 1)).neg else st.a)
      else setM st.a k (k - 1) (s.neg.mul x)
    let p := p.add s
    let x := p.div s
    let y := q.div s
    let z := r.div s
    let q := q.div p
    let r := r.div p
    let ap := hess_rows_nan k nn q r x y z (a, p)
    let ap := hess_cols_nan l k nn q r x y z ap
    { a := ap.1, p := ap.2, q := q, r := r, x := x }
  else { a := st.a, p := p, q := q, r := r, x := x }

/-- One QR iteration of `hessenberg` on the block `l..nn` (the branch that follows the
test `its == 30`), with `x = a[nn][nn]`, `y` and `w` already set. -/
def hess_qr_nan (sqrt : α → α) (st : HState (Val α)) (l : ℕ) (x y w : Val α) :
    HState (Val α) :=
  let nn := st.nn
  let exc : Bool := st.its = 10 ∨ st.its = 20
  let t := if exc then st.t.add x else st.t
  let a := if exc then forLoop 1 (nn + 1) (fun i a => setM a i i ((a i i).sub x)) st.a
    else st.a
  let s := (a nn (nn - 1)).abs.add (a (nn - 1) (nn - 2)).abs
  let x := if exc then (Val.num (75 / 100)).mul s else x
  let y := if exc then (Val.num (75 / 100)).mul s else y
  let w := if exc then ((Val.num (-(4375 / 10000))).mul s).mul s else w
  let mp := hess_mloop_nan a l x y w (nn - 2) (Val.num 0, Val.num 0, Val.num 0)
  let m := mp.1
  let a := hess_clear_nan a m nn
  let ks := forLoop m nn (hess_kstep_nan sqrt l m nn)
    { a := a, p := mp.2.1, q := mp.2.2.1, r := mp.2.2.2, x := x }
  { st with a := ks.a, t := t, its := st.its + 1, l := l, qrLog := st.qrLog ++ [nn] }

/-- Deflation of one root: `wr[nn] = x + t; wi[nn--] = 0.0;`. -/
def hess_deflate1_nan (st : HState (Val α)) (l : ℕ) : HState (Val α) :=
  let x := st.a st.nn st.nn
  let st := (st.setWr st.nn (x.add st.t)).setWi st.nn (Val.num 0)
  { st with nn := st.nn - 1, l := l }

/-- Deflation of two roots, the branch `l == nn - 1`. -/
def hess_deflate2_nan (sqrt : α → α) (st : HState (Val α)) (l : ℕ) : HState (Val α) :=
  let nn := st.nn
  let x := st.a nn nn
  let y := st.a (nn - 1) (nn - 1)
  let w := (st.a nn (nn - 1)).mul (st.a (nn - 1) nn)
  let p := (Val.num (1 / 2)).mul (y.sub x)
  let q := (p.mul p).add w
  let z := Val.map sqrt q.abs
  let x := x.add st.t
  let st :=
    if (Val.num 0).le q then
      let z := p.add (SIGN_nan z p)
      let st := (st.setWr nn (x.add z)).setWr (nn - 1) (x.add z)
      let st := if z.nonzero then st.setWr nn (x.sub (w.div z)) else st
      (st.setWi nn (Val.num 0)).setWi (nn - 1) (Val.num 0)
    else
      let st := (st.setWr nn (x.add p)).setWr (nn - 1) (x.add p)
      (st.setWi nn z).setWi (nn - 1) z.neg
  { st with nn := nn - 2, l := l }

/-- The loop `do ... while (l < nn - 1)` of `hessenberg`. -/
def hess_dowhile_nan (sqrt : α → α) (anorm : Val α) : ℕ → HState (Val α) → HStep (Val α)
  | 0, _ => HStep.noFuel
  | fuel + 1, st =>
    let l := hess_scan_nan st.a anorm st.nn
    if l = st.nn then
      let st := hess_deflate1_nan st l
      if l + 1 < st.nn then hess_dowhile_nan sqrt anorm fuel st else HStep.next st
    else if l + 1 = st.nn then
      let st := hess_deflate2_nan sqrt st l
      if l + 1 < st.nn then hess_dowhile_nan sqrt anorm fuel st else HStep.next st
    else if st.its = 30 then HStep.giveUp { st with l := l }
    else
      let x := st.a st.nn st.nn
      let y := st.a (st.nn - 1) (st.nn - 1)
      let w := (st.a st.nn (st.nn - 1)).mul (st.a (st.nn - 1) st.nn)
      let st := hess_qr_nan sqrt st l x y w
      if l + 1 < st.nn then hess_dowhile_nan sqrt anorm fuel st else HStep.next st

/-- The loop `while (nn >= 1)` of `hessenberg`. -/
def hess_while_nan (sqrt : α → α) (anorm : Val α) : ℕ → HState (Val α) → HResult (Val α)
  | 0, st => if st.nn ≥ 1 then HResult.diverged else HResult.ret 1 st
  | fuel + 1, st =>
    if st.nn ≥ 1 then
      match hess_dowhile_nan sqrt anorm 31 { st with its := 0 } with
      | HStep.next st => hess_while_nan sqrt anorm fuel st
      | HStep.giveUp st => HResult.ret 0 st
      | HStep.noFuel => HResult.diverged
    else HResult.ret 1 st

/-- Eigenvalues by the QR algorithm, `hessenberg (a, n, wr, wi)`, on a matrix that may hold
non-numbers. -/
def hessenberg_nan (sqrt : α → α) (a : ℕ → ℕ → Val α) (n : ℕ) (wr wi : ℕ → Val α) :
    HResult (Val α) :=
  hess_while_nan sqrt (hess_anorm_nan a n) n
    { a := a, wr := wr, wi := wi, wrLog := [], wiLog := [], qrLog := [], t := Val.num 0,
      nn := n, its := 0, l := 0 }

/-- What `f14_maxcorr` does after a term of `Q` has divided by zero: it balances and reduces
the matrix, which holds non-numbers, runs `hessenberg` on it and returns 0 when that gives
up, `sqrt (x[Ng - 1])` otherwise. `none` means no return. -/
def f14_maxcorr_nan (fuel : ℕ) (sqrt : α → α) (P : ℕ → ℕ → α) (Ng : ℕ) (mem : Mem α) :
    Option (Val α) :=
  let m := marginals P Ng
  let Q := f14_Q_nan P Ng m.1 m.2 (fun i j => Val.num (mem.Q i j))
  match mkbalanced_nan fuel Q Ng with
  | none => none
  | some Q =>
    match hessenberg_nan sqrt (reduction_nan Q Ng) Ng
        (fun i => Val.num (pgm_vector 1 Ng mem.x i))
        (fun i => Val.num (pgm_vector 1 Ng mem.iy i)) with
    | HResult.diverged => none
    | HResult.ret status st =>
      if status = 0 then some (Val.num 0) else some (Val.map sqrt (st.wr (Ng - 1)))

/-- Maximal Correlation Coefficient, `f14_maxcorr`, for `Ng >= 1`. The loop that computes
the local `tmp` has no effect on the result and is left out. When a term of `Q` divides by
zero the source has no exit: the run goes on with the non-numbers in `Q`, as
`f14_maxcorr_nan` describes. `none` means no return. -/
def f14_maxcorr (fuel : ℕ) (sqrt : α → α) (P : ℕ → ℕ → α) (Ng : ℕ) (mem : Mem α) :
    Option (Val α) :=
  match f14_derived fuel P Ng mem with
  | none => none
  | some none => f14_maxcorr_nan fuel sqrt P Ng mem
  | some (some Q) =>
    match hessenberg sqrt Q Ng (pgm_vector 1 Ng mem.x) (pgm_vector 1 Ng mem.iy) with
    | HResult.diverged => none
    | HResult.ret status st =>
      if status = 0 then some (Val.num 0) else some (Val.num (sqrt (st.wr (Ng - 1))))

/-! ### The feature aggregator -/

/-- The selection flags `TEXTURE_FEATURE_MAP` read by `ml_Extract_Temporal_Texture`. -/
structure TEXTURE_FEATURE_MAP where
  ASM : Bool
  contrast : Bool
  correlation : Bool
  variance : Bool
  IDM : Bool
  sum_avg : Bool
  sum_var : Bool
  sum_entropy : Bool
  entropy : Bool
  diff_var : Bool
  diff_entropy : Bool
  meas_corr1 : Bool
  meas_corr2 : Bool
  max_corr_coef : Bool

/-- The record `TEXTURE`; each field is cell `[0]` of the array of that name. -/
structure TEXTURE (α : Type) where
  ASM : Val α
  contrast : Val α
  correlation : Val α
  variance : Val α
  IDM : Val α
  sum_avg : Val α
  sum_var : Val α
  sum_entropy : Val α
  entropy : Val α
  diff_var : Val α
  diff_entropy : Val α
  meas_corr1 : Val α
  meas_corr2 : Val α
  max_corr_coef : Val α

/-- The uninitialised automatic variables `ASM[1]`, `contrast[1]`, ... of
`ml_Extract_Temporal_Texture`: whatever the stack holds on entry. -/
structure Locals (α : Type) where
  ASM : Val α
  contrast : Val α
  corr : Val α
  var : Val α
  idm : Val α
  savg : Val α
  sentropy : Val α
  svar : Val α
  entropy : Val α
  dvar : Val α
  dentropy : Val α
  icorr : Val α
  maxcorr : Val α

/-- The call `f7_svar (P_matrix, tones, sentropy[0])` with a possibly undefined argument. -/
def f7_svar_call (P : ℕ → ℕ → α) (Ng : ℕ) (S : Val α) (Pxpy : ℕ → α) : Val α × (ℕ → α) :=
  match S with
  | Val.num s => (Val.num (f7_svar P Ng s Pxpy).1, (f7_svar P Ng s Pxpy).2)
  | Val.undef => (Val.undef, Pxpy_sum P Ng 0 (Pxpy_reset Ng Pxpy))

/-- The aggregator `ml_Extract_Temporal_Texture (P_matrix, tones, feature_usage)`.
`loc` holds the initial contents of its locals, `Pxpy` those of the global scratch array,
`mem` those of the memory `f14_maxcorr` allocates. `none` means no return. -/
def ml_Extract_Temporal_Texture [FloorRing α] (fuel : ℕ) (sqrt log10 exp : α → α)
    (P_matrix : ℕ → ℕ → α) (tones : ℕ) (feature_usage : TEXTURE_FEATURE_MAP)
    (loc : Locals α) (Pxpy : ℕ → α) (mem : Mem α) : Option (TEXTURE α) :=
  let ASM := if feature_usage.ASM then Val.num (f1_asm P_matrix tones) else loc.ASM
  let contrast :=
    if feature_usage.contrast then Val.num (f2_contrast P_matrix tones) else loc.contrast
  let corr := if feature_usage.correlation then f3_corr sqrt P_matrix tones else loc.corr
  let var := if feature_usage.variance then Val.num (f4_var P_matrix tones) else loc.var
  let idm := if feature_usage.IDM then Val.num (f5_idm P_matrix tones) else loc.idm
  let savg :=
    if feature_usage.sum_avg then Val.num (f6_savg P_matrix tones Pxpy).1 else loc.savg
  let Pxpy := if feature_usage.sum_avg then (f6_savg P_matrix tones Pxpy).2 else Pxpy
  let sentropy :=
    if feature_usage.sum_var then Val.num (f8_sentropy log10 P_matrix tones Pxpy).1
    else loc.sentropy
  let Pxpy := if feature_usage.sum_var then (f8_sentropy log10 P_matrix tones Pxpy).2 else Pxpy
  let svar :=
    if feature_usage.sum_entropy then (f7_svar_call P_matrix tones sentropy Pxpy).1
    else loc.svar
  let Pxpy :=
    if feature_usage.sum_entropy then (f7_svar_call P_matrix tones sentropy Pxpy).2 else Pxpy
  let entropy :=
    if feature_usage.entropy then Val.num (f9_entropy log10 P_matrix tones) else loc.entropy
  let dvar :=
    if feature_usage.diff_var then Val.num (f10_dvar P_matrix tones Pxpy).1 else loc.dvar
  let Pxpy := if feature_usage.diff_var then (f10_dvar P_matrix tones Pxpy).2 else Pxpy
  let dentropy :=
    if feature_usage.diff_entropy then Val.num (f11_dentropy log10 P_matrix tones Pxpy).1
    else loc.dentropy
  let icorr1 := if feature_usage.meas_corr1 then f12_icorr log10 P_matrix tones else loc.icorr
  let icorr2 :=
    if feature_usage.meas_corr2 then Val.num (f13_icorr sqrt log10 exp P_matrix tones)
    else icorr1
  let maxcorr : Option (Val α) :=
    if feature_usage.max_corr_coef then f14_maxcorr fuel sqrt P_matrix tones mem
    else some (Val.num 0)
  match maxcorr with
  | none => none
  | some maxcorr =>
    some {
      ASM := ASM
      contrast := contrast
      correlation := corr
      variance := var
      IDM := idm
      sum_avg := savg
      sum_var := svar
      sum_entropy := svar
      entropy := entropy
      diff_var := dvar
      diff_entropy := dentropy
      meas_corr1 := icorr1
      meas_corr2 := icorr2
      max_corr_coef := maxcorr }

/-! ### Inputs and reference notions used by the theorems -/

/-- The selection with no feature selected. -/
def noFeatures : TEXTURE_FEATURE_MAP :=
  { ASM := false, contrast := false, correlation := false, variance := false, IDM := false,
    sum_avg := false, sum_var := false, sum_entropy := false, entropy := false,
    diff_var := false, diff_entropy := false, meas_corr1 := false, meas_corr2 := false,
    max_corr_coef := false }

/-- The selection of the two sum features `sum_var` and `sum_entropy`. -/
def sumFeatures : TEXTURE_FEATURE_MAP :=
  { noFeatures with sum_var := true, sum_entropy := true }

/-- The selection of `sum_var` alone. -/
def sumVarOnly : TEXTURE_FEATURE_MAP :=
  { noFeatures with sum_var := true }

/-- Locals that all hold the number `v` on entry. -/
def staleLocals (v : α) : Locals α :=
  { ASM := Val.num v, contrast := Val.num v, corr := Val.num v, var := Val.num v,
    idm := Val.num v, savg := Val.num v, sentropy := Val.num v, svar := Val.num v,
    entropy := Val.num v, dvar := Val.num v, dentropy := Val.num v, icorr := Val.num v,
    maxcorr := Val.num v }

/-- Fresh memory that happens to hold zeros. -/
def zeroMem : Mem α :=
  { Q := fun _ _ => 0, x := fun _ => 0, iy := fun _ => 0 }

/-- The co-occurrence matrix `[[3/8, 1/8], [1/8, 3/8]]`. -/
def P_dyadic : ℕ → ℕ → α :=
  fun i j => if i = j then 3 / 8 else 1 / 8

/-- The co-occurrence matrix `[[1/2, 0], [0, 1/2]]` of the scenario `Ng = 2`. -/
def P_half : ℕ → ℕ → α :=
  fun i j => if i = j then 1 / 2 else 0

/-- The matrix with every entry 1 (of order 1 when used with `Ng = 1`). -/
def P_one : ℕ → ℕ → α :=
  fun _ _ => 1

/-- The second largest of `wr[1..n]` in the words of the specification: sort the real parts
ascending, then take the entry below the top one. -/
def secondLargest (wr : ℕ → α) (n : ℕ) : α :=
  simplesrt n wr (n - 1)

/-- A matrix is diagonal on the index range `1..n`. -/
def IsDiagonal (a : ℕ → ℕ → α) (n : ℕ) : Prop :=
  ∀ i j, 1 ≤ i → i ≤ n → 1 ≤ j → j ≤ n → i ≠ j → a i j = 0

/-- The diagonal matrix `diag (1, 2)` (1-based). -/
def diag12 : ℕ → ℕ → α :=
  fun i j => if i = j then (i : α) else 0

/-- The matrix `[[5/8, 3/8], [3/8, 5/8]]` (1-based). -/
def Q_dyadic : ℕ → ℕ → α :=
  fun i j => if i = j then 5 / 8 else 3 / 8

/-- What one deflation of `hessenberg` adds to the logs: one root (`wr[nn]`, `wi[nn]`), or
two roots (`wr[nn]`, `wr[nn-1]`, possibly `wr[nn]` once more, and `wi[nn]`, `wi[nn-1]`). -/
def Deflated (st st' : HState α) : Prop :=
  (st'.nn + 1 = st.nn ∧ st'.wiLog = st.wiLog ++ [st.nn] ∧ st'.wrLog = st.wrLog ++ [st.nn]) ∨
  (st'.nn + 2 = st.nn ∧ st'.wiLog = st.wiLog ++ [st.nn, st.nn - 1] ∧
    (st'.wrLog = st.wrLog ++ [st.nn, st.nn - 1] ∨
      st'.wrLog = st.wrLog ++ [st.nn, st.nn - 1, st.nn]))

/-- Invariant of the outer loop of `hessenberg (a, n, wr, wi)`: exactly the indices
`nn+1..n` have been assigned, `wi[]` once each in descending order, `wr[]` once or twice. -/
def LogsOK (n : ℕ) (st : HState α) : Prop :=
  st.nn ≤ n ∧ st.wiLog = (List.range' (st.nn + 1) (n - st.nn)).reverse ∧
  (∀ i ∈ st.wrLog, st.nn < i ∧ i ≤ n) ∧
  ∀ i, st.nn < i → i ≤ n → 1 ≤ st.wrLog.count i ∧ st.wrLog.count i ≤ 2

/-- The identity-like co-occurrence matrix: `1 / Ng` on the diagonal, 0 elsewhere. -/
def P_identity (Ng : ℕ) : ℕ → ℕ → α :=
  fun i j => if i = j then 1 / (Ng : α) else 0

/-- The difference distribution in the words of the specification:
`D[n]` is the sum of the `P[i][j]` with `|i - j| = n`. -/
def diffDistribution (P : ℕ → ℕ → α) (Ng n : ℕ) : α :=
  ∑ i in Finset.range Ng, ∑ j in Finset.range Ng,
    if Int.natAbs ((i : ℤ) - (j : ℤ)) = n then P i j else 0

/-- The zero-based sum distribution in the words of the specification:
`S[k]` is the sum of the `P[i][j]` with `i + j = k`. -/
def sumDistribution (P : ℕ → ℕ → α) (Ng k : ℕ) : α :=
  ∑ i in Finset.range Ng, ∑ j in Finset.range Ng, if i + j = k then P i j else 0

/-- Sum Entropy in the words of the specification, over the zero-based sum distribution:
minus the sum over `k` in `0 .. 2 Ng - 2` of `S[k] * log2 (S[k] + EPSILON)`. -/
def sumEntropy_spec (log10 : α → α) (P : ℕ → ℕ → α) (Ng : ℕ) : α :=
  -∑ k in Finset.range (2 * Ng - 1),
    sumDistribution P Ng k * log10 (sumDistribution P Ng k + EPSILON) / log10 2

/-- The co-occurrence matrix `[[1, 0], [0, 0]]`, whose second row and column are empty. -/
def P_corner : ℕ → ℕ → α :=
  fun i j => if i = 0 ∧ j = 0 then 1 else 0

/-- Body of the loop over `m` in `reduction`: pivot search, interchange, elimination. -/
def reduction_step (n m : ℕ) (a : ℕ → ℕ → α) : ℕ → ℕ → α :=
  let xi := reduction_pivot a n m
  let a := if xi.2 ≠ m then reduction_swap a n m xi.2 else a
  if xi.1 ≠ 0 then reduction_elim a n m xi.1 else a

/-- The matrix handed to the elimination loop of step `m`: `a` after the interchange. -/
def reduction_pivoted (n m : ℕ) (a : ℕ → ℕ → α) : ℕ → ℕ → α :=
  if (reduction_pivot a n m).2 ≠ m then reduction_swap a n m (reduction_pivot a n m).2 else a

/-- The matrix `b` is `D⁻¹ a D` on the index range `1..n` for a diagonal matrix `D` whose
entries are the powers `2 ^ e i` of the radix. -/
def IsRadixSimilar (n : ℕ) (a b : ℕ → ℕ → α) : Prop :=
  ∃ e : ℕ → ℤ, ∀ i j, 1 ≤ i → i ≤ n → 1 ≤ j → j ≤ n →
    b i j = a i j * (2 : α) ^ (e j) / (2 : α) ^ (e i)

/-- The number `lam` is an eigenvalue of the matrix `a` on the index range `1..n`, with the
eigenvector `v`. -/
def IsEigenpair (n : ℕ) (a : ℕ → ℕ → α) (lam : α) (v : ℕ → α) : Prop :=
  (∃ i, 1 ≤ i ∧ i ≤ n ∧ v i ≠ 0) ∧
    ∀ i, 1 ≤ i → i ≤ n → ∑ j in Finset.Icc 1 n, a i j * v j = lam * v i

/-- The matrix `[[0, 8], [1, 0]]` (1-based), which balancing rescales. -/
def A_skew : ℕ → ℕ → α :=
  fun i j => if i = 1 ∧ j = 2 then 8 else if i = 2 ∧ j = 1 then 1 else 0

/-- Fresh memory in which the cell in front of the block of `x` holds 4 and every other
cell holds 0. -/
def memFour : Mem α :=
  { Q := fun _ _ => 0, x := fun i => if i = 0 then 4 else 0, iy := fun _ => 0 }

/-- The rotation matrix `[[0, -1], [1, 0]]` (1-based), with eigenvalues `±i`. -/
def A_rot : ℕ → ℕ → α :=
  fun i j => if i = 1 ∧ j = 2 then -1 else if i = 2 ∧ j = 1 then 1 else 0

/-- The selection of `meas_corr1` alone. -/
def corr1Only : TEXTURE_FEATURE_MAP :=
  { noFeatures with meas_corr1 := true }

/-- Every cell of the matrix on the index range `1..n` holds a non-number. -/
def AllNaN (n : ℕ) (a : ℕ → ℕ → Val α) : Prop :=
  ∀ i j, 1 ≤ i → i ≤ n → 1 ≤ j → j ≤ n → a i j = Val.undef

/-- Every diagonal cell of the matrix on the index range `1..n` holds a non-number. -/
def DiagNaN (n : ℕ) (a : ℕ → ℕ → Val α) : Prop :=
  ∀ i, 1 ≤ i → i ≤ n → a i i = Val.undef

/-! ## Theorems -/

/-! ### Loops -/

theorem forLoop_ge {σ : Type} (lo hi : ℕ) (h : hi ≤ lo) (body : ℕ → σ → σ) (s : σ) :
    forLoop lo hi body s = s := by
  simp [forLoop, Nat.sub_eq_zero_of_le h]

theorem forLoop_succ_right {σ : Type} (lo hi : ℕ) (h : lo ≤ hi) (body : ℕ → σ → σ) (s : σ) :
    forLoop lo (hi + 1) body s = body hi (forLoop lo hi body s) := by
  unfold forLoop
  have e : hi + 1 - lo = (hi - lo) + 1 := by omega
  rw [e, List.range'_1_concat, List.foldl_append]
  simp
  congr 1
  omega

theorem forLoop_succ_left {σ : Type} (lo hi : ℕ) (h : lo < hi) (body : ℕ → σ → σ) (s : σ) :
    forLoop lo hi body s = forLoop (lo + 1) hi body (body lo s) := by
  unfold forLoop
  have e : hi - lo = (hi - (lo + 1)) + 1 := by omega
  rw [e, List.range'_succ]
  simp

/-- Loop invariant rule for `forLoop`. -/
theorem forLoop_invariant {σ : Type} (I : σ → Prop) (lo hi : ℕ) (body : ℕ → σ → σ) (s : σ)
    (h0 : I s) (hstep : ∀ i s, lo ≤ i → i < hi → I s → I (body i s)) :
    I (forLoop lo hi body s) := by
  rcases Nat.lt_or_ge lo hi with h | h
  · obtain ⟨d, rfl⟩ : ∃ d, hi = lo + d := ⟨hi - lo, by omega⟩
    clear h
    induction d with
    | zero => simpa [forLoop_ge] using h0
    | succ d ih =>
      rw [← Nat.add_assoc, forLoop_succ_right _ _ (by omega)]
      exact hstep _ _ (by omega) (by omega) (ih (fun i s h1 h2 => hstep i s h1 (by omega)))
  · rw [forLoop_ge _ _ h]
    exact h0

/-- A loop whose body changes nothing in the current state changes nothing. -/
theorem forLoop_fixed {σ : Type} (lo hi : ℕ) (body : ℕ → σ → σ) (s : σ)
    (h : ∀ i, lo ≤ i → i < hi → body i s = s) : forLoop lo hi body s = s :=
  forLoop_invariant (fun s' => s' = s) lo hi body s rfl
    (fun i s' h1 h2 hs => by rw [hs]; exact h i h1 h2)

theorem forLoop_sum {β : Type} [AddCommMonoid β] (lo hi : ℕ) (f : ℕ → β) (s : β) :
    forLoop lo hi (fun i acc => acc + f i) s = s + ∑ i in Finset.Ico lo hi, f i := by
  rcases Nat.lt_or_ge lo hi with h | h
  · obtain ⟨d, rfl⟩ : ∃ d, hi = lo + d := ⟨hi - lo, by omega⟩
    clear h
    induction d with
    | zero => simp [forLoop_ge]
    | succ d ih =>
      rw [← Nat.add_assoc, forLoop_succ_right _ _ (by omega), ih,
        Finset.sum_Ico_succ_top (by omega), add_assoc]
  · rw [forLoop_ge _ _ h, Finset.Ico_eq_empty (by omega)]
    simp

theorem forLoop_sum2 {β : Type} [AddCommMonoid β] (n m : ℕ) (f : ℕ → ℕ → β) :
    forLoop 0 n (fun i acc => forLoop 0 m (fun j acc => acc + f i j) acc) 0 =
      ∑ i in Finset.range n, ∑ j in Finset.range m, f i j := by
  have h : (fun i (acc : β) => forLoop 0 m (fun j acc => acc + f i j) acc) =
      fun i acc => acc + ∑ j in Finset.range m, f i j := by
    funext i acc
    rw [forLoop_sum, Finset.range_eq_Ico]
  rw [h, forLoop_sum, Finset.range_eq_Ico, zero_add]

/-- A `forLoopO` whose body returns the current state unchanged returns it unchanged. -/
theorem forLoopO_fixed {σ : Type} (lo hi : ℕ) (body : ℕ → σ → Option σ) (s : σ)
    (h : ∀ i, lo ≤ i → i < hi → body i s = some s) : forLoopO lo hi body s = some s := by
  unfold forLoopO
  generalize hd : hi - lo = d
  induction d generalizing lo with
  | zero => simp
  | succ d ih =>
    rw [List.range'_succ, List.foldlM_cons, h lo (le_refl _) (by omega)]
    exact ih (lo + 1) (fun i h1 h2 => h i (by omega) h2) (by omega)

/-- Loop invariant rule for `forLoop` with an invariant that depends on the counter. -/
theorem forLoop_invariant_idx {σ : Type} (I : ℕ → σ → Prop) (lo hi : ℕ) (h : lo ≤ hi)
    (body : ℕ → σ → σ) (s : σ) (h0 : I lo s)
    (hstep : ∀ i s, lo ≤ i → i < hi → I i s → I (i + 1) (body i s)) :
    I hi (forLoop lo hi body s) := by
  obtain ⟨d, rfl⟩ : ∃ d, hi = lo + d := ⟨hi - lo, by omega⟩
  clear h
  induction d with
  | zero => simpa [forLoop_ge] using h0
  | succ d ih =>
    rw [← Nat.add_assoc, forLoop_succ_right _ _ (by omega)]
    exact hstep _ _ (by omega) (by omega) (ih (fun i s h1 h2 => hstep i s h1 (by omega)))

theorem forLoop_split {σ : Type} (lo mid hi : ℕ) (h1 : lo ≤ mid) (h2 : mid ≤ hi)
    (body : ℕ → σ → σ) (s : σ) :
    forLoop lo hi body s = forLoop mid hi body (forLoop lo mid body s) := by
  obtain ⟨d, rfl⟩ : ∃ d, hi = mid + d := ⟨hi - mid, by omega⟩
  clear h2
  induction d with
  | zero => simp [forLoop_ge mid mid (le_refl _)]
  | succ d ih =>
    rw [← Nat.add_assoc, forLoop_succ_right _ _ (by omega), forLoop_succ_right _ _ (by omega), ih]

omit [LinearOrderedField α] in
theorem setM_col_ne (a : ℕ → ℕ → α) (i j : ℕ) (v : α) (r c : ℕ) (h : c ≠ j) :
    setM a i j v r c = a r c := by
  unfold setM
  rw [if_neg (fun hh => h hh.2)]

/-- A loop whose passes all leave cell `[r][c]` alone leaves it alone. -/
theorem forLoop_frame {β : Type} (lo hi : ℕ) (body : ℕ → (ℕ → ℕ → β) → (ℕ → ℕ → β))
    (a : ℕ → ℕ → β) (r c : ℕ)
    (h : ∀ j s, lo ≤ j → j < hi → body j s r c = s r c) :
    forLoop lo hi body a r c = a r c :=
  forLoop_invariant (fun s : ℕ → ℕ → β => s r c = a r c) lo hi body a rfl
    (fun j s h1 h2 hs => by
      show body j s r c = a r c
      rw [h j s h1 h2]
      exact hs)

/-! ### The aggregator: fields written from locals (C1, C2) -/

/-- C1, the code at the failing input (no feature selected, locals holding 1 on entry): the
returned record carries the stale local value 1, not 0, in every field except
`max_corr_coef`, the only one with an `else` branch that stores 0. -/
theorem ml_Extract_unselected_fields_stale :
    ∃ T, ml_Extract_Temporal_Texture 0 (fun x : ℚ => x) (fun x => x) (fun x => x)
        (fun _ _ => 0) 1 noFeatures (staleLocals 1) (fun _ => 0) zeroMem = some T ∧
      T.ASM = Val.num 1 ∧ T.contrast = Val.num 1 ∧ T.correlation = Val.num 1 ∧
      T.variance = Val.num 1 ∧ T.IDM = Val.num 1 ∧ T.sum_avg = Val.num 1 ∧
      T.sum_var = Val.num 1 ∧ T.sum_entropy = Val.num 1 ∧ T.entropy = Val.num 1 ∧
      T.diff_var = Val.num 1 ∧ T.diff_entropy = Val.num 1 ∧ T.meas_corr1 = Val.num 1 ∧
      T.meas_corr2 = Val.num 1 ∧ T.max_corr_coef = Val.num 0 ∧
      Val.num (1 : ℚ) ≠ Val.num 0 := by
  refine ⟨_, rfl, ?_⟩
  simp [noFeatures, staleLocals]

theorem f8_sentropy_P_one (log10 : α → α) (Pxpy : ℕ → α) :
    (f8_sentropy log10 P_one 1 Pxpy).1 = -(1 * log10 (1 + EPSILON) / log10 2) := by
  simp [f8_sentropy, Pxpy_sum, Pxpy_reset, forLoop, List.range', Function.update, P_one]

theorem f7_svar_P_one (S : α) (Pxpy : ℕ → α) : (f7_svar P_one 1 S Pxpy).1 = S * S := by
  simp [f7_svar, Pxpy_sum, Pxpy_reset, forLoop, List.range', Function.update, P_one]

/-- C2, the code at the failing input `Ng = 1`, `P = [[1]]`. With both `sum_var` and
`sum_entropy` selected, the `sum_entropy` field holds the sum variance (here the square of
the sum entropy statistic), which differs from the value of `f8_sentropy`. With `sum_var`
selected alone, the `sum_var` field holds the stale local (here 0), not the sum variance
around the sum entropy statistic. -/
theorem sum_entropy_field_holds_sum_variance :
    (∃ T, ml_Extract_Temporal_Texture 0 Real.sqrt (Real.logb 10) Real.exp P_one 1
        sumFeatures (staleLocals 0) (fun _ => 0) zeroMem = some T ∧
      T.sum_entropy = Val.num ((f8_sentropy (Real.logb 10) P_one 1 (fun _ => 0)).1 ^ 2) ∧
      T.sum_var = T.sum_entropy ∧
      T.sum_entropy ≠ Val.num (f8_sentropy (Real.logb 10) P_one 1 (fun _ => 0)).1) ∧
    (∃ T, ml_Extract_Temporal_Texture 0 Real.sqrt (Real.logb 10) Real.exp P_one 1
        sumVarOnly (staleLocals 0) (fun _ => 0) zeroMem = some T ∧
      T.sum_var = Val.num 0 ∧
      T.sum_var ≠ Val.num (f7_svar P_one 1
        (f8_sentropy (Real.logb 10) P_one 1 (fun _ => 0)).1 (fun _ => 0)).1) := by
  have hpos : 0 < Real.logb 10 (1 + EPSILON) / Real.logb 10 2 := by
    apply div_pos
    · apply Real.logb_pos (by norm_num); unfold EPSILON; norm_num
    · apply Real.logb_pos (by norm_num) (by norm_num)
  have h2 := mul_pos hpos hpos
  refine ⟨⟨_, rfl, ?_, rfl, ?_⟩, ⟨_, rfl, ?_, ?_⟩⟩
  · simp only [sumFeatures, noFeatures, f7_svar_call, if_true, f7_svar_P_one]
    simp [sq]
  · simp only [sumFeatures, noFeatures, f7_svar_call, if_true, f7_svar_P_one,
      f8_sentropy_P_one]
    intro h
    injection h with h
    rw [one_mul] at h
    linarith
  · simp [sumVarOnly, noFeatures, staleLocals]
  · simp only [sumVarOnly, noFeatures, staleLocals, f7_svar_P_one, f8_sentropy_P_one]
    intro h
    injection h with h
    rw [one_mul] at h
    have e : -(Real.logb 10 (1 + EPSILON) / Real.logb 10 2) *
        -(Real.logb 10 (1 + EPSILON) / Real.logb 10 2) =
        Real.logb 10 (1 + EPSILON) / Real.logb 10 2 *
          (Real.logb 10 (1 + EPSILON) / Real.logb 10 2) := by ring
    rw [e] at h
    linarith

/-! ### Unfolding `hessenberg` -/

theorem hess_deflate1_nn (st : HState α) (l : ℕ) : (hess_deflate1 st l).nn = st.nn - 1 := rfl

theorem hess_deflate2_nn (sqrt : α → α) (st : HState α) (l : ℕ) :
    (hess_deflate2 sqrt st l).nn = st.nn - 2 := by
  simp only [hess_deflate2]

theorem hess_dowhile_deflate1 (sqrt : α → α) (anorm : α) (fuel : ℕ) (st : HState α)
    (h : hess_scan st.a anorm st.nn = st.nn) :
    hess_dowhile sqrt anorm (fuel + 1) st = HStep.next (hess_deflate1 st st.nn) := by
  rw [hess_dowhile]
  simp only [h, if_true, hess_deflate1_nn]
  rw [if_neg (by omega)]

theorem hess_dowhile_deflate2 (sqrt : α → α) (anorm : α) (fuel : ℕ) (st : HState α)
    (h : hess_scan st.a anorm st.nn + 1 = st.nn) :
    hess_dowhile sqrt anorm (fuel + 1) st =
      HStep.next (hess_deflate2 sqrt st (hess_scan st.a anorm st.nn)) := by
  rw [hess_dowhile]
  simp only [hess_deflate2_nn]
  rw [if_neg (by omega), if_pos h, if_neg (by omega)]

theorem hess_while_succ (sqrt : α → α) (anorm : α) (fuel : ℕ) (st : HState α) (h : 1 ≤ st.nn) :
    hess_while sqrt anorm (fuel + 1) st =
      match hess_dowhile sqrt anorm 31 { st with its := 0 } with
      | HStep.next st => hess_while sqrt anorm fuel st
      | HStep.giveUp st => HResult.ret 0 st
      | HStep.noFuel => HResult.diverged := by
  rw [hess_while, if_pos h]

theorem hess_while_done (sqrt : α → α) (anorm : α) (fuel : ℕ) (st : HState α) (h : st.nn = 0) :
    hess_while sqrt anorm fuel st = HResult.ret 1 st := by
  cases fuel <;> simp [hess_while, h]

/-! ### The input `P_dyadic` -/

theorem marginals_P_dyadic (i : ℕ) (hi : i < 2) :
    (marginals (P_dyadic (α := α)) 2).1 i = 1 / 2 ∧
      (marginals (P_dyadic (α := α)) 2).2 i = 1 / 2 := by
  interval_cases i <;>
  simp [marginals, forLoop, List.range', Function.update, pgm_vector, P_dyadic] <;> norm_num

set_option maxHeartbeats 1000000 in
theorem f14_Q_P_dyadic (Q0 : ℕ → ℕ → α) :
    ∃ Q, f14_Q (P_dyadic (α := α)) 2 (marginals P_dyadic 2).1 (marginals P_dyadic 2).2 Q0
        = some Q ∧
      Q 1 1 = 5 / 8 ∧ Q 1 2 = 3 / 8 ∧ Q 2 1 = 3 / 8 ∧ Q 2 2 = 5 / 8 := by
  have h0 := marginals_P_dyadic (α := α) 0 (by norm_num)
  have h1 := marginals_P_dyadic (α := α) 1 (by norm_num)
  simp only [f14_Q, forLoopO, List.range', Nat.sub_zero, List.foldlM, f14_term, cdiv,
    h0.1, h0.2, h1.1, h1.2]
  norm_num [setM, P_dyadic]

theorem mkbalanced_dyadic (a : ℕ → ℕ → α) (h12 : a 1 2 = 3 / 8) (h21 : a 2 1 = 3 / 8)
    (fuel : ℕ) : mkbalanced (fuel + 1) a 2 = some a := by
  have hn1 : mkbalanced_norms a 2 1 = (3 / 8, 3 / 8) := by
    simp [mkbalanced_norms, forLoop, List.range', h12, h21, abs_of_pos]
  have hn2 : mkbalanced_norms a 2 2 = (3 / 8, 3 / 8) := by
    simp [mkbalanced_norms, forLoop, List.range', h12, h21, abs_of_pos]
  have hr : ∀ i, 1 ≤ i → i < 2 + 1 →
      mkbalanced_row (fuel + 1) 2 i (a, true) = some (a, true) := by
    intro i hi1 hi2
    have hi : i = 1 ∨ i = 2 := by omega
    rcases hi with rfl | rfl
    · simp only [mkbalanced_row, hn1, mkbalanced_up, mkbalanced_down, RADIX]
      norm_num
    · simp only [mkbalanced_row, hn2, mkbalanced_up, mkbalanced_down, RADIX]
      norm_num
  rw [mkbalanced, mkbalanced_loop, forLoopO_fixed _ _ _ _ hr]
  simp

theorem reduction_two (a : ℕ → ℕ → α) : reduction a 2 = a := by
  simp [reduction, forLoop]

theorem hessenberg_dyadic (sqrt : α → α) (hs : sqrt (9 / 64) = 3 / 8) (a : ℕ → ℕ → α)
    (h11 : a 1 1 = 5 / 8) (h12 : a 1 2 = 3 / 8)
    (h21 : a 2 1 = 3 / 8) (h22 : a 2 2 = 5 / 8) (wr wi : ℕ → α) :
    ∃ st, hessenberg sqrt a 2 wr wi = HResult.ret 1 st ∧ st.wr 1 = 1 ∧ st.wr 2 = 1 / 4 ∧
      st.wi 1 = 0 ∧ st.wi 2 = 0 ∧ st.wrLog = [2, 1, 2] ∧ st.wiLog = [2, 1] := by
  have hsc : hess_scan a (hess_anorm a 2) 2 = 1 := by
    simp [hess_scan, h11, h22, h21]
  have hq : (1 / 2 * (a 1 1 - a 2 2)) * (1 / 2 * (a 1 1 - a 2 2)) + a 2 1 * a 1 2 = 9 / 64 := by
    rw [h11, h22, h21, h12]; norm_num
  unfold hessenberg
  rw [hess_while_succ _ _ _ _ (by simp), hess_dowhile_deflate2 _ _ _ _ (by simp [hsc])]
  simp only
  rw [hess_while_done _ _ _ _ (by simp [hess_deflate2_nn])]
  refine ⟨_, rfl, ?_⟩
  have habs : |(9 / 64 : α)| = 9 / 64 := abs_of_pos (by norm_num)
  have habs2 : |(3 / 8 : α)| = 3 / 8 := abs_of_pos (by norm_num)
  simp only [hsc, hess_deflate2, hq, habs, hs]
  norm_num [habs2, SIGN, HState.setWr, HState.setWi, h11, h12, h21, h22, Function.update]

theorem real_sqrt_dyadic : Real.sqrt (9 / 64) = 3 / 8 := by
  rw [show (9 / 64 : ℝ) = (3 / 8) ^ 2 by norm_num]
  exact Real.sqrt_sq (by norm_num)

/-- C3, the code at the failing input `Ng = 2`, `P = [[3/8, 1/8], [1/8, 3/8]]`: the derived
matrix is `[[5/8, 3/8], [3/8, 5/8]]`, `hessenberg` succeeds with `wr[1] = 1`, `wr[2] = 1/4`,
whose second largest is `1/4`, and `f14_maxcorr` returns `sqrt (wr[1]) = 1`, the square root
of the largest, not `sqrt (1/4)`. -/
theorem f14_maxcorr_takes_largest :
    ∃ Q st, f14_derived 1 (P_dyadic (α := ℝ)) 2 zeroMem = some (some Q) ∧
      hessenberg Real.sqrt Q 2 (pgm_vector 1 2 zeroMem.x) (pgm_vector 1 2 zeroMem.iy)
        = HResult.ret 1 st ∧
      st.wr 1 = 1 ∧ st.wr 2 = 1 / 4 ∧ secondLargest st.wr 2 = 1 / 4 ∧
      f14_maxcorr 1 Real.sqrt P_dyadic 2 zeroMem = some (Val.num 1) ∧
      Real.sqrt (1 / 4) ≠ 1 := by
  obtain ⟨Q, hQ, h11, h12, h21, h22⟩ := f14_Q_P_dyadic (α := ℝ) zeroMem.Q
  obtain ⟨st, hst, hw1, hw2, -, -, -, -⟩ :=
    hessenberg_dyadic Real.sqrt real_sqrt_dyadic Q h11 h12 h21 h22
      (pgm_vector 1 2 zeroMem.x) (pgm_vector 1 2 zeroMem.iy)
  have hder : f14_derived 1 (P_dyadic (α := ℝ)) 2 zeroMem = some (some Q) := by
    simp only [f14_derived, hQ, mkbalanced_dyadic Q h12 h21 0, reduction_two]
  refine ⟨Q, st, hder, hst, hw1, hw2, ?_, ?_, ?_⟩
  · simp [secondLargest, simplesrt, forLoop, List.range', simplesrt_insert, hw1, hw2,
      Function.update]
    norm_num
  · simp [f14_maxcorr, hder, hst, hw1]
  · rw [show (1 / 4 : ℝ) = (1 / 2) ^ 2 by norm_num, Real.sqrt_sq (by norm_num)]
    norm_num
/-! ### The integer `abs` in `f13_icorr` (C4) -/

theorem marginals_P_half (i : ℕ) (hi : i < 2) :
    (marginals (P_half (α := α)) 2).1 i = 1 / 2 ∧ (marginals (P_half (α := α)) 2).2 i = 1 / 2 := by
  interval_cases i <;>
  simp [marginals, forLoop, List.range', Function.update, pgm_vector, P_half]

theorem icorr_hxy_P_half (log10 : ℝ → ℝ) :
    icorr_hxy log10 P_half 2 = -(log10 (1 / 2 + EPSILON) / log10 2) := by
  simp [icorr_hxy, forLoop, List.range', P_half]
  ring

theorem icorr_hxy2_P_half (log10 : ℝ → ℝ) :
    icorr_hxy2 log10 P_half 2 = -(log10 (1 / 4 + EPSILON) / log10 2) := by
  have h0 := marginals_P_half (α := ℝ) 0 (by norm_num)
  have h1 := marginals_P_half (α := ℝ) 1 (by norm_num)
  simp only [icorr_hxy2, forLoop, List.range', List.foldl, Nat.sub_zero, zero_add, h0.1, h0.2, h1.1, h1.2]
  norm_num
  ring

theorem icorr_gap_P_half :
    0 < icorr_hxy2 (Real.logb 10) P_half 2 - icorr_hxy (Real.logb 10) P_half 2 := by
  rw [icorr_hxy_P_half, icorr_hxy2_P_half]
  have h2 : 0 < Real.logb 10 2 := Real.logb_pos (by norm_num) (by norm_num)
  have hlt : Real.logb 10 (1 / 4 + EPSILON) < Real.logb 10 (1 / 2 + EPSILON) := by
    apply Real.logb_lt_logb (by norm_num)
    · unfold EPSILON; norm_num
    · unfold EPSILON; norm_num
  have := div_lt_div_of_pos_right hlt h2
  linarith

/-- C4, the code at the failing input `Ng = 2`, `P = [[1/2, 0], [0, 1/2]]`, where
`hxy = -log2 (1/2 + EPSILON)` and `hxy2 = -log2 (1/4 + EPSILON)`: `f13_icorr` returns 0
because the integer `abs` truncates `1 - exp (-2 * (hxy2 - hxy))`, which lies strictly
between 0 and 1, while the square root of its real absolute value is positive. -/
theorem f13_icorr_truncates :
    icorr_hxy (Real.logb 10) P_half 2 = -(Real.logb 10 (1 / 2 + EPSILON) / Real.logb 10 2) ∧
    icorr_hxy2 (Real.logb 10) P_half 2 = -(Real.logb 10 (1 / 4 + EPSILON) / Real.logb 10 2) ∧
    f13_icorr Real.sqrt (Real.logb 10) Real.exp P_half 2 = 0 ∧
      0 < Real.sqrt |1 - Real.exp (-2 * (icorr_hxy2 (Real.logb 10) P_half 2 -
        icorr_hxy (Real.logb 10) P_half 2))| := by
  refine ⟨icorr_hxy_P_half _, icorr_hxy2_P_half _, ?_⟩
  have hgap := icorr_gap_P_half
  set d := icorr_hxy2 (Real.logb 10) P_half 2 - icorr_hxy (Real.logb 10) (P_half (α := ℝ)) 2
    with hd
  have hexp1 : Real.exp (-2 * d) < 1 := by
    rw [Real.exp_lt_one_iff]; linarith
  have hexp0 : 0 < Real.exp (-2 * d) := Real.exp_pos _
  constructor
  · unfold f13_icorr
    simp only
    rw [← hd]
    have hfl : ctrunc (1 - Real.exp (-2 * d)) = 0 := by
      unfold ctrunc
      rw [if_pos (by linarith)]
      rw [Int.floor_eq_iff]
      constructor
      · simp only [Int.cast_zero]; linarith
      · simp only [Int.cast_zero]; linarith
    rw [hfl]
    simp
  · apply Real.sqrt_pos.mpr
    apply abs_pos.mpr
    linarith

/-! ### Diagonal matrices (C5) -/

theorem mkbalanced_norms_diagonal (a : ℕ → ℕ → α) (n i : ℕ) (hd : IsDiagonal a n)
    (h1 : 1 ≤ i) (h2 : i ≤ n) : mkbalanced_norms a n i = (0, 0) := by
  unfold mkbalanced_norms
  apply forLoop_fixed
  intro j hj1 hj2
  by_cases hji : j = i
  · simp [hji]
  · simp [hji, hd j i hj1 (by omega) h1 h2 hji, hd i j h1 h2 hj1 (by omega) (Ne.symm hji)]

theorem mkbalanced_diagonal (a : ℕ → ℕ → α) (n : ℕ) (hd : IsDiagonal a n) (fuel : ℕ) :
    mkbalanced (fuel + 1) a n = some a := by
  have hr : ∀ i, 1 ≤ i → i < n + 1 →
      mkbalanced_row (fuel + 1) n i (a, true) = some (a, true) := by
    intro i h1 h2
    simp [mkbalanced_row, mkbalanced_norms_diagonal a n i hd h1 (by omega)]
  rw [mkbalanced, mkbalanced_loop, forLoopO_fixed _ _ _ _ hr]
  simp

theorem reduction_pivot_diagonal (a : ℕ → ℕ → α) (n m : ℕ) (hd : IsDiagonal a n)
    (h1 : 2 ≤ m) : reduction_pivot a n m = (0, m) := by
  unfold reduction_pivot
  apply forLoop_fixed
  intro j hj1 hj2
  simp [hd j (m - 1) (by omega) (by omega) (by omega) (by omega) (by omega)]

theorem reduction_diagonal (a : ℕ → ℕ → α) (n : ℕ) (hd : IsDiagonal a n) :
    reduction a n = a := by
  unfold reduction
  apply forLoop_fixed
  intro m h1 h2
  simp [reduction_pivot_diagonal a n m hd h1]

theorem hess_scan_diagonal (a : ℕ → ℕ → α) (n : ℕ) (hd : IsDiagonal a n) (anorm : α)
    (nn : ℕ) (h2 : nn ≤ n) : hess_scan a anorm nn = nn := by
  match nn with
  | 0 => rfl
  | 1 => rfl
  | l + 2 =>
    rw [hess_scan]
    simp [hd (l + 2) (l + 1) (by omega) h2 (by omega) (by omega) (by omega)]

/-- Run of the outer loop of `hessenberg` on a diagonal matrix with `t = 0`. -/
theorem hess_while_diagonal (sqrt : α → α) (a : ℕ → ℕ → α) (n : ℕ) (hd : IsDiagonal a n)
    (anorm : α) (k : ℕ) :
    ∀ (fuel : ℕ) (st : HState α), st.nn = k → k ≤ fuel → k ≤ n → st.a = a → st.t = 0 →
      ∃ st', hess_while sqrt anorm fuel st = HResult.ret 1 st' ∧
        (∀ i, 1 ≤ i → i ≤ k → st'.wr i = a i i ∧ st'.wi i = 0) ∧
        (∀ i, k < i → st'.wr i = st.wr i ∧ st'.wi i = st.wi i) := by
  induction k with
  | zero =>
    intro fuel st hnn _ _ _ _
    exact ⟨st, hess_while_done _ _ _ _ hnn, fun i h1 h2 => absurd h1 (by omega),
      fun i _ => ⟨rfl, rfl⟩⟩
  | succ k ih =>
    intro fuel st hnn hfuel hn ha ht
    obtain ⟨fuel, rfl⟩ : ∃ f, fuel = f + 1 := ⟨fuel - 1, by omega⟩
    rw [hess_while_succ _ _ _ _ (by omega),
      hess_dowhile_deflate1 _ _ _ _ (by
        simp only [ha, hnn]; exact hess_scan_diagonal a n hd anorm (k + 1) hn)]
    simp only
    obtain ⟨st', hrun, hlow, hhigh⟩ := ih fuel
      (hess_deflate1 { st with its := 0 } st.nn) (by simp [hess_deflate1_nn, hnn]) (by omega)
      (by omega) (by simp [hess_deflate1, HState.setWr, HState.setWi, ha])
      (by simp [hess_deflate1, HState.setWr, HState.setWi, ht])
    refine ⟨st', hrun, ?_, ?_⟩
    · intro i h1 h2
      rcases Nat.lt_or_ge k i with h | h
      · have hi : i = k + 1 := by omega
        have := hhigh i h
        simp only [hess_deflate1, HState.setWr, HState.setWi, hnn, hi, ha, ht,
          Function.update_same, add_zero] at this
        rw [hi]
        exact this
      · exact hlow i h1 h
    · intro i hi
      have := hhigh i (by omega)
      simp only [hess_deflate1, HState.setWr, HState.setWi, hnn] at this
      rw [Function.update_noteq (by omega), Function.update_noteq (by omega)] at this
      exact this

/-- C5: for `n >= 1` and a matrix `a` that is diagonal on `1..n`, `mkbalanced` (with any
positive budget) and `reduction` return `a` unchanged, and `hessenberg` returns 1 with
`wr[i] = a[i][i]` and `wi[i] = 0` for every `i` in `1..n`. -/
theorem eigen_engine_diagonal (sqrt : α → α) (a : ℕ → ℕ → α) (n : ℕ) (_hn : 1 ≤ n)
    (hd : IsDiagonal a n) (fuel : ℕ) (wr wi : ℕ → α) :
    mkbalanced (fuel + 1) a n = some a ∧ reduction a n = a ∧
      ∃ st, hessenberg sqrt a n wr wi = HResult.ret 1 st ∧
        ∀ i, 1 ≤ i → i ≤ n → st.wr i = a i i ∧ st.wi i = 0 := by
  refine ⟨mkbalanced_diagonal a n hd fuel, reduction_diagonal a n hd, ?_⟩
  obtain ⟨st, hrun, hlow, -⟩ := hess_while_diagonal sqrt a n hd (hess_anorm a n) n n
    { a := a, wr := wr, wi := wi, wrLog := [], wiLog := [], qrLog := [], t := 0, nn := n,
      its := 0, l := 0 }
    rfl (le_refl _) (le_refl _) rfl rfl
  exact ⟨st, hrun, hlow⟩

/-- Witness for C5: the matrix `diag (1, 2)` over the reals. -/
theorem eigen_engine_diagonal_witness :
    (1 ≤ 2 ∧ IsDiagonal (diag12 (α := ℝ)) 2) ∧
    (mkbalanced (0 + 1) (diag12 (α := ℝ)) 2 = some diag12 ∧
      reduction (diag12 (α := ℝ)) 2 = diag12 ∧
      ∃ st, hessenberg Real.sqrt (diag12 (α := ℝ)) 2 (fun _ => 0) (fun _ => 0)
          = HResult.ret 1 st ∧
        ∀ i, 1 ≤ i → i ≤ 2 → st.wr i = diag12 i i ∧ st.wi i = 0) :=
  have hd : IsDiagonal (diag12 (α := ℝ)) 2 := fun i j _ _ _ _ hij => by simp [diag12, hij]
  ⟨⟨by decide, hd⟩, eigen_engine_diagonal Real.sqrt diag12 2 (by decide) hd 0 _ _⟩
/-! ### Termination and the logs of `hessenberg` (C6) -/

theorem hess_scan_bounds (a : ℕ → ℕ → α) (anorm : α) (nn : ℕ) (h : 1 ≤ nn) :
    1 ≤ hess_scan a anorm nn ∧ hess_scan a anorm nn ≤ nn := by
  induction nn using hess_scan.induct a anorm with
  | case1 => omega
  | case2 => simp [hess_scan]
  | case3 l s s' h1 =>
    rw [hess_scan]
    simp only [s', s] at h1
    simp only [h1, if_true]
    omega
  | case4 l s s' h1 ih =>
    rw [hess_scan]
    simp only [s', s] at h1
    simp only [h1, if_false]
    have := ih (by omega)
    omega

theorem hess_qr_nn (sqrt : α → α) (st : HState α) (l : ℕ) (x y w : α) :
    (hess_qr sqrt st l x y w).nn = st.nn := rfl

theorem hess_deflate1_Deflated (st : HState α) (l : ℕ) (h : 1 ≤ st.nn) :
    Deflated st (hess_deflate1 st l) := by
  left
  refine ⟨?_, rfl, rfl⟩
  simp only [hess_deflate1_nn]
  omega

theorem hess_deflate2_Deflated (sqrt : α → α) (st : HState α) (l : ℕ) (h : 2 ≤ st.nn) :
    Deflated st (hess_deflate2 sqrt st l) := by
  right
  refine ⟨by simp only [hess_deflate2_nn]; omega, ?_, ?_⟩
  · simp only [hess_deflate2, HState.setWr, HState.setWi]
    split_ifs <;> simp
  · simp only [hess_deflate2, HState.setWr, HState.setWi]
    split_ifs <;> simp

/-- The inner loop of `hessenberg`, entered with `its <= 30` and enough budget for the
remaining passes, ends in a deflation or gives up after the thirtieth QR iteration. -/
theorem hess_dowhile_spec (sqrt : α → α) (anorm : α) (fuel : ℕ) :
    ∀ st : HState α, 1 ≤ st.nn → st.its ≤ 30 → 31 ≤ fuel + st.its →
      match hess_dowhile sqrt anorm fuel st with
      | HStep.next st' => Deflated st st' ∧
          ∃ k, st'.qrLog = st.qrLog ++ List.replicate k st.nn
      | HStep.giveUp st' => st'.its = 30 ∧ 1 ≤ st'.l ∧ st'.l + 2 ≤ st'.nn ∧ st'.nn = st.nn ∧
          st'.wrLog = st.wrLog ∧ st'.wiLog = st.wiLog ∧
          st'.qrLog = st.qrLog ++ List.replicate (30 - st.its) st.nn
      | HStep.noFuel => False := by
  induction fuel with
  | zero => intro st _ h2 h3; omega
  | succ fuel ih =>
    intro st h1 h2 h3
    obtain ⟨hl1, hl2⟩ := hess_scan_bounds st.a anorm st.nn h1
    by_cases hA : hess_scan st.a anorm st.nn = st.nn
    · rw [hess_dowhile_deflate1 _ _ _ _ hA]
      exact ⟨hess_deflate1_Deflated st _ h1, 0, by simp [hess_deflate1, HState.setWr, HState.setWi]⟩
    · by_cases hB : hess_scan st.a anorm st.nn + 1 = st.nn
      · rw [hess_dowhile_deflate2 _ _ _ _ hB]
        refine ⟨hess_deflate2_Deflated sqrt st _ (by omega), 0, ?_⟩
        simp only [hess_deflate2, HState.setWr, HState.setWi]
        split_ifs <;> simp
      · by_cases hC : st.its = 30
        · rw [hess_dowhile]
          simp only [hA, hB, hC, if_false, if_true]
          exact ⟨trivial, hl1, by omega, trivial, trivial, trivial, by simp⟩
        · rw [hess_dowhile]
          simp only [hA, hB, hC, if_false, hess_qr_nn]
          rw [if_pos (by omega)]
          have := ih (hess_qr sqrt st (hess_scan st.a anorm st.nn) (st.a st.nn st.nn)
            (st.a (st.nn - 1) (st.nn - 1)) (st.a st.nn (st.nn - 1) * st.a (st.nn - 1) st.nn))
            h1 (by simp only [hess_qr]; omega) (by simp only [hess_qr]; omega)
          revert this
          generalize hess_dowhile sqrt anorm fuel _ = res
          cases res with
          | next st' =>
            simp only
            rintro ⟨hD, k, hk⟩
            refine ⟨hD, k + 1, ?_⟩
            rw [hk]
            simp [hess_qr, List.replicate_succ]
          | giveUp st' =>
            simp only
            rintro ⟨g1, g2, g3, g4, g5, g6, g7⟩
            refine ⟨g1, g2, g3, g4, g5, g6, ?_⟩
            rw [g7]
            have e : 30 - st.its = (30 - (st.its + 1)) + 1 := by omega
            simp only [hess_qr]
            rw [e, List.replicate_succ]
            simp
          | noFuel => simp

omit [LinearOrderedField α] in
theorem LogsOK_step (n : ℕ) (st st' : HState α) (h : LogsOK n st) (hd : Deflated st st') :
    LogsOK n st' := by
  obtain ⟨h1, h2, h3, h4⟩ := h
  have hnot : ∀ i, i ≤ st.nn → st.wrLog.count i = 0 := fun i hi =>
    List.count_eq_zero_of_not_mem (fun hm => absurd (h3 i hm).1 (by omega))
  rcases hd with ⟨e1, e2, e3⟩ | ⟨e1, e2, e3⟩
  · refine ⟨by omega, ?_, ?_, ?_⟩
    · rw [e2, h2]
      have : n - st'.nn = (n - st.nn) + 1 := by omega
      rw [this, e1, List.range'_succ, List.reverse_cons]
    · intro i hi
      rw [e3, List.mem_append, List.mem_singleton] at hi
      rcases hi with hi | hi
      · have := h3 i hi; omega
      · omega
    · intro i hi1 hi2
      rw [e3, List.count_append]
      rcases Nat.lt_or_ge st.nn i with hlt | hge
      · have := h4 i hlt hi2
        rw [List.count_singleton]
        rw [if_neg (by simp; omega)]
        omega
      · have hi : i = st.nn := by omega
        rw [hnot i hge, hi]
        simp
  · have hcases : ∀ L : List ℕ, (L = [st.nn, st.nn - 1] ∨ L = [st.nn, st.nn - 1, st.nn]) →
        (∀ i ∈ L, st'.nn < i ∧ i ≤ st.nn) ∧
        (∀ i, st'.nn < i → i ≤ st.nn → 1 ≤ L.count i ∧ L.count i ≤ 2) ∧
        (∀ i, st.nn < i → L.count i = 0) := by
      intro L hL
      rcases hL with rfl | rfl
      · refine ⟨?_, ?_, ?_⟩
        · intro i hi
          simp only [List.mem_cons, List.mem_singleton, List.not_mem_nil, or_false] at hi
          omega
        · intro i hi1 hi2
          have hi : i = st.nn ∨ i = st.nn - 1 := by omega
          have hne : st.nn ≠ st.nn - 1 := by omega
          rcases hi with rfl | hi
          · simp [List.count_cons, hne.symm]
          · rw [hi]; simp [List.count_cons, hne]
        · intro i hi
          have h1 : st.nn ≠ i := by omega
          have h2 : st.nn - 1 ≠ i := by omega
          simp [List.count_cons, h1, h2]
      · refine ⟨?_, ?_, ?_⟩
        · intro i hi
          simp only [List.mem_cons, List.mem_singleton, List.not_mem_nil, or_false] at hi
          omega
        · intro i hi1 hi2
          have hi : i = st.nn ∨ i = st.nn - 1 := by omega
          have hne : st.nn ≠ st.nn - 1 := by omega
          rcases hi with rfl | hi
          · simp [List.count_cons, hne.symm]
          · rw [hi]; simp [List.count_cons, hne]
        · intro i hi
          have h1 : st.nn ≠ i := by omega
          have h2 : st.nn - 1 ≠ i := by omega
          simp [List.count_cons, h1, h2]
    have key : ∃ L : List ℕ, st'.wrLog = st.wrLog ++ L ∧
        (L = [st.nn, st.nn - 1] ∨ L = [st.nn, st.nn - 1, st.nn]) := by
      rcases e3 with e3 | e3
      · exact ⟨_, e3, Or.inl rfl⟩
      · exact ⟨_, e3, Or.inr rfl⟩
    obtain ⟨L, eL, hL⟩ := key
    obtain ⟨c1, c2, c3⟩ := hcases L hL
    refine ⟨by omega, ?_, ?_, ?_⟩
    · rw [e2, h2]
      have e : n - st'.nn = (n - st.nn) + 1 + 1 := by omega
      have e' : st'.nn + 1 = st.nn - 1 := by omega
      have e'' : st.nn - 1 + 1 = st.nn := by omega
      rw [e, e', List.range'_succ, List.range'_succ, e'', List.reverse_cons, List.reverse_cons]
      simp
    · intro i hi
      rw [eL, List.mem_append] at hi
      rcases hi with hi | hi
      · have := h3 i hi; omega
      · have := c1 i hi; omega
    · intro i hi1 hi2
      rw [eL, List.count_append]
      rcases Nat.lt_or_ge st.nn i with hlt | hge
      · have := h4 i hlt hi2
        rw [c3 i hlt]
        omega
      · rw [hnot i hge]
        have := c2 i hi1 hge
        omega

/-- The outer loop of `hessenberg`, entered with enough budget: it returns, and either all
of `wr[1..n]`, `wi[1..n]` have been assigned, or the thirtieth QR iteration has passed. -/
theorem hess_while_spec (sqrt : α → α) (anorm : α) (n : ℕ) (fuel : ℕ) :
    ∀ st : HState α, LogsOK n st → st.nn ≤ fuel →
      match hess_while sqrt anorm fuel st with
      | HResult.ret status st' =>
        (status = 1 ∧ st'.nn = 0 ∧ LogsOK n st') ∨
        (status = 0 ∧ st'.its = 30 ∧ 1 ≤ st'.l ∧ st'.l + 2 ≤ st'.nn ∧ st'.nn ≤ n ∧
          ∃ pre, st'.qrLog = pre ++ List.replicate 30 st'.nn)
      | HResult.diverged => False := by
  induction fuel with
  | zero =>
    intro st hst hnn
    rw [hess_while_done _ _ _ _ (by omega)]
    exact Or.inl ⟨rfl, by omega, hst⟩
  | succ fuel ih =>
    intro st hst hnn
    rcases Nat.eq_zero_or_pos st.nn with h0 | hpos
    · rw [hess_while_done _ _ _ _ h0]
      exact Or.inl ⟨rfl, h0, hst⟩
    · rw [hess_while_succ _ _ _ _ hpos]
      have hin := hess_dowhile_spec sqrt anorm 31 { st with its := 0 } hpos (by simp) (by simp)
      revert hin
      generalize hess_dowhile sqrt anorm 31 _ = res
      cases res with
      | next st' =>
        simp only
        rintro ⟨hD, -⟩
        have hok : LogsOK n st' := LogsOK_step n { st with its := 0 } st' hst hD
        have hlt : st'.nn ≤ fuel := by
          rcases hD with ⟨e, -, -⟩ | ⟨e, -, -⟩ <;> simp only at e <;> omega
        exact ih st' hok hlt
      | giveUp st' =>
        simp only
        rintro ⟨g1, g2, g3, g4, -, -, g7⟩
        refine Or.inr ⟨trivial, g1, g2, g3, ?_, ⟨st.qrLog, ?_⟩⟩
        · rw [g4]; exact hst.1
        · rw [g7, g4]
      | noFuel => simp

/-- C6 as amended: `hessenberg (a, n, wr, wi)` always returns. When it returns 1, `wi[]` has
been assigned exactly once at each index `n, n-1, ..., 1` (in this order) and `wr[]` has been
assigned once or twice at every index of `1..n` and at no other index. When it returns 0,
`its = 30`, the active block `l..nn` has order at least 3, and the last 30 QR iterations
were all made with the current `nn`, that is with no deflation in between. -/
theorem hessenberg_returns (sqrt : α → α) (a : ℕ → ℕ → α) (n : ℕ) (wr wi : ℕ → α) :
    match hessenberg sqrt a n wr wi with
    | HResult.ret status st =>
      (status = 1 ∧ st.wiLog = (List.range' 1 n).reverse ∧
        (∀ i ∈ st.wrLog, 1 ≤ i ∧ i ≤ n) ∧
        ∀ i, 1 ≤ i → i ≤ n → 1 ≤ st.wrLog.count i ∧ st.wrLog.count i ≤ 2) ∨
      (status = 0 ∧ st.its = 30 ∧ 1 ≤ st.l ∧ st.l + 2 ≤ st.nn ∧ st.nn ≤ n ∧
        ∃ pre, st.qrLog = pre ++ List.replicate 30 st.nn)
    | HResult.diverged => False := by
  have h := hess_while_spec sqrt (hess_anorm a n) n n
    { a := a, wr := wr, wi := wi, wrLog := [], wiLog := [], qrLog := [], t := 0, nn := n,
      its := 0, l := 0 }
    ⟨le_refl _, by simp, by simp, fun i h1 h2 => absurd h1 (by simp; omega)⟩ (le_refl _)
  unfold hessenberg
  revert h
  generalize hess_while sqrt (hess_anorm a n) n _ = res
  cases res with
  | ret status st =>
    simp only
    rintro (⟨h1, h2, h3, h4, h5, h6⟩ | h)
    · left
      refine ⟨h1, ?_, ?_, ?_⟩
      · rw [h4, h2]; simp
      · intro i hi; have := h5 i hi; omega
      · intro i hi1 hi2; exact h6 i (by omega) hi2
    · right; exact h
  | diverged => simp

/-- C6 as stated fails: on `[[5/8, 3/8], [3/8, 5/8]]` (`n = 2`) `hessenberg` returns 1 after
assigning `wr[2]`, `wr[1]` and `wr[2]` again, so index 2 of `wr[]` is assigned twice. -/
theorem hessenberg_assigns_wr_twice :
    ∃ st, hessenberg Real.sqrt (Q_dyadic (α := ℝ)) 2 (fun _ => 0) (fun _ => 0)
        = HResult.ret 1 st ∧ st.wrLog = [2, 1, 2] ∧ st.wrLog.count 2 = 2 := by
  obtain ⟨st, h, -, -, -, -, hlog, -⟩ := hessenberg_dyadic Real.sqrt real_sqrt_dyadic
    (Q_dyadic (α := ℝ)) (by simp [Q_dyadic]) (by simp [Q_dyadic]) (by simp [Q_dyadic])
    (by simp [Q_dyadic]) (fun _ => 0) (fun _ => 0)
  exact ⟨st, h, hlog, by rw [hlog]; decide⟩
/-! ### The solver's failure in the aggregator (C7) -/

/-- C7: the record built with the `max_corr_coef` flag unset exists and has
`max_corr_coef = 0`; with the flag set the result is that same record with only the field
`max_corr_coef` replaced: by 0 when `hessenberg` returns 0 on the derived matrix, by
`sqrt (x[Ng-1])` when it returns 1, and likewise when building `Q` divided by zero and the
derived matrix holds non-numbers. Every other field is the same in all cases. -/
theorem max_corr_coef_degrades [FloorRing α] (fuel : ℕ) (sqrt log10 exp : α → α)
    (P : ℕ → ℕ → α) (tones : ℕ) (fu : TEXTURE_FEATURE_MAP) (loc : Locals α) (Pxpy : ℕ → α)
    (mem : Mem α) :
    ∃ T0, ml_Extract_Temporal_Texture fuel sqrt log10 exp P tones
        { fu with max_corr_coef := false } loc Pxpy mem = some T0 ∧
      T0.max_corr_coef = Val.num 0 ∧
      ml_Extract_Temporal_Texture fuel sqrt log10 exp P tones
        { fu with max_corr_coef := true } loc Pxpy mem =
        match f14_derived fuel P tones mem with
        | none => none
        | some none =>
          match mkbalanced_nan fuel (f14_Q_nan P tones (marginals P tones).1
              (marginals P tones).2 (fun i j => Val.num (mem.Q i j))) tones with
          | none => none
          | some Q =>
            match hessenberg_nan sqrt (reduction_nan Q tones) tones
                (fun i => Val.num (pgm_vector 1 tones mem.x i))
                (fun i => Val.num (pgm_vector 1 tones mem.iy i)) with
            | HResult.ret status st =>
              some { T0 with
                max_corr_coef :=
                  if status = 0 then Val.num 0 else Val.map sqrt (st.wr (tones - 1)) }
            | HResult.diverged => none
        | some (some Q) =>
          match hessenberg sqrt Q tones (pgm_vector 1 tones mem.x)
              (pgm_vector 1 tones mem.iy) with
          | HResult.ret status st =>
            some { T0 with
              max_corr_coef :=
                if status = 0 then Val.num 0 else Val.num (sqrt (st.wr (tones - 1))) }
          | HResult.diverged => none := by
  refine ⟨_, rfl, rfl, ?_⟩
  simp only [ml_Extract_Temporal_Texture, f14_maxcorr, f14_maxcorr_nan, if_true]
  rcases f14_derived fuel P tones mem with _ | _ | Q
  · rfl
  · simp only
    rcases mkbalanced_nan fuel (f14_Q_nan P tones (marginals P tones).1
      (marginals P tones).2 (fun i j => Val.num (mem.Q i j))) tones with _ | Q
    · rfl
    · simp only
      rcases hessenberg_nan sqrt (reduction_nan Q tones) tones
        (fun i => Val.num (pgm_vector 1 tones mem.x i))
        (fun i => Val.num (pgm_vector 1 tones mem.iy i)) with ⟨status, st⟩ | _
      · simp only
        by_cases h : status = 0
        · simp only [h, if_true]
        · simp only [h, if_false]
      · rfl
  · simp only
    rcases hessenberg sqrt Q tones (pgm_vector 1 tones mem.x) (pgm_vector 1 tones mem.iy)
      with ⟨status, st⟩ | _
    · simp only
      by_cases h : status = 0
      · simp only [h, if_true]
      · simp only [h, if_false]
    · rfl
/-! ### Correlation (C8, C9) -/

theorem forLoop_pair_sum {β : Type} [AddCommMonoid β] (lo hi : ℕ) (f g : ℕ → β) (a b : β) :
    forLoop lo hi (fun i (st : β × β) => (st.1 + f i, st.2 + g i)) (a, b) =
      (a + ∑ i in Finset.Ico lo hi, f i, b + ∑ i in Finset.Ico lo hi, g i) := by
  rcases Nat.lt_or_ge lo hi with h | h
  · obtain ⟨d, rfl⟩ : ∃ d, hi = lo + d := ⟨hi - lo, by omega⟩
    clear h
    induction d with
    | zero => simp [forLoop_ge]
    | succ d ih =>
      rw [← Nat.add_assoc, forLoop_succ_right _ _ (by omega), ih,
        Finset.sum_Ico_succ_top (by omega), Finset.sum_Ico_succ_top (by omega)]
      simp only [add_assoc]
  · rw [forLoop_ge _ _ h, Finset.Ico_eq_empty (by omega)]
    simp

/-- The loop `for j: v[i] += f j` adds the sum of the `f j` to cell `i`. -/
theorem forLoop_update_add {β : Type} [AddCommMonoid β] (m i : ℕ) (f : ℕ → β) (v : ℕ → β) :
    forLoop 0 m (fun j v => Function.update v i (v i + f j)) v =
      Function.update v i (v i + ∑ j in Finset.range m, f j) := by
  induction m with
  | zero => simp [forLoop_ge]
  | succ m ih =>
    rw [forLoop_succ_right _ _ (by omega), ih, Finset.sum_range_succ]
    simp [add_assoc]

/-- The loop nest `for i: for j: v[i] += f i j` adds the row sums of `f` to the cells. -/
theorem forLoop_rows_add {β : Type} [AddCommMonoid β] (n m : ℕ) (f : ℕ → ℕ → β) (v : ℕ → β) :
    forLoop 0 n (fun i v => forLoop 0 m (fun j v => Function.update v i (v i + f i j)) v) v =
      fun i => if i < n then v i + ∑ j in Finset.range m, f i j else v i := by
  induction n with
  | zero => simp [forLoop_ge]
  | succ n ih =>
    rw [forLoop_succ_right _ _ (by omega), ih, forLoop_update_add]
    funext i
    rcases Nat.lt_trichotomy i n with h | h | h
    · rw [Function.update_noteq (by omega)]
      simp [h, Nat.lt_succ_of_lt h]
    · subst h
      simp
    · rw [Function.update_noteq (by omega)]
      have h1 : ¬ i < n := by omega
      have h2 : ¬ i < n + 1 := by omega
      simp [h1, h2]

theorem f3_px_eq (P : ℕ → ℕ → α) (Ng i : ℕ) (hi : i < Ng) :
    f3_px P Ng i = ∑ j in Finset.range Ng, P i j := by
  have h0 : forLoop 0 Ng (fun i px => Function.update px i (0 : α))
      (pgm_vector 0 Ng (fun _ => 0)) = fun _ => 0 := by
    apply forLoop_invariant (fun v => v = fun _ => (0 : α))
    · funext i; simp [pgm_vector]
    · intro i s _ _ hs
      rw [hs]
      funext k
      by_cases hk : k = i <;> simp [Function.update, hk]
  unfold f3_px
  simp only [h0, forLoop_rows_add, hi, if_true, zero_add]

theorem f3_moments_eq (P : ℕ → ℕ → α) (Ng : ℕ) :
    f3_moments P Ng =
      (∑ i in Finset.range Ng, (∑ j in Finset.range Ng, P i j) * (i : α),
       ∑ i in Finset.range Ng, (∑ j in Finset.range Ng, P i j) * (i : α) * (i : α)) := by
  unfold f3_moments
  simp only
  rw [forLoop_pair_sum, zero_add, zero_add, ← Finset.range_eq_Ico]
  congr 1
  · exact Finset.sum_congr rfl (fun i hi => by rw [f3_px_eq P Ng i (Finset.mem_range.mp hi)])
  · exact Finset.sum_congr rfl (fun i hi => by rw [f3_px_eq P Ng i (Finset.mem_range.mp hi)])

/-- Covariance bound behind `f3_corr`: for a symmetric non-negative `P` of total mass 1 the
numerator of the correlation is bounded by the marginal variance in absolute value. -/
theorem corr_numerator_bound (P : ℕ → ℕ → ℝ) (Ng : ℕ)
    (hsym : ∀ i j, i < Ng → j < Ng → P i j = P j i)
    (hnn : ∀ i j, i < Ng → j < Ng → 0 ≤ P i j)
    (hsum : ∑ i in Finset.range Ng, ∑ j in Finset.range Ng, P i j = 1) :
    let mu := ∑ i in Finset.range Ng, (∑ j in Finset.range Ng, P i j) * (i : ℝ)
    let m2 := ∑ i in Finset.range Ng, (∑ j in Finset.range Ng, P i j) * (i : ℝ) * (i : ℝ)
    let tmp := ∑ i in Finset.range Ng, ∑ j in Finset.range Ng, ((i * j : ℕ) : ℝ) * P i j
    tmp - mu * mu ≤ m2 - mu * mu ∧ -(m2 - mu * mu) ≤ tmp - mu * mu := by
  intro mu m2 tmp
  have hmu1 : mu = ∑ i in Finset.range Ng, ∑ j in Finset.range Ng, (i : ℝ) * P i j := by
    simp only [mu, Finset.sum_mul]
    exact Finset.sum_congr rfl (fun i _ => Finset.sum_congr rfl (fun j _ => by ring))
  have hmu2 : mu = ∑ i in Finset.range Ng, ∑ j in Finset.range Ng, (j : ℝ) * P i j := by
    rw [hmu1, Finset.sum_comm]
    exact Finset.sum_congr rfl (fun i hi => Finset.sum_congr rfl (fun j hj => by
      rw [hsym j i (Finset.mem_range.mp hj) (Finset.mem_range.mp hi)]))
  have hm1 : m2 = ∑ i in Finset.range Ng, ∑ j in Finset.range Ng, (i : ℝ) ^ 2 * P i j := by
    simp only [m2, Finset.sum_mul]
    exact Finset.sum_congr rfl (fun i _ => Finset.sum_congr rfl (fun j _ => by ring))
  have hm2 : m2 = ∑ i in Finset.range Ng, ∑ j in Finset.range Ng, (j : ℝ) ^ 2 * P i j := by
    rw [hm1, Finset.sum_comm]
    exact Finset.sum_congr rfl (fun i hi => Finset.sum_congr rfl (fun j hj => by
      rw [hsym j i (Finset.mem_range.mp hj) (Finset.mem_range.mp hi)]))
  have ht : tmp = ∑ i in Finset.range Ng, ∑ j in Finset.range Ng, (i : ℝ) * (j : ℝ) * P i j := by
    simp only [tmp]
    exact Finset.sum_congr rfl (fun i _ => Finset.sum_congr rfl (fun j _ => by push_cast; ring))
  have hA : 0 ≤ ∑ i in Finset.range Ng, ∑ j in Finset.range Ng,
      ((i : ℝ) - (j : ℝ)) ^ 2 * P i j :=
    Finset.sum_nonneg (fun i hi => Finset.sum_nonneg (fun j hj =>
      mul_nonneg (sq_nonneg _) (hnn i j (Finset.mem_range.mp hi) (Finset.mem_range.mp hj))))
  have hB : 0 ≤ ∑ i in Finset.range Ng, ∑ j in Finset.range Ng,
      ((i : ℝ) + (j : ℝ) - 2 * mu) ^ 2 * P i j :=
    Finset.sum_nonneg (fun i hi => Finset.sum_nonneg (fun j hj =>
      mul_nonneg (sq_nonneg _) (hnn i j (Finset.mem_range.mp hi) (Finset.mem_range.mp hj))))
  have hA' : ∑ i in Finset.range Ng, ∑ j in Finset.range Ng, ((i : ℝ) - (j : ℝ)) ^ 2 * P i j
      = m2 + m2 - 2 * tmp := by
    nth_rewrite 1 [hm1]
    nth_rewrite 1 [hm2]
    rw [ht, Finset.mul_sum, ← Finset.sum_add_distrib, ← Finset.sum_sub_distrib]
    refine Finset.sum_congr rfl (fun i _ => ?_)
    rw [Finset.mul_sum, ← Finset.sum_add_distrib, ← Finset.sum_sub_distrib]
    exact Finset.sum_congr rfl (fun j _ => by ring)
  have hB' : ∑ i in Finset.range Ng, ∑ j in Finset.range Ng,
      ((i : ℝ) + (j : ℝ) - 2 * mu) ^ 2 * P i j
      = m2 + m2 + 2 * tmp - 4 * mu * (mu + mu) + 4 * mu ^ 2 * 1 := by
    nth_rewrite 1 [hm1]
    nth_rewrite 1 [hm2]
    nth_rewrite 3 [hmu1]
    nth_rewrite 3 [hmu2]
    rw [ht, ← hsum]
    simp only [Finset.mul_sum, ← Finset.sum_add_distrib, ← Finset.sum_sub_distrib]
    refine Finset.sum_congr rfl (fun i _ => Finset.sum_congr rfl (fun j _ => ?_))
    ring
  constructor
  · nlinarith
  · nlinarith

/-- C8: for `Ng >= 1` and a symmetric `P` with non-negative entries summing to 1 whose
row-marginal variance is positive, `f3_corr` returns a number in `[-1, 1]` (real
arithmetic, `sqrt` the real square root). -/
theorem f3_corr_bounds (P : ℕ → ℕ → ℝ) (Ng : ℕ) (_hNg : 1 ≤ Ng)
    (hsym : ∀ i j, i < Ng → j < Ng → P i j = P j i)
    (hnn : ∀ i j, i < Ng → j < Ng → 0 ≤ P i j)
    (hsum : ∑ i in Finset.range Ng, ∑ j in Finset.range Ng, P i j = 1)
    (hvar : 0 < ∑ i in Finset.range Ng, (i : ℝ) ^ 2 * (∑ j in Finset.range Ng, P i j) -
      (∑ i in Finset.range Ng, (i : ℝ) * ∑ j in Finset.range Ng, P i j) ^ 2) :
    ∃ c, f3_corr Real.sqrt P Ng = Val.num c ∧ -1 ≤ c ∧ c ≤ 1 := by
  obtain ⟨h1, h2⟩ := corr_numerator_bound P Ng hsym hnn hsum
  set mu := ∑ i in Finset.range Ng, (∑ j in Finset.range Ng, P i j) * (i : ℝ) with hmu
  set m2 := ∑ i in Finset.range Ng, (∑ j in Finset.range Ng, P i j) * (i : ℝ) * (i : ℝ) with hm2
  set tmp := ∑ i in Finset.range Ng, ∑ j in Finset.range Ng, ((i * j : ℕ) : ℝ) * P i j with htmp
  have hV : 0 < m2 - mu * mu := by
    have e1 : ∑ i in Finset.range Ng, (i : ℝ) ^ 2 * (∑ j in Finset.range Ng, P i j) = m2 :=
      Finset.sum_congr rfl (fun i _ => by ring)
    have e2 : ∑ i in Finset.range Ng, (i : ℝ) * (∑ j in Finset.range Ng, P i j) = mu :=
      Finset.sum_congr rfl (fun i _ => by ring)
    rw [e1, e2] at hvar
    nlinarith
  have hs : Real.sqrt (m2 - mu * mu) * Real.sqrt (m2 - mu * mu) = m2 - mu * mu :=
    Real.mul_self_sqrt hV.le
  refine ⟨(tmp - mu * mu) / (m2 - mu * mu), ?_, ?_, ?_⟩
  · unfold f3_corr f3_stddevx
    simp only [f3_moments_eq, forLoop_sum2]
    rw [← hmu, ← hm2, ← htmp, hs, cdiv, if_neg hV.ne']
  · rw [le_div_iff₀ hV]; linarith
  · rw [div_le_iff₀ hV]; linarith
/-- Witness for C8: `Ng = 2`, `P = [[1/2, 0], [0, 1/2]]`, of marginal variance `1/4`. -/
theorem f3_corr_bounds_witness :
    (1 ≤ 2 ∧ (∀ i j, i < 2 → j < 2 → P_half (α := ℝ) i j = P_half j i) ∧
      (∀ i j, i < 2 → j < 2 → 0 ≤ P_half (α := ℝ) i j) ∧
      ∑ i in Finset.range 2, ∑ j in Finset.range 2, P_half (α := ℝ) i j = 1 ∧
      0 < ∑ i in Finset.range 2, (i : ℝ) ^ 2 * (∑ j in Finset.range 2, P_half i j) -
        (∑ i in Finset.range 2, (i : ℝ) * ∑ j in Finset.range 2, P_half i j) ^ 2) ∧
    ∃ c, f3_corr Real.sqrt P_half 2 = Val.num c ∧ -1 ≤ c ∧ c ≤ 1 :=
  have hsym : ∀ i j, i < 2 → j < 2 → P_half (α := ℝ) i j = P_half j i := fun i j _ _ => by
    unfold P_half
    by_cases h : i = j
    · rw [if_pos h, if_pos h.symm]
    · rw [if_neg h, if_neg (fun e => h e.symm)]
  have hnn : ∀ i j, i < 2 → j < 2 → 0 ≤ P_half (α := ℝ) i j := fun i j _ _ => by
    unfold P_half; split_ifs <;> norm_num
  have hsum : ∑ i in Finset.range 2, ∑ j in Finset.range 2, P_half (α := ℝ) i j = 1 := by
    simp [Finset.sum_range_succ, P_half]; norm_num
  have hvar : 0 < ∑ i in Finset.range 2, (i : ℝ) ^ 2 * (∑ j in Finset.range 2, P_half i j) -
      (∑ i in Finset.range 2, (i : ℝ) * ∑ j in Finset.range 2, P_half i j) ^ 2 := by
    simp [Finset.sum_range_succ, P_half]; norm_num
  ⟨⟨by decide, hsym, hnn, hsum, hvar⟩, f3_corr_bounds P_half 2 (by decide) hsym hnn hsum hvar⟩

theorem f3_moments_P_half : f3_moments (P_half (α := α)) 2 = (1 / 2, 1 / 2) := by
  rw [f3_moments_eq]
  simp [Finset.sum_range_succ, P_half]

theorem real_sqrt_quarter : Real.sqrt (1 / 4) = 1 / 2 := by
  rw [show (1 / 4 : ℝ) = (1 / 2) ^ 2 by norm_num]
  exact Real.sqrt_sq (by norm_num)

theorem f3_stddevx_P_half : f3_stddevx Real.sqrt P_half 2 = 1 / 2 := by
  unfold f3_stddevx
  simp only [f3_moments_P_half]
  rw [show (1 / 2 - 1 / 2 * (1 / 2) : ℝ) = 1 / 4 by norm_num]
  exact real_sqrt_quarter

theorem f3_corr_P_half : f3_corr Real.sqrt P_half 2 = Val.num 1 := by
  unfold f3_corr
  simp only [f3_stddevx_P_half, f3_moments_P_half, forLoop_sum2]
  simp [Finset.sum_range_succ, P_half, cdiv]
  norm_num

theorem f9_entropy_P_half (log10 : α → α) :
    f9_entropy log10 P_half 2 = -(log10 (1 / 2 + EPSILON) / log10 2) := by
  unfold f9_entropy
  rw [forLoop_sum2]
  simp [Finset.sum_range_succ, P_half]
  ring

theorem entropy_half_bounds :
    1 - 3 / 1000000000 < -(Real.logb 10 (1 / 2 + EPSILON) / Real.logb 10 2) ∧
      -(Real.logb 10 (1 / 2 + EPSILON) / Real.logb 10 2) < 1 := by
  have hl2 : (0.6931471803 : ℝ) < Real.log 2 := Real.log_two_gt_d9
  have hl2pos : 0 < Real.log 2 := by linarith
  have h10 : Real.log 10 ≠ 0 := by
    have : 0 < Real.log 10 := Real.log_pos (by norm_num)
    exact this.ne'
  have e : Real.logb 10 (1 / 2 + EPSILON) / Real.logb 10 2
      = Real.log (1 / 2 + EPSILON) / Real.log 2 := by
    unfold Real.logb
    field_simp
  have e2 : Real.log (1 / 2 + EPSILON) = Real.log (1 + 2 * EPSILON) - Real.log 2 := by
    rw [← Real.log_div (by unfold EPSILON; norm_num) (by norm_num)]
    congr 1
    unfold EPSILON; norm_num
  have hpos : 0 < Real.log (1 + 2 * EPSILON) := Real.log_pos (by unfold EPSILON; norm_num)
  have hle : Real.log (1 + 2 * EPSILON) ≤ 2 * EPSILON := by
    have := Real.log_le_sub_one_of_pos (show (0 : ℝ) < 1 + 2 * EPSILON by unfold EPSILON; norm_num)
    linarith
  rw [e, e2, sub_div, div_self hl2pos.ne']
  have hq1 : 0 < Real.log (1 + 2 * EPSILON) / Real.log 2 := div_pos hpos hl2pos
  have hq2 : Real.log (1 + 2 * EPSILON) / Real.log 2 < 3 / 1000000000 := by
    rw [div_lt_iff₀ hl2pos]
    have : (2 : ℝ) * EPSILON = 2 / 1000000000 := by unfold EPSILON; norm_num
    nlinarith
  constructor <;> linarith

/-- C9 as stated fails: for `Ng = 2`, `P = [[1/2, 0], [0, 1/2]]` the standard deviation
that `f3_corr` computes is not 0 and its quotient is a number. -/
theorem f3_corr_half_is_defined :
    f3_stddevx Real.sqrt P_half 2 ≠ 0 ∧ f3_corr Real.sqrt P_half 2 ≠ Val.undef := by
  rw [f3_stddevx_P_half, f3_corr_P_half]
  exact ⟨by norm_num, fun h => Val.noConfusion h⟩

/-- C9 as amended: for `Ng = 2`, `P = [[1/2, 0], [0, 1/2]]` the standard deviation computed
by `f3_corr` is `1/2` and `f3_corr` returns 1; `f1_asm` returns `1/2`, `f2_contrast`
returns 0 and `f9_entropy` returns `-log2 (1/2 + EPSILON)`, which lies within `3e-9`
below 1. -/
theorem scenario_half :
    f3_stddevx Real.sqrt P_half 2 = 1 / 2 ∧ f3_corr Real.sqrt P_half 2 = Val.num 1 ∧
      f1_asm (P_half (α := ℝ)) 2 = 1 / 2 ∧ f2_contrast (P_half (α := ℝ)) 2 = 0 ∧
      f9_entropy (Real.logb 10) P_half 2 = -(Real.logb 10 (1 / 2 + EPSILON) / Real.logb 10 2) ∧
      1 - 3 / 1000000000 < f9_entropy (Real.logb 10) P_half 2 ∧
      f9_entropy (Real.logb 10) P_half 2 < 1 := by
  refine ⟨f3_stddevx_P_half, f3_corr_P_half, ?_, ?_, f9_entropy_P_half _, ?_, ?_⟩
  · rw [f1_asm, forLoop_sum2]
    simp [Finset.sum_range_succ, P_half]
    norm_num
  · simp [f2_contrast, forLoop, List.range', P_half]
  · rw [f9_entropy_P_half]; exact entropy_half_bounds.1
  · rw [f9_entropy_P_half]; exact entropy_half_bounds.2

/-! ### Angular second moment (C10) -/

/-- C10: for `Ng >= 1` and `P` with non-negative entries summing to 1, `f1_asm` is the sum
of the squared entries and lies in `[1 / Ng^2, 1]`. -/
theorem f1_asm_bounds (P : ℕ → ℕ → α) (Ng : ℕ) (hNg : 1 ≤ Ng)
    (hnn : ∀ i j, i < Ng → j < Ng → 0 ≤ P i j)
    (hsum : ∑ i in Finset.range Ng, ∑ j in Finset.range Ng, P i j = 1) :
    f1_asm P Ng = ∑ i in Finset.range Ng, ∑ j in Finset.range Ng, P i j ^ 2 ∧
      1 / (Ng : α) ^ 2 ≤ f1_asm P Ng ∧ f1_asm P Ng ≤ 1 := by
  have heq : f1_asm P Ng = ∑ i in Finset.range Ng, ∑ j in Finset.range Ng, P i j ^ 2 := by
    rw [f1_asm, forLoop_sum2]
    exact Finset.sum_congr rfl (fun i _ => Finset.sum_congr rfl (fun j _ => by ring))
  have hle1 : ∀ i j, i < Ng → j < Ng → P i j ≤ 1 := by
    intro i j hi hj
    have h1 : P i j ≤ ∑ j in Finset.range Ng, P i j :=
      Finset.single_le_sum (f := fun j => P i j)
        (fun k hk => hnn i k hi (Finset.mem_range.mp hk)) (Finset.mem_range.mpr hj)
    have h2 : ∑ j in Finset.range Ng, P i j ≤ ∑ i in Finset.range Ng, ∑ j in Finset.range Ng, P i j :=
      Finset.single_le_sum (f := fun i => ∑ j in Finset.range Ng, P i j)
        (fun k hk => Finset.sum_nonneg (fun l hl =>
          hnn k l (Finset.mem_range.mp hk) (Finset.mem_range.mp hl))) (Finset.mem_range.mpr hi)
    linarith
  refine ⟨heq, ?_, ?_⟩
  · rw [heq]
    have hcs := sq_sum_le_card_mul_sum_sq (s := Finset.range Ng ×ˢ Finset.range Ng)
      (f := fun x : ℕ × ℕ => P x.1 x.2)
    rw [Finset.sum_product, Finset.sum_product, hsum, Finset.card_product, Finset.card_range] at hcs
    have hpos : (0 : α) < (Ng : α) ^ 2 := by
      have : (0 : α) < (Ng : α) := by exact_mod_cast hNg
      positivity
    rw [div_le_iff₀ hpos]
    push_cast at hcs
    nlinarith
  · rw [heq, ← hsum]
    refine Finset.sum_le_sum (fun i hi => Finset.sum_le_sum (fun j hj => ?_))
    have h0 := hnn i j (Finset.mem_range.mp hi) (Finset.mem_range.mp hj)
    have h1 := hle1 i j (Finset.mem_range.mp hi) (Finset.mem_range.mp hj)
    nlinarith

/-- Witness for C10: `Ng = 2`, `P = [[1/2, 0], [0, 1/2]]` over the rationals. -/
theorem f1_asm_bounds_witness :
    (1 ≤ 2 ∧ (∀ i j, i < 2 → j < 2 → 0 ≤ P_half (α := ℚ) i j) ∧
      ∑ i in Finset.range 2, ∑ j in Finset.range 2, P_half (α := ℚ) i j = 1) ∧
    (f1_asm (P_half (α := ℚ)) 2 =
        ∑ i in Finset.range 2, ∑ j in Finset.range 2, P_half (α := ℚ) i j ^ 2 ∧
      1 / ((2 : ℕ) : ℚ) ^ 2 ≤ f1_asm (P_half (α := ℚ)) 2 ∧ f1_asm (P_half (α := ℚ)) 2 ≤ 1) :=
  have hnn : ∀ i j, i < 2 → j < 2 → 0 ≤ P_half (α := ℚ) i j := fun i j _ _ => by
    unfold P_half; split_ifs <;> norm_num
  have hsum : ∑ i in Finset.range 2, ∑ j in Finset.range 2, P_half (α := ℚ) i j = 1 := by
    simp [Finset.sum_range_succ, P_half]; norm_num
  ⟨⟨by decide, hnn, hsum⟩, f1_asm_bounds P_half 2 (by decide) hnn hsum⟩
/-! ### Entropy (C11) -/

theorem f9_entropy_eq (log10 : α → α) (P : ℕ → ℕ → α) (Ng : ℕ) :
    f9_entropy log10 P Ng =
      -∑ i in Finset.range Ng, ∑ j in Finset.range Ng,
        P i j * log10 (P i j + EPSILON) / log10 2 := by
  rw [f9_entropy, forLoop_sum2]

theorem entry_le_one (P : ℕ → ℕ → α) (Ng : ℕ)
    (hnn : ∀ i j, i < Ng → j < Ng → 0 ≤ P i j)
    (hsum : ∑ i in Finset.range Ng, ∑ j in Finset.range Ng, P i j = 1)
    (i j : ℕ) (hi : i < Ng) (hj : j < Ng) : P i j ≤ 1 := by
  have h1 : P i j ≤ ∑ j in Finset.range Ng, P i j :=
    Finset.single_le_sum (f := fun j => P i j)
      (fun k hk => hnn i k hi (Finset.mem_range.mp hk)) (Finset.mem_range.mpr hj)
  have h2 : ∑ j in Finset.range Ng, P i j ≤
      ∑ i in Finset.range Ng, ∑ j in Finset.range Ng, P i j :=
    Finset.single_le_sum (f := fun i => ∑ j in Finset.range Ng, P i j)
      (fun k hk => Finset.sum_nonneg (fun l hl =>
        hnn k l (Finset.mem_range.mp hk) (Finset.mem_range.mp hl))) (Finset.mem_range.mpr hi)
  linarith

theorem log2_one_add_eps_bounds :
    0 < Real.logb 10 (1 + EPSILON) / Real.logb 10 2 ∧
      Real.logb 10 (1 + EPSILON) / Real.logb 10 2 < 3 / 2000000000 := by
  have hl2 : (0.6931471803 : ℝ) < Real.log 2 := Real.log_two_gt_d9
  have hl2pos : 0 < Real.log 2 := by linarith
  have h10 : Real.log 10 ≠ 0 := (Real.log_pos (by norm_num)).ne'
  have e : Real.logb 10 (1 + EPSILON) / Real.logb 10 2
      = Real.log (1 + EPSILON) / Real.log 2 := by
    unfold Real.logb
    field_simp
  have hpos : 0 < Real.log (1 + EPSILON) := Real.log_pos (by unfold EPSILON; norm_num)
  have hle : Real.log (1 + EPSILON) ≤ EPSILON := by
    have := Real.log_le_sub_one_of_pos (show (0 : ℝ) < 1 + EPSILON by unfold EPSILON; norm_num)
    linarith
  rw [e]
  refine ⟨div_pos hpos hl2pos, ?_⟩
  rw [div_lt_iff₀ hl2pos]
  have : (EPSILON : ℝ) = 1 / 1000000000 := rfl
  nlinarith

/-- C11 as stated fails: `Ng = 1`, `P = [[1]]` is a valid co-occurrence matrix and
`f9_entropy` returns `-log2 (1 + EPSILON)`, which is negative; the lower bound of the
amended claim is attained there. -/
theorem f9_entropy_negative :
    (∀ i j, i < 1 → j < 1 → 0 ≤ P_one (α := ℝ) i j) ∧
      ∑ i in Finset.range 1, ∑ j in Finset.range 1, P_one (α := ℝ) i j = 1 ∧
      f9_entropy (Real.logb 10) P_one 1 < 0 ∧
      f9_entropy (Real.logb 10) P_one 1 = -(Real.logb 10 (1 + EPSILON) / Real.logb 10 2) := by
  have hval : f9_entropy (Real.logb 10) (P_one (α := ℝ)) 1 =
      -(Real.logb 10 (1 + EPSILON) / Real.logb 10 2) := by
    rw [f9_entropy_eq]
    simp only [Finset.sum_range_one, P_one, one_mul]
  refine ⟨fun i j _ _ => by simp [P_one], by simp [P_one], ?_, hval⟩
  rw [f9_entropy_eq]
  simp only [Finset.sum_range_one, P_one, one_mul]
  have := log2_one_add_eps_bounds.1
  linarith

/-- C11 as amended: for `Ng >= 1` and `P` with non-negative entries summing to 1,
`f9_entropy` is minus the sum of the `P[i][j] * log2 (P[i][j] + EPSILON)` and is at least
`-log2 (1 + EPSILON)`, hence above `-1.5e-9` (real arithmetic). -/
theorem f9_entropy_lower_bound (P : ℕ → ℕ → ℝ) (Ng : ℕ) (_hNg : 1 ≤ Ng)
    (hnn : ∀ i j, i < Ng → j < Ng → 0 ≤ P i j)
    (hsum : ∑ i in Finset.range Ng, ∑ j in Finset.range Ng, P i j = 1) :
    f9_entropy (Real.logb 10) P Ng =
        -∑ i in Finset.range Ng, ∑ j in Finset.range Ng,
          P i j * Real.logb 10 (P i j + EPSILON) / Real.logb 10 2 ∧
      -(Real.logb 10 (1 + EPSILON) / Real.logb 10 2) ≤ f9_entropy (Real.logb 10) P Ng ∧
      -(3 / 2000000000) < f9_entropy (Real.logb 10) P Ng := by
  have hb := log2_one_add_eps_bounds
  have h2 : 0 < Real.logb 10 2 := Real.logb_pos (by norm_num) (by norm_num)
  have key : ∑ i in Finset.range Ng, ∑ j in Finset.range Ng,
      P i j * Real.logb 10 (P i j + EPSILON) / Real.logb 10 2 ≤
      Real.logb 10 (1 + EPSILON) / Real.logb 10 2 := by
    have hterm : ∀ i ∈ Finset.range Ng, ∀ j ∈ Finset.range Ng,
        P i j * Real.logb 10 (P i j + EPSILON) / Real.logb 10 2 ≤
          P i j * (Real.logb 10 (1 + EPSILON) / Real.logb 10 2) := by
      intro i hi j hj
      have h0 := hnn i j (Finset.mem_range.mp hi) (Finset.mem_range.mp hj)
      have h1 := entry_le_one P Ng hnn hsum i j (Finset.mem_range.mp hi) (Finset.mem_range.mp hj)
      have hlog : Real.logb 10 (P i j + EPSILON) ≤ Real.logb 10 (1 + EPSILON) := by
        apply Real.logb_le_logb_of_le (by norm_num)
        · have : (0 : ℝ) < EPSILON := by unfold EPSILON; norm_num
          linarith
        · linarith
      rw [mul_div_assoc]
      exact mul_le_mul_of_nonneg_left (div_le_div_of_nonneg_right hlog h2.le) h0
    calc ∑ i in Finset.range Ng, ∑ j in Finset.range Ng,
          P i j * Real.logb 10 (P i j + EPSILON) / Real.logb 10 2
        ≤ ∑ i in Finset.range Ng, ∑ j in Finset.range Ng,
          P i j * (Real.logb 10 (1 + EPSILON) / Real.logb 10 2) :=
          Finset.sum_le_sum (fun i hi => Finset.sum_le_sum (fun j hj => hterm i hi j hj))
      _ = Real.logb 10 (1 + EPSILON) / Real.logb 10 2 := by
          simp only [← Finset.sum_mul, hsum, one_mul]
  refine ⟨f9_entropy_eq _ _ _, ?_, ?_⟩
  · rw [f9_entropy_eq]; linarith
  · rw [f9_entropy_eq]; linarith [hb.2]
/-- Witness for C11 as amended: `Ng = 2`, `P = [[1/2, 0], [0, 1/2]]`. -/
theorem f9_entropy_lower_bound_witness :
    (1 ≤ 2 ∧ (∀ i j, i < 2 → j < 2 → 0 ≤ P_half (α := ℝ) i j) ∧
      ∑ i in Finset.range 2, ∑ j in Finset.range 2, P_half (α := ℝ) i j = 1) ∧
    (f9_entropy (Real.logb 10) P_half 2 =
        -∑ i in Finset.range 2, ∑ j in Finset.range 2,
          P_half i j * Real.logb 10 (P_half i j + EPSILON) / Real.logb 10 2 ∧
      -(Real.logb 10 (1 + EPSILON) / Real.logb 10 2) ≤ f9_entropy (Real.logb 10) P_half 2 ∧
      -(3 / 2000000000) < f9_entropy (Real.logb 10) P_half 2) :=
  have hnn : ∀ i j, i < 2 → j < 2 → 0 ≤ P_half (α := ℝ) i j := fun i j _ _ => by
    unfold P_half; split_ifs <;> norm_num
  have hsum : ∑ i in Finset.range 2, ∑ j in Finset.range 2, P_half (α := ℝ) i j = 1 := by
    simp [Finset.sum_range_succ, P_half]; norm_num
  ⟨⟨by decide, hnn, hsum⟩, f9_entropy_lower_bound P_half 2 (by decide) hnn hsum⟩

/-! ### Contrast (C12, C13) -/

theorem forLoop_sum_ite {β : Type} [AddCommMonoid β] (lo hi : ℕ) (c : ℕ → Prop)
    [DecidablePred c] (f : ℕ → β) (s : β) :
    forLoop lo hi (fun i acc => if c i then acc + f i else acc) s =
      s + ∑ i in Finset.Ico lo hi, if c i then f i else 0 := by
  rw [← forLoop_sum]
  congr 1
  funext i acc
  split_ifs <;> simp

theorem contrast_cond_iff (i j n : ℕ) :
    ((i : ℤ) - (j : ℤ) = (n : ℤ) ∨ (j : ℤ) - (i : ℤ) = (n : ℤ)) ↔
      Int.natAbs ((i : ℤ) - (j : ℤ)) = n := by
  omega

/-- The inner loop nest of `f2_contrast` adds `D[n]` to `sum`. -/
theorem f2_inner_eq (P : ℕ → ℕ → α) (Ng n : ℕ) (s : α) :
    forLoop 0 Ng (fun i sum =>
      forLoop 0 Ng (fun j sum =>
        if (i : ℤ) - (j : ℤ) = (n : ℤ) ∨ (j : ℤ) - (i : ℤ) = (n : ℤ) then sum + P i j
        else sum) sum) s = s + diffDistribution P Ng n := by
  have h : (fun (i : ℕ) (sum : α) => forLoop 0 Ng (fun (j : ℕ) sum =>
        if (i : ℤ) - (j : ℤ) = (n : ℤ) ∨ (j : ℤ) - (i : ℤ) = (n : ℤ) then sum + P i j
        else sum) sum) =
      fun (i : ℕ) sum => sum + ∑ j in Finset.range Ng,
        if Int.natAbs ((i : ℤ) - (j : ℤ)) = n then P i j else 0 := by
    funext i sum
    rw [forLoop_sum_ite, Finset.range_eq_Ico]
    congr 1
    exact Finset.sum_congr rfl (fun j _ => by simp only [contrast_cond_iff])
  rw [h, forLoop_sum]
  simp only [Finset.range_eq_Ico, diffDistribution]

theorem f2_contrast_eq (P : ℕ → ℕ → α) (Ng : ℕ) :
    f2_contrast P Ng =
      ∑ n in Finset.range Ng, ((n * n : ℕ) : α) * diffDistribution P Ng n := by
  unfold f2_contrast
  simp only [f2_inner_eq]
  have h : ∀ N b, forLoop 0 N (fun n (st : α × α) =>
      ((0 : α), st.2 + ((n * n : ℕ) : α) * (st.1 + diffDistribution P Ng n))) (0, b) =
      (0, b + ∑ n in Finset.range N, ((n * n : ℕ) : α) * diffDistribution P Ng n) := by
    intro N b
    induction N with
    | zero => simp [forLoop_ge]
    | succ N ih =>
      rw [forLoop_succ_right _ _ (by omega), ih, Finset.sum_range_succ]
      simp [add_assoc]
  rw [h]
  simp

/-- Every pair `(i, j)` below `Ng` has its tone difference among `0 .. Ng - 1`. -/
theorem sum_diff_weights (P : ℕ → ℕ → α) (Ng : ℕ) (w : ℕ → α) :
    ∑ n in Finset.range Ng, w n * diffDistribution P Ng n =
      ∑ i in Finset.range Ng, ∑ j in Finset.range Ng,
        w (Int.natAbs ((i : ℤ) - (j : ℤ))) * P i j := by
  unfold diffDistribution
  simp only [Finset.mul_sum]
  rw [Finset.sum_comm]
  refine Finset.sum_congr rfl (fun i hi => ?_)
  rw [Finset.sum_comm]
  refine Finset.sum_congr rfl (fun j hj => ?_)
  have hlt : Int.natAbs ((i : ℤ) - (j : ℤ)) < Ng := by
    have := Finset.mem_range.mp hi
    have := Finset.mem_range.mp hj
    omega
  simp only [mul_ite, mul_zero]
  rw [Finset.sum_ite_eq]
  simp [hlt]

/-- C13: `f2_contrast` is the sum over `n` in `0 .. Ng - 1` of `n^2 * D[n]`, where `D[n]`
adds the `P[i][j]` with `|i - j| = n`; the test of the source holds for exactly one `n`
below `Ng` for every pair `(i, j)`; hence `f2_contrast` is the sum of the
`(i - j)^2 * P[i][j]`. -/
theorem f2_contrast_formula (P : ℕ → ℕ → α) (Ng : ℕ) :
    f2_contrast P Ng = ∑ n in Finset.range Ng, (n : α) ^ 2 * diffDistribution P Ng n ∧
      (∀ i j, i < Ng → j < Ng → ∃! n, n < Ng ∧
        ((i : ℤ) - (j : ℤ) = (n : ℤ) ∨ (j : ℤ) - (i : ℤ) = (n : ℤ))) ∧
      f2_contrast P Ng =
        ∑ i in Finset.range Ng, ∑ j in Finset.range Ng, ((i : α) - (j : α)) ^ 2 * P i j := by
  have h1 : f2_contrast P Ng =
      ∑ n in Finset.range Ng, (n : α) ^ 2 * diffDistribution P Ng n := by
    rw [f2_contrast_eq]
    exact Finset.sum_congr rfl (fun n _ => by push_cast; ring)
  refine ⟨h1, ?_, ?_⟩
  · intro i j hi hj
    refine ⟨Int.natAbs ((i : ℤ) - (j : ℤ)), ⟨by omega, by omega⟩, ?_⟩
    rintro n ⟨_, hn⟩
    omega
  · rw [h1, sum_diff_weights P Ng (fun n => (n : α) ^ 2)]
    refine Finset.sum_congr rfl (fun i _ => Finset.sum_congr rfl (fun j _ => ?_))
    congr 1
    have : ((Int.natAbs ((i : ℤ) - (j : ℤ)) : ℕ) : α) ^ 2 = (((i : ℤ) - (j : ℤ) : ℤ) : α) ^ 2 := by
      rw [← Int.cast_natCast, ← Int.cast_pow, ← Int.cast_pow, Int.natCast_natAbs, sq_abs]
    rw [this]
    push_cast
    ring

theorem diffDistribution_identity (Ng n : ℕ) :
    diffDistribution (P_identity (α := α) Ng) Ng n = if n = 0 then ∑ _i in Finset.range Ng, 1 / (Ng : α) else 0 := by
  simp only [diffDistribution, P_identity]
  by_cases hn : n = 0
  · subst hn
    simp only [if_true]
    refine Finset.sum_congr rfl (fun i hi => ?_)
    have : ∀ j : ℕ, (if Int.natAbs ((i : ℤ) - (j : ℤ)) = 0 then (if i = j then 1 / (Ng : α) else 0) else 0)
        = if i = j then 1 / (Ng : α) else 0 := by
      intro j
      by_cases hij : i = j
      · simp [hij]
      · simp [hij]
    simp only [this]
    rw [Finset.sum_ite_eq]
    simp [hi]
  · simp only [hn, if_false]
    refine Finset.sum_eq_zero (fun i _ => Finset.sum_eq_zero (fun j _ => ?_))
    by_cases hij : i = j
    · subst hij; simp [Ne.symm hn]
    · simp [hij]

/-- C12: for `Ng >= 1` and the matrix with `1 / Ng` on the diagonal and 0 elsewhere,
`f1_asm` is `1 / Ng`, `f2_contrast` is 0 and `f5_idm` is 1. -/
theorem identity_like_features (Ng : ℕ) (hNg : 1 ≤ Ng) :
    f1_asm (P_identity (α := α) Ng) Ng = 1 / (Ng : α) ∧
      f2_contrast (P_identity (α := α) Ng) Ng = 0 ∧
      f5_idm (P_identity (α := α) Ng) Ng = 1 := by
  have hpos : (0 : α) < (Ng : α) := by exact_mod_cast hNg
  have hne : (Ng : α) ≠ 0 := hpos.ne'
  refine ⟨?_, ?_, ?_⟩
  · rw [f1_asm, forLoop_sum2]
    have : ∀ i ∈ Finset.range Ng, ∑ j in Finset.range Ng,
        P_identity (α := α) Ng i j * P_identity Ng i j = 1 / (Ng : α) * (1 / (Ng : α)) := by
      intro i hi
      simp only [P_identity, ite_mul, zero_mul, mul_ite, mul_zero]
      simp [Finset.sum_ite_eq, hi]
    rw [Finset.sum_congr rfl this, Finset.sum_const, Finset.card_range]
    field_simp
  · rw [f2_contrast_eq]
    refine Finset.sum_eq_zero (fun n _ => ?_)
    rw [diffDistribution_identity]
    by_cases hn : n = 0
    · subst hn; simp
    · simp [hn]
  · rw [f5_idm, forLoop_sum2]
    have : ∀ i ∈ Finset.range Ng, ∑ j in Finset.range Ng,
        P_identity (α := α) Ng i j /
          ((1 + ((i : ℤ) - (j : ℤ)) * ((i : ℤ) - (j : ℤ)) : ℤ) : α) = 1 / (Ng : α) := by
      intro i hi
      simp only [P_identity, ite_div, zero_div]
      rw [Finset.sum_ite_eq]
      simp [hi]
    rw [Finset.sum_congr rfl this, Finset.sum_const, Finset.card_range]
    field_simp

/-- Witness for C12: `Ng = 3` over the rationals. -/
theorem identity_like_features_witness :
    1 ≤ 3 ∧
    (f1_asm (P_identity (α := ℚ) 3) 3 = 1 / ((3 : ℕ) : ℚ) ∧
      f2_contrast (P_identity (α := ℚ) 3) 3 = 0 ∧
      f5_idm (P_identity (α := ℚ) 3) 3 = 1) :=
  ⟨by decide, identity_like_features 3 (by decide)⟩
/-! ### The scratch array `Pxpy` (C14, C15) -/

/-- A loop `for j: v[g j] += f j` adds to each cell the `f j` that are sent to it. -/
theorem forLoop_scatter {β : Type} [AddCommMonoid β] (m : ℕ) (g : ℕ → ℕ) (f : ℕ → β)
    (v : ℕ → β) :
    forLoop 0 m (fun j v => Function.update v (g j) (v (g j) + f j)) v =
      fun k => v k + ∑ j in Finset.range m, if g j = k then f j else 0 := by
  induction m with
  | zero => simp [forLoop_ge]
  | succ m ih =>
    rw [forLoop_succ_right _ _ (by omega), ih]
    funext k
    rw [Finset.sum_range_succ]
    by_cases hk : g m = k
    · subst hk
      simp [add_assoc]
    · rw [Function.update_noteq (Ne.symm hk)]
      simp [hk]

theorem forLoop_scatter2 {β : Type} [AddCommMonoid β] (n m : ℕ) (g : ℕ → ℕ → ℕ)
    (f : ℕ → ℕ → β) (v : ℕ → β) :
    forLoop 0 n (fun i v =>
      forLoop 0 m (fun j v => Function.update v (g i j) (v (g i j) + f i j)) v) v =
      fun k => v k + ∑ i in Finset.range n, ∑ j in Finset.range m,
        if g i j = k then f i j else 0 := by
  induction n with
  | zero => simp [forLoop_ge]
  | succ n ih =>
    rw [forLoop_succ_right _ _ (by omega), ih, forLoop_scatter]
    funext k
    rw [Finset.sum_range_succ, add_assoc]

theorem Pxpy_reset_eq (Ng : ℕ) (Pxpy : ℕ → α) :
    Pxpy_reset Ng Pxpy = fun k => if k ≤ 2 * Ng then 0 else Pxpy k := by
  unfold Pxpy_reset
  generalize 2 * Ng = N
  induction N with
  | zero =>
    rw [forLoop_succ_right _ _ (by omega), forLoop_ge _ _ (le_refl _)]
    funext k
    by_cases hk : k = 0
    · subst hk; simp
    · rw [Function.update_noteq hk]
      simp [hk]
  | succ N ih =>
    rw [forLoop_succ_right _ _ (by omega), ih]
    funext k
    by_cases hk : k = N + 1
    · subst hk; simp
    · rw [Function.update_noteq hk]
      have : k ≤ N + 1 ↔ k ≤ N := by omega
      simp only [this]

theorem Pxpy_sum_reset (P : ℕ → ℕ → α) (Ng off k : ℕ) (Pxpy : ℕ → α) (hk : k + off ≤ 2 * Ng) :
    Pxpy_sum P Ng off (Pxpy_reset Ng Pxpy) (k + off) = sumDistribution P Ng k := by
  rw [Pxpy_sum, forLoop_scatter2, Pxpy_reset_eq]
  simp only [hk, if_true, zero_add, sumDistribution]
  refine Finset.sum_congr rfl (fun i _ => Finset.sum_congr rfl (fun j _ => ?_))
  have : i + j + off = k + off ↔ i + j = k := by omega
  simp only [this]

theorem Pxpy_diff_reset (P : ℕ → ℕ → α) (Ng k : ℕ) (Pxpy : ℕ → α) (hk : k ≤ 2 * Ng) :
    Pxpy_diff P Ng (Pxpy_reset Ng Pxpy) k = diffDistribution P Ng k := by
  rw [Pxpy_diff, forLoop_scatter2, Pxpy_reset_eq]
  simp only [hk, if_true, zero_add, diffDistribution]

theorem f6_savg_eq (P : ℕ → ℕ → α) (Ng : ℕ) (Pxpy : ℕ → α) :
    (f6_savg P Ng Pxpy).1 =
      ∑ k in Finset.range (2 * Ng - 1), (k : α) * sumDistribution P Ng k := by
  simp only [f6_savg]
  rw [forLoop_sum, zero_add, ← Finset.range_eq_Ico]
  refine Finset.sum_congr rfl (fun k hk => ?_)
  have := Pxpy_sum_reset P Ng 0 k Pxpy (by have := Finset.mem_range.mp hk; omega)
  simp only [add_zero] at this
  rw [this]

theorem f7_svar_eq (P : ℕ → ℕ → α) (Ng : ℕ) (S : α) (Pxpy : ℕ → α) :
    (f7_svar P Ng S Pxpy).1 =
      ∑ k in Finset.range (2 * Ng - 1), ((k : α) - S) * ((k : α) - S) * sumDistribution P Ng k := by
  simp only [f7_svar]
  rw [forLoop_sum, zero_add, ← Finset.range_eq_Ico]
  refine Finset.sum_congr rfl (fun k hk => ?_)
  have := Pxpy_sum_reset P Ng 0 k Pxpy (by have := Finset.mem_range.mp hk; omega)
  simp only [add_zero] at this
  rw [this]

theorem f8_sentropy_eq (log10 : α → α) (P : ℕ → ℕ → α) (Ng : ℕ) (Pxpy : ℕ → α) :
    (f8_sentropy log10 P Ng Pxpy).1 = sumEntropy_spec log10 P Ng := by
  simp only [f8_sentropy, sumEntropy_spec]
  have h : (fun (i : ℕ) (sentropy : α) => sentropy -
        Pxpy_sum P Ng 2 (Pxpy_reset Ng Pxpy) i *
          log10 (Pxpy_sum P Ng 2 (Pxpy_reset Ng Pxpy) i + EPSILON) / log10 2) =
      fun i sentropy => sentropy + -(Pxpy_sum P Ng 2 (Pxpy_reset Ng Pxpy) i *
          log10 (Pxpy_sum P Ng 2 (Pxpy_reset Ng Pxpy) i + EPSILON) / log10 2) := by
    funext i s; ring
  rw [h, forLoop_sum, zero_add, Finset.sum_neg_distrib, Finset.sum_Ico_eq_sum_range]
  congr 1
  have e : 2 * Ng + 1 - 2 = 2 * Ng - 1 := by omega
  rw [e]
  refine Finset.sum_congr rfl (fun k hk => ?_)
  have := Pxpy_sum_reset P Ng 2 k Pxpy (by have := Finset.mem_range.mp hk; omega)
  rw [add_comm 2 k, this]

theorem f10_dvar_eq (P : ℕ → ℕ → α) (Ng : ℕ) (Pxpy : ℕ → α) :
    (f10_dvar P Ng Pxpy).1 =
      ∑ k in Finset.range Ng, ((k * k : ℕ) : α) * diffDistribution P Ng k -
        (∑ k in Finset.range Ng, (k : α) * diffDistribution P Ng k) *
          (∑ k in Finset.range Ng, (k : α) * diffDistribution P Ng k) := by
  simp only [f10_dvar]
  rw [forLoop_pair_sum, zero_add, zero_add, ← Finset.range_eq_Ico]
  have h1 : ∑ i in Finset.range Ng, (i : α) * Pxpy_diff P Ng (Pxpy_reset Ng Pxpy) i =
      ∑ k in Finset.range Ng, (k : α) * diffDistribution P Ng k :=
    Finset.sum_congr rfl (fun k hk => by
      rw [Pxpy_diff_reset P Ng k Pxpy (by have := Finset.mem_range.mp hk; omega)])
  have h2 : ∑ i in Finset.range Ng, ((i * i : ℕ) : α) * Pxpy_diff P Ng (Pxpy_reset Ng Pxpy) i =
      ∑ k in Finset.range Ng, ((k * k : ℕ) : α) * diffDistribution P Ng k :=
    Finset.sum_congr rfl (fun k hk => by
      rw [Pxpy_diff_reset P Ng k Pxpy (by have := Finset.mem_range.mp hk; omega)])
  simp only [h1, h2]

theorem f11_dentropy_eq (log10 : α → α) (P : ℕ → ℕ → α) (Ng : ℕ) (Pxpy : ℕ → α) :
    (f11_dentropy log10 P Ng Pxpy).1 =
      -∑ k in Finset.range Ng,
        diffDistribution P Ng k * log10 (diffDistribution P Ng k + EPSILON) / log10 2 := by
  simp only [f11_dentropy]
  rw [forLoop_sum, zero_add, ← Finset.range_eq_Ico]
  congr 1
  exact Finset.sum_congr rfl (fun k hk => by
    rw [Pxpy_diff_reset P Ng k Pxpy (by have := Finset.mem_range.mp hk; omega)])

/-- C14: `f8_sentropy`, which keeps the sum distribution at scratch index `i + j + 2` and
reads indices `2 .. 2 Ng`, returns the Sum Entropy of the zero-based sum distribution `S`;
its scratch cell `k + 2` holds `S[k]`, the value that cell `k` holds in `f6_savg` and
`f7_svar`. -/
theorem f8_sentropy_zero_based (log10 : α → α) (P : ℕ → ℕ → α) (Ng : ℕ) (Pxpy : ℕ → α) :
    (f8_sentropy log10 P Ng Pxpy).1 = sumEntropy_spec log10 P Ng ∧
      (∀ k, k + 2 ≤ 2 * Ng →
        (f8_sentropy log10 P Ng Pxpy).2 (k + 2) = sumDistribution P Ng k) ∧
      (∀ k, k ≤ 2 * Ng → (f6_savg P Ng Pxpy).2 k = sumDistribution P Ng k ∧
        ∀ S, (f7_svar P Ng S Pxpy).2 k = sumDistribution P Ng k) := by
  refine ⟨f8_sentropy_eq log10 P Ng Pxpy, ?_, ?_⟩
  · intro k hk
    exact Pxpy_sum_reset P Ng 2 k Pxpy hk
  · intro k hk
    have := Pxpy_sum_reset P Ng 0 k Pxpy (by omega)
    simp only [add_zero] at this
    exact ⟨this, fun _ => this⟩

/-- C15: the values of `f6_savg`, `f7_svar`, `f8_sentropy`, `f10_dvar` and `f11_dentropy`
do not depend on the initial contents of the scratch array `Pxpy`: each call zeroes the
cells `0 .. 2 Ng`, which include every cell it reads. -/
theorem scratch_independence (log10 : α → α) (P : ℕ → ℕ → α) (Ng : ℕ) (S : α)
    (Pxpy Pxpy' : ℕ → α) :
    (f6_savg P Ng Pxpy).1 = (f6_savg P Ng Pxpy').1 ∧
      (f7_svar P Ng S Pxpy).1 = (f7_svar P Ng S Pxpy').1 ∧
      (f8_sentropy log10 P Ng Pxpy).1 = (f8_sentropy log10 P Ng Pxpy').1 ∧
      (f10_dvar P Ng Pxpy).1 = (f10_dvar P Ng Pxpy').1 ∧
      (f11_dentropy log10 P Ng Pxpy).1 = (f11_dentropy log10 P Ng Pxpy').1 ∧
      ∀ k, k ≤ 2 * Ng → Pxpy_reset Ng Pxpy k = 0 := by
  refine ⟨?_, ?_, ?_, ?_, ?_, ?_⟩
  · rw [f6_savg_eq, f6_savg_eq]
  · rw [f7_svar_eq, f7_svar_eq]
  · rw [f8_sentropy_eq, f8_sentropy_eq]
  · rw [f10_dvar_eq, f10_dvar_eq]
  · rw [f11_dentropy_eq, f11_dentropy_eq]
  · intro k hk
    rw [Pxpy_reset_eq]
    simp [hk]
/-! ### `f14_maxcorr` after a division by zero: the run on non-numbers -/

@[simp] theorem Val.undef_add (x : Val α) : Val.undef.add x = Val.undef := by
  cases x <;> rfl

@[simp] theorem Val.add_undef (x : Val α) : x.add Val.undef = Val.undef := by
  cases x <;> rfl

@[simp] theorem Val.undef_sub (x : Val α) : Val.undef.sub x = Val.undef := by
  cases x <;> rfl

@[simp] theorem Val.sub_undef (x : Val α) : x.sub Val.undef = Val.undef := by
  cases x <;> rfl

@[simp] theorem Val.undef_mul (x : Val α) : Val.undef.mul x = Val.undef := by
  cases x <;> rfl

@[simp] theorem Val.mul_undef (x : Val α) : x.mul Val.undef = Val.undef := by
  cases x <;> rfl

@[simp] theorem Val.undef_div (x : Val α) : Val.undef.div x = Val.undef := by
  cases x <;> rfl

@[simp] theorem Val.div_undef (x : Val α) : x.div Val.undef = Val.undef := by
  cases x <;> rfl

@[simp] theorem Val.abs_undef : (Val.undef : Val α).abs = Val.undef := rfl

@[simp] theorem Val.neg_undef : (Val.undef : Val α).neg = Val.undef := rfl

omit [LinearOrderedField α] in
@[simp] theorem Val.map_undef (f : α → α) : Val.map f Val.undef = Val.undef := rfl

@[simp] theorem Val.undef_lt (x : Val α) : Val.undef.lt x = false := by
  cases x <;> rfl

@[simp] theorem Val.lt_undef (x : Val α) : x.lt Val.undef = false := by
  cases x <;> rfl

@[simp] theorem Val.le_undef (x : Val α) : x.le Val.undef = false := by
  cases x <;> rfl

@[simp] theorem Val.undef_ceq (x : Val α) : Val.undef.ceq x = false := by
  cases x <;> rfl

@[simp] theorem Val.ceq_undef (x : Val α) : x.ceq Val.undef = false := by
  cases x <;> rfl

@[simp] theorem Val.nonzero_undef : (Val.undef : Val α).nonzero = true := rfl

/-- A sum that meets a non-number term is a non-number. -/
theorem forLoop_add_undef (t : ℕ → Val α) (lo hi : ℕ) (v : Val α)
    (h : ∃ k, lo ≤ k ∧ k < hi ∧ t k = Val.undef) :
    forLoop lo hi (fun k (v : Val α) => v.add (t k)) v = Val.undef := by
  obtain ⟨k, hk1, hk2, hk⟩ := h
  obtain ⟨d, rfl⟩ : ∃ d, hi = k + 1 + d := ⟨hi - (k + 1), by omega⟩
  induction d with
  | zero =>
    rw [Nat.add_zero, forLoop_succ_right _ _ hk1]
    simp only [hk, Val.add_undef]
  | succ d ih =>
    rw [← Nat.add_assoc, forLoop_succ_right _ _ (by omega), ih (by omega)]
    simp

/-- The loop over `k` in the construction of `Q` writes the cell `(r, c)` only. -/
theorem f14_kloop_nan_frame (t : ℕ → Val α) (r c lo hi : ℕ) (Q : ℕ → ℕ → Val α) (r' c' : ℕ)
    (h : ¬ (r' = r ∧ c' = c)) :
    forLoop lo hi (fun k Q => setM Q r c ((Q r c).add (t k))) Q r' c' = Q r' c' := by
  apply forLoop_frame
  intro j s _ _
  simp only [setM, h, if_false]

/-- The cell `(r, c)` after the loop over `k` in the construction of `Q`. -/
theorem f14_kloop_nan_cell (t : ℕ → Val α) (r c lo : ℕ) (Q : ℕ → ℕ → Val α) (d : ℕ) :
    forLoop lo (lo + d) (fun k Q => setM Q r c ((Q r c).add (t k))) Q r c =
      forLoop lo (lo + d) (fun k (v : Val α) => v.add (t k)) (Q r c) := by
  induction d with
  | zero => simp [forLoop_ge]
  | succ d ih =>
    rw [← Nat.add_assoc, forLoop_succ_right _ _ (by omega), forLoop_succ_right _ _ (by omega),
      ← ih]
    simp [setM]

/-- When every cell `(i, j)` of `Q` has a term that divides by zero, every cell of `Q` on
`1..Ng` holds a non-number. -/
theorem f14_Q_nan_AllNaN (P : ℕ → ℕ → α) (Ng : ℕ) (px py : ℕ → α) (Q : ℕ → ℕ → Val α)
    (h : ∀ i j, i < Ng → j < Ng → ∃ k, k < Ng ∧ f14_term P px py i j k = Val.undef) :
    AllNaN Ng (f14_Q_nan P Ng px py Q) := by
  have hcell : ∀ i j (S : ℕ → ℕ → Val α), i < Ng → j < Ng →
      (∀ a b, ¬ (a = i + 1 ∧ b = j + 1) →
        forLoop 0 Ng (fun k Q =>
          setM Q (i + 1) (j + 1) ((Q (i + 1) (j + 1)).add (f14_term P px py i j k)))
          (setM S (i + 1) (j + 1) (Val.num 0)) a b = S a b) ∧
      forLoop 0 Ng (fun k Q =>
          setM Q (i + 1) (j + 1) ((Q (i + 1) (j + 1)).add (f14_term P px py i j k)))
          (setM S (i + 1) (j + 1) (Val.num 0)) (i + 1) (j + 1) = Val.undef := by
    intro i j S hi hj
    constructor
    · intro a b hab
      rw [f14_kloop_nan_frame _ _ _ _ _ _ _ _ hab]
      simp only [setM, hab, if_false]
    · have := f14_kloop_nan_cell (fun k => f14_term P px py i j k) (i + 1) (j + 1) 0
        (setM S (i + 1) (j + 1) (Val.num 0)) Ng
      rw [Nat.zero_add] at this
      rw [this]
      obtain ⟨k, hk, hkt⟩ := h i j hi hj
      exact forLoop_add_undef _ _ _ _ ⟨k, Nat.zero_le _, hk, hkt⟩
  unfold f14_Q_nan
  have key := forLoop_invariant_idx
    (fun (i : ℕ) (S : ℕ → ℕ → Val α) =>
      ∀ a b, 1 ≤ a → a ≤ i → 1 ≤ b → b ≤ Ng → S a b = Val.undef)
    0 Ng (Nat.zero_le _)
    (fun i Q =>
      forLoop 0 Ng (fun j Q =>
        forLoop 0 Ng (fun k Q =>
          setM Q (i + 1) (j + 1) ((Q (i + 1) (j + 1)).add (f14_term P px py i j k)))
          (setM Q (i + 1) (j + 1) (Val.num 0))) Q)
    Q (fun a b h1 h2 => absurd h2 (by omega))
    (by
      intro i S _ hi hS
      have inner := forLoop_invariant_idx
        (fun (j : ℕ) (S : ℕ → ℕ → Val α) =>
          (∀ a b, 1 ≤ a → a ≤ i → 1 ≤ b → b ≤ Ng → S a b = Val.undef) ∧
          ∀ b, 1 ≤ b → b ≤ j → S (i + 1) b = Val.undef)
        0 Ng (Nat.zero_le _)
        (fun j Q =>
          forLoop 0 Ng (fun k Q =>
            setM Q (i + 1) (j + 1) ((Q (i + 1) (j + 1)).add (f14_term P px py i j k)))
            (setM Q (i + 1) (j + 1) (Val.num 0)))
        S ⟨hS, fun b h1 h2 => absurd h2 (by omega)⟩
        (by
          intro j S' _ hj ⟨hS1, hS2⟩
          obtain ⟨c1, c2⟩ := hcell i j S' hi hj
          refine ⟨fun a b h1 h2 h3 h4 => ?_, fun b h1 h2 => ?_⟩
          · exact (c1 a b (by omega)).trans (hS1 a b h1 h2 h3 h4)
          · rcases Nat.lt_or_ge b (j + 1) with hb | hb
            · exact (c1 (i + 1) b (by omega)).trans (hS2 b h1 (by omega))
            · have hbj : b = j + 1 := by omega
              rw [hbj]
              exact c2)
      obtain ⟨i1, i2⟩ := inner
      intro a b h1 h2 h3 h4
      rcases Nat.lt_or_ge a (i + 1) with ha | ha
      · exact i1 a b h1 (by omega) h3 h4
      · have hai : a = i + 1 := by omega
        rw [hai]
        exact i2 b h3 h4)
  intro a b h1 h2 h3 h4
  exact key a b h1 h2 h3 h4

/-- On a matrix of non-numbers the norms of `mkbalanced` are both zero (no off-diagonal
cell) or both non-numbers. -/
theorem mkbalanced_norms_nan_AllNaN (a : ℕ → ℕ → Val α) (n i : ℕ) (h : AllNaN n a)
    (hi1 : 1 ≤ i) (hi2 : i ≤ n) :
    mkbalanced_norms_nan a n i = (Val.num 0, Val.num 0) ∨
      mkbalanced_norms_nan a n i = (Val.undef, Val.undef) := by
  unfold mkbalanced_norms_nan
  apply forLoop_invariant
    (fun cr : Val α × Val α => cr = (Val.num 0, Val.num 0) ∨ cr = (Val.undef, Val.undef))
  · exact Or.inl rfl
  · intro j cr hj1 hj2 hcr
    by_cases hji : j ≠ i
    · right
      rw [if_pos hji, h j i hj1 (by omega) hi1 hi2, h i j hi1 hi2 hj1 (by omega)]
      simp
    · rw [if_neg hji]
      exact hcr

/-- `mkbalanced` leaves a matrix of non-numbers as it is: every comparison is false. -/
theorem mkbalanced_nan_AllNaN (fuel : ℕ) (a : ℕ → ℕ → Val α) (n : ℕ) (h : AllNaN n a) :
    mkbalanced_nan (fuel + 1) a n = some a := by
  have hr : ∀ i, 1 ≤ i → i < n + 1 →
      mkbalanced_row_nan (fuel + 1) n i (a, true) = some (a, true) := by
    intro i hi1 hi2
    rcases mkbalanced_norms_nan_AllNaN a n i h hi1 (by omega) with hn | hn
    · simp [mkbalanced_row_nan, hn, Val.nonzero]
    · simp [mkbalanced_row_nan, hn, mkbalanced_up_nan, mkbalanced_down_nan]
  rw [mkbalanced_nan, mkbalanced_loop_nan, forLoopO_fixed _ _ _ _ hr]
  simp

/-- `reduction` leaves a matrix of non-numbers as it is: no pivot is found. -/
theorem reduction_nan_AllNaN (a : ℕ → ℕ → Val α) (n : ℕ) (h : AllNaN n a) :
    reduction_nan a n = a := by
  unfold reduction_nan
  apply forLoop_fixed
  intro m hm1 hm2
  have hp : reduction_pivot_nan a n m = (Val.num 0, m) := by
    unfold reduction_pivot_nan
    apply forLoop_fixed
    intro j hj1 hj2
    rw [h j (m - 1) (by omega) (by omega) (by omega) (by omega)]
    simp
  simp [hp, Val.nonzero]

omit [LinearOrderedField α] in
/-- A store keeps the diagonal of non-numbers when it writes a non-number or an
off-diagonal cell. -/
theorem setM_DiagNaN (n : ℕ) (a : ℕ → ℕ → Val α) (r c : ℕ) (v : Val α) (h : DiagNaN n a)
    (hv : r = c → 1 ≤ r → r ≤ n → v = Val.undef) : DiagNaN n (setM a r c v) := by
  intro i h1 h2
  simp only [setM]
  split_ifs with he
  · obtain ⟨e1, e2⟩ := he
    exact hv (by rw [← e1, ← e2]) (by omega) (by omega)
  · exact h i h1 h2

/-- The update `a[r][c] -= v` keeps the diagonal of non-numbers. -/
theorem setM_sub_DiagNaN (n : ℕ) (a : ℕ → ℕ → Val α) (r c : ℕ) (v : Val α)
    (h : DiagNaN n a) : DiagNaN n (setM a r c ((a r c).sub v)) := by
  apply setM_DiagNaN n a r c _ h
  intro e h1 h2
  rw [← e, h r h1 h2]
  simp

/-- With non-numbers on the diagonal no subdiagonal entry is found negligible: the scan
ends with `l = 1`. -/
theorem hess_scan_nan_DiagNaN (a : ℕ → ℕ → Val α) (anorm : Val α) (l : ℕ) :
    DiagNaN (l + 1) a → hess_scan_nan a anorm (l + 1) = 1 := by
  induction l with
  | zero => intro _; rfl
  | succ l ih =>
    intro h
    have h1 : a (l + 1) (l + 1) = Val.undef := h (l + 1) (by omega) (by omega)
    rw [hess_scan_nan]
    simp only [h1, Val.abs_undef, Val.undef_add, Val.undef_ceq, Val.ceq_undef, Val.add_undef,
      Bool.false_eq_true, if_false]
    exact ih (fun i hi1 hi2 => h i hi1 (by omega))

theorem hess_rows_nan_DiagNaN (n k nn : ℕ) (q r x y z : Val α)
    (st : (ℕ → ℕ → Val α) × Val α) (h : DiagNaN n st.1) :
    DiagNaN n (hess_rows_nan k nn q r x y z st).1 := by
  unfold hess_rows_nan
  apply forLoop_invariant (fun s : (ℕ → ℕ → Val α) × Val α => DiagNaN n s.1) _ _ _ _ h
  intro j s _ _ hs
  simp only
  apply setM_sub_DiagNaN
  apply setM_sub_DiagNaN
  split_ifs
  · exact setM_sub_DiagNaN _ _ _ _ _ hs
  · exact hs

theorem hess_cols_nan_DiagNaN (n l k nn : ℕ) (q r x y z : Val α)
    (st : (ℕ → ℕ → Val α) × Val α) (h : DiagNaN n st.1) :
    DiagNaN n (hess_cols_nan l k nn q r x y z st).1 := by
  unfold hess_cols_nan
  apply forLoop_invariant (fun s : (ℕ → ℕ → Val α) × Val α => DiagNaN n s.1) _ _ _ _ h
  intro j s _ _ hs
  simp only
  apply setM_sub_DiagNaN
  apply setM_sub_DiagNaN
  split_ifs
  · exact setM_sub_DiagNaN _ _ _ _ _ hs
  · exact hs

theorem hess_clear_nan_DiagNaN (n : ℕ) (a : ℕ → ℕ → Val α) (m nn : ℕ) (h : DiagNaN n a) :
    DiagNaN n (hess_clear_nan a m nn) := by
  unfold hess_clear_nan
  apply forLoop_invariant (fun s : ℕ → ℕ → Val α => DiagNaN n s) _ _ _ _ h
  intro i s hi1 _ hs
  simp only
  have h1 : DiagNaN n (setM s i (i - 2) (Val.num 0)) :=
    setM_DiagNaN n s i (i - 2) _ hs (fun e _ _ => absurd e (by omega))
  split_ifs
  · exact setM_DiagNaN n _ i (i - 3) _ h1 (fun e _ _ => absurd e (by omega))
  · exact h1

theorem hess_kstep_nan_DiagNaN (n : ℕ) (sqrt : α → α) (l m nn k : ℕ) (st : KState (Val α))
    (h : DiagNaN n st.a) : DiagNaN n (hess_kstep_nan sqrt l m nn k st).a := by
  unfold hess_kstep_nan
  simp only
  split_ifs
  all_goals first
    | exact h
    | (apply hess_cols_nan_DiagNaN
       apply hess_rows_nan_DiagNaN
       first
         | exact h
         | exact setM_DiagNaN n _ k (k - 1) _ h
             (fun e h1 _ => absurd e (by omega)))

theorem hess_qr_nan_nn (sqrt : α → α) (st : HState (Val α)) (l : ℕ) (x y w : Val α) :
    (hess_qr_nan sqrt st l x y w).nn = st.nn := rfl

theorem hess_qr_nan_its (sqrt : α → α) (st : HState (Val α)) (l : ℕ) (x y w : Val α) :
    (hess_qr_nan sqrt st l x y w).its = st.its + 1 := rfl

/-- A QR iteration keeps non-numbers on the diagonal: it changes a diagonal cell only by
arithmetic on its old value. -/
theorem hess_qr_nan_DiagNaN (n : ℕ) (sqrt : α → α) (st : HState (Val α)) (l : ℕ)
    (x y w : Val α) (h : DiagNaN n st.a) : DiagNaN n (hess_qr_nan sqrt st l x y w).a := by
  have hshift : DiagNaN n
      (forLoop 1 (st.nn + 1) (fun i a => setM a i i ((a i i).sub x)) st.a) := by
    apply forLoop_invariant (fun s : ℕ → ℕ → Val α => DiagNaN n s) _ _ _ _ h
    intro i s _ _ hs
    exact setM_sub_DiagNaN n s i i x hs
  have hk : ∀ (l m nn : ℕ) (ks : KState (Val α)), DiagNaN n ks.a →
      DiagNaN n (forLoop m nn (hess_kstep_nan sqrt l m nn) ks).a := by
    intro l m nn ks hks
    apply forLoop_invariant (fun s : KState (Val α) => DiagNaN n s.a) _ _ _ _ hks
    intro k s _ _ hs
    exact hess_kstep_nan_DiagNaN n sqrt l m nn k s hs
  unfold hess_qr_nan
  simp only
  apply hk
  apply hess_clear_nan_DiagNaN
  split_ifs
  · exact hshift
  · exact h

/-- On a block of order at least 3 with non-numbers on the diagonal the loop
`do ... while (l < nn - 1)` makes QR iterations until `its == 30` and gives up. -/
theorem hess_dowhile_nan_gives_up (sqrt : α → α) (anorm : Val α) (c : ℕ) :
    ∀ st : HState (Val α), st.its + c = 30 → 3 ≤ st.nn → DiagNaN st.nn st.a →
      ∃ st', hess_dowhile_nan sqrt anorm (c + 1) st = HStep.giveUp st' := by
  induction c with
  | zero =>
    intro st hits hnn hd
    obtain ⟨k, hk⟩ : ∃ k, st.nn = k + 1 := ⟨st.nn - 1, by omega⟩
    have hsc : hess_scan_nan st.a anorm st.nn = 1 := by
      rw [hk]; exact hess_scan_nan_DiagNaN _ _ _ (hk ▸ hd)
    rw [hess_dowhile_nan]
    simp only [hsc]
    rw [if_neg (by omega), if_neg (by omega), if_pos (by omega)]
    exact ⟨_, rfl⟩
  | succ c ih =>
    intro st hits hnn hd
    obtain ⟨k, hk⟩ : ∃ k, st.nn = k + 1 := ⟨st.nn - 1, by omega⟩
    have hsc : hess_scan_nan st.a anorm st.nn = 1 := by
      rw [hk]; exact hess_scan_nan_DiagNaN _ _ _ (hk ▸ hd)
    rw [hess_dowhile_nan]
    simp only [hsc, hess_qr_nan_nn]
    rw [if_neg (by omega), if_neg (by omega), if_neg (by omega), if_pos (by omega)]
    apply ih
    · rw [hess_qr_nan_its]; omega
    · rw [hess_qr_nan_nn]; exact hnn
    · rw [hess_qr_nan_nn]; exact hess_qr_nan_DiagNaN _ _ _ _ _ _ _ hd

/-- On a matrix of order at least 3 with non-numbers on the diagonal `hessenberg`
returns 0. -/
theorem hessenberg_nan_gives_up (sqrt : α → α) (a : ℕ → ℕ → Val α) (n : ℕ) (hn : 3 ≤ n)
    (wr wi : ℕ → Val α) (h : DiagNaN n a) :
    ∃ st, hessenberg_nan sqrt a n wr wi = HResult.ret 0 st := by
  obtain ⟨k, rfl⟩ : ∃ k, n = k + 1 := ⟨n - 1, by omega⟩
  unfold hessenberg_nan
  rw [hess_while_nan, if_pos (by simp)]
  obtain ⟨st', hst'⟩ := hess_dowhile_nan_gives_up sqrt (hess_anorm_nan a (k + 1)) 30
    { a := a, wr := wr, wi := wi, wrLog := [], wiLog := [], qrLog := [], t := Val.num 0,
      nn := k + 1, its := 0, l := 0 } rfl hn h
  simp only [hst']
  exact ⟨_, rfl⟩

/-- On a matrix of order 2 with non-numbers on the diagonal `hessenberg` returns 1 and
leaves a non-number in `wr[1]`. -/
theorem hessenberg_nan_two (sqrt : α → α) (a : ℕ → ℕ → Val α) (wr wi : ℕ → Val α)
    (h : DiagNaN 2 a) :
    ∃ st, hessenberg_nan sqrt a 2 wr wi = HResult.ret 1 st ∧ st.wr 1 = Val.undef := by
  have h1 : a 1 1 = Val.undef := h 1 (by omega) (by omega)
  have h2 : a 2 2 = Val.undef := h 2 (by omega) (by omega)
  have hsc : ∀ anorm, hess_scan_nan a anorm 2 = 1 := fun anorm =>
    hess_scan_nan_DiagNaN a anorm 1 h
  unfold hessenberg_nan
  rw [hess_while_nan, if_pos (by simp), hess_dowhile_nan]
  simp only [hsc]
  simp [hess_deflate2_nan, h1, h2, hess_while_nan, HState.setWr, HState.setWi,
    Function.update]

/-- On a matrix of order 1 `hessenberg` returns 1 and writes `wr[1]` only. -/
theorem hessenberg_nan_one (sqrt : α → α) (a : ℕ → ℕ → Val α) (wr wi : ℕ → Val α) :
    ∃ st, hessenberg_nan sqrt a 1 wr wi = HResult.ret 1 st ∧ st.wr 0 = wr 0 := by
  unfold hessenberg_nan
  rw [hess_while_nan, if_pos (by simp), hess_dowhile_nan]
  simp [hess_scan_nan, hess_deflate1_nan, hess_while_nan, HState.setWr, HState.setWi,
    Function.update]

/-- The value of `f14_maxcorr` when every cell of `Q` has a term that divides by zero: the
run goes on with a matrix of non-numbers, which `mkbalanced` and `reduction` leave as it
is. For `Ng >= 3` `hessenberg` gives up and the value is 0; for `Ng = 2` it is the square
root of the non-number in `x[1]`; for `Ng = 1` it is the square root of `x[0]`, the cell
in front of the block `x[1..Ng]`. -/
theorem f14_maxcorr_nan_AllNaN (fuel : ℕ) (sqrt : α → α) (P : ℕ → ℕ → α) (Ng : ℕ)
    (mem : Mem α)
    (h : ∀ i j, i < Ng → j < Ng → ∃ k, k < Ng ∧
      f14_term P (marginals P Ng).1 (marginals P Ng).2 i j k = Val.undef) :
    (3 ≤ Ng → f14_maxcorr_nan (fuel + 1) sqrt P Ng mem = some (Val.num 0)) ∧
    (Ng = 2 → f14_maxcorr_nan (fuel + 1) sqrt P Ng mem = some Val.undef) ∧
    (Ng = 1 → f14_maxcorr_nan (fuel + 1) sqrt P Ng mem = some (Val.num (sqrt (mem.x 0)))) := by
  have hQ := f14_Q_nan_AllNaN P Ng (marginals P Ng).1 (marginals P Ng).2
    (fun i j => Val.num (mem.Q i j)) h
  have hd : DiagNaN Ng (f14_Q_nan P Ng (marginals P Ng).1 (marginals P Ng).2
      (fun i j => Val.num (mem.Q i j))) := fun i h1 h2 => hQ i i h1 h2 h1 h2
  refine ⟨fun h3 => ?_, fun h2 => ?_, fun h1 => ?_⟩
  · obtain ⟨st, hst⟩ := hessenberg_nan_gives_up sqrt _ Ng h3
      (fun i => Val.num (pgm_vector 1 Ng mem.x i))
      (fun i => Val.num (pgm_vector 1 Ng mem.iy i)) hd
    simp only [f14_maxcorr_nan, mkbalanced_nan_AllNaN fuel _ Ng hQ, reduction_nan_AllNaN _ Ng hQ,
      hst, if_true]
  · subst h2
    obtain ⟨st, hst, hw⟩ := hessenberg_nan_two sqrt _
      (fun i => Val.num (pgm_vector 1 2 mem.x i))
      (fun i => Val.num (pgm_vector 1 2 mem.iy i)) hd
    simp [f14_maxcorr_nan, mkbalanced_nan_AllNaN fuel _ 2 hQ, reduction_nan_AllNaN _ 2 hQ,
      hst, hw]
  · subst h1
    obtain ⟨st, hst, hw⟩ := hessenberg_nan_one sqrt
      (f14_Q_nan P 1 (marginals P 1).1 (marginals P 1).2 (fun i j => Val.num (mem.Q i j)))
      (fun i => Val.num (pgm_vector 1 1 mem.x i))
      (fun i => Val.num (pgm_vector 1 1 mem.iy i))
    have hx : pgm_vector 1 1 mem.x 0 = mem.x 0 := by simp [pgm_vector]
    rw [hx] at hw
    simp [f14_maxcorr_nan, mkbalanced_nan_AllNaN fuel _ 1 hQ, reduction_nan_AllNaN _ 1 hQ,
      hst, hw, Val.map]

/-! ### The marginals and the matrix `Q` (C16) -/

/-- A loop on a pair of states that are updated independently is a pair of loops. -/
theorem forLoop_prod {σ τ : Type} (lo hi : ℕ) (F : ℕ → σ → σ) (G : ℕ → τ → τ) (a : σ) (b : τ) :
    forLoop lo hi (fun i (m : σ × τ) => (F i m.1, G i m.2)) (a, b) =
      (forLoop lo hi F a, forLoop lo hi G b) := by
  rcases Nat.lt_or_ge lo hi with h | h
  · obtain ⟨d, rfl⟩ : ∃ d, hi = lo + d := ⟨hi - lo, by omega⟩
    clear h
    induction d with
    | zero => simp [forLoop_ge]
    | succ d ih =>
      rw [← Nat.add_assoc, forLoop_succ_right _ _ (by omega), ih,
        forLoop_succ_right _ _ (by omega), forLoop_succ_right _ _ (by omega)]
  · rw [forLoop_ge _ _ h, forLoop_ge _ _ h, forLoop_ge _ _ h]

theorem marginals_eq (P : ℕ → ℕ → α) (Ng : ℕ) :
    marginals P Ng =
      (fun i => if i < Ng then ∑ j in Finset.range Ng, P i j else 0,
       fun j => if j < Ng then ∑ i in Finset.range Ng, P i j else 0) := by
  have hz : pgm_vector 0 Ng (fun _ => (0 : α)) = fun _ => 0 := by
    funext i; simp [pgm_vector]
  unfold marginals
  rw [hz]
  have hin : ∀ i (m : (ℕ → α) × (ℕ → α)),
      forLoop 0 Ng (fun j (m : (ℕ → α) × (ℕ → α)) =>
        (Function.update m.1 i (m.1 i + P i j), Function.update m.2 j (m.2 j + P i j))) m =
      (forLoop 0 Ng (fun j v => Function.update v i (v i + P i j)) m.1,
       forLoop 0 Ng (fun j v => Function.update v j (v j + P i j)) m.2) := by
    intro i m
    exact forLoop_prod 0 Ng (fun j v => Function.update v i (v i + P i j))
      (fun j v => Function.update v j (v j + P i j)) m.1 m.2
  simp only [hin]
  rw [forLoop_prod 0 Ng
    (fun i v => forLoop 0 Ng (fun j v => Function.update v i (v i + P i j)) v)
    (fun i v => forLoop 0 Ng (fun j v => Function.update v j (v j + P i j)) v),
    forLoop_rows_add, forLoop_scatter2 Ng Ng (fun _ j => j)]
  congr 1
  · funext i; simp
  · funext j
    rw [Finset.sum_comm]
    by_cases hj : j < Ng
    · simp [hj, Finset.sum_ite_eq']
    · simp only [hj, if_false, zero_add]
      refine Finset.sum_eq_zero (fun k hk => Finset.sum_eq_zero (fun i _ => ?_))
      have := Finset.mem_range.mp hk
      rw [if_neg (by omega)]

/-- A `forLoopO` whose body never fails is a `forLoop`. -/
theorem forLoopO_some {σ : Type} (lo hi : ℕ) (body : ℕ → σ → Option σ) (g : ℕ → σ → σ)
    (s : σ) (h : ∀ i, lo ≤ i → i < hi → ∀ s, body i s = some (g i s)) :
    forLoopO lo hi body s = some (forLoop lo hi g s) := by
  unfold forLoopO forLoop
  generalize hd : hi - lo = d
  induction d generalizing lo s with
  | zero => simp
  | succ d ih =>
    rw [List.range'_succ, List.foldlM_cons, h lo (le_refl _) (by omega), List.foldl_cons]
    exact ih (lo + 1) (g lo s) (fun i h1 h2 => h i (by omega) h2) (by omega)

/-- A `forLoopO` whose first pass fails, fails. -/
theorem forLoopO_none {σ : Type} (lo hi : ℕ) (body : ℕ → σ → Option σ) (s : σ)
    (hlt : lo < hi) (h : body lo s = none) : forLoopO lo hi body s = none := by
  unfold forLoopO
  obtain ⟨d, hd⟩ : ∃ d, hi - lo = d + 1 := ⟨hi - lo - 1, by omega⟩
  rw [hd, List.range'_succ, List.foldlM_cons, h]
  rfl

theorem f14_term_num (P : ℕ → ℕ → α) (px py : ℕ → α) (i j k : ℕ) (hx : px i ≠ 0)
    (hy : py k ≠ 0) : f14_term P px py i j k = Val.num (P i k * P j k / px i / py k) := by
  simp [f14_term, cdiv, hx, hy]

theorem f14_term_undef (P : ℕ → ℕ → α) (px py : ℕ → α) (i j k : ℕ)
    (h : px i = 0 ∨ py k = 0) : f14_term P px py i j k = Val.undef := by
  unfold f14_term cdiv
  by_cases hx : px i = 0
  · simp [hx]
  · have hy : py k = 0 := h.resolve_left hx
    simp [hx, hy]

theorem forLoop_setM_add (m r c : ℕ) (f : ℕ → α) (Q : ℕ → ℕ → α) :
    forLoop 0 m (fun k Q => setM Q r c (Q r c + f k)) Q =
      setM Q r c (Q r c + ∑ k in Finset.range m, f k) := by
  induction m with
  | zero =>
    rw [forLoop_ge _ _ (le_refl _)]
    funext a b
    by_cases h : a = r ∧ b = c
    · simp [setM, h]
    · simp [setM, h]
  | succ m ih =>
    rw [forLoop_succ_right _ _ (by omega), ih, Finset.sum_range_succ]
    funext a b
    by_cases h : a = r ∧ b = c
    · simp [setM, h, add_assoc]
    · simp [setM, h]

omit [LinearOrderedField α] in
theorem forLoop_setM_row (m r : ℕ) (T : ℕ → α) (Q : ℕ → ℕ → α) :
    forLoop 0 m (fun j Q => setM Q r (j + 1) (T j)) Q =
      fun a b => if a = r ∧ 1 ≤ b ∧ b ≤ m then T (b - 1) else Q a b := by
  induction m with
  | zero =>
    rw [forLoop_ge _ _ (le_refl _)]
    funext a b
    rw [if_neg (by omega)]
  | succ m ih =>
    rw [forLoop_succ_right _ _ (by omega), ih]
    funext a b
    by_cases h : a = r ∧ b = m + 1
    · obtain ⟨rfl, rfl⟩ := h
      simp [setM]
    · have e : (a = r ∧ 1 ≤ b ∧ b ≤ m + 1) ↔ (a = r ∧ 1 ≤ b ∧ b ≤ m) := by
        constructor
        · rintro ⟨h1, h2, h3⟩
          refine ⟨h1, h2, ?_⟩
          by_contra hc
          exact h ⟨h1, by omega⟩
        · rintro ⟨h1, h2, h3⟩
          exact ⟨h1, h2, by omega⟩
      simp only [setM, h, if_false, e]

omit [LinearOrderedField α] in
theorem forLoop_setM_block (n m : ℕ) (T : ℕ → ℕ → α) (Q : ℕ → ℕ → α) :
    forLoop 0 n (fun i Q => forLoop 0 m (fun j Q => setM Q (i + 1) (j + 1) (T i j)) Q) Q =
      fun a b => if (1 ≤ a ∧ a ≤ n) ∧ 1 ≤ b ∧ b ≤ m then T (a - 1) (b - 1) else Q a b := by
  induction n with
  | zero =>
    rw [forLoop_ge _ _ (le_refl _)]
    funext a b
    rw [if_neg (by omega)]
  | succ n ih =>
    rw [forLoop_succ_right _ _ (by omega), ih, forLoop_setM_row]
    funext a b
    by_cases h : a = n + 1 ∧ 1 ≤ b ∧ b ≤ m
    · rw [if_pos h, if_pos ⟨⟨by omega, by omega⟩, h.2⟩]
      obtain ⟨rfl, _⟩ := h
      simp
    · have e : ((1 ≤ a ∧ a ≤ n + 1) ∧ 1 ≤ b ∧ b ≤ m) ↔ ((1 ≤ a ∧ a ≤ n) ∧ 1 ≤ b ∧ b ≤ m) := by
        constructor
        · rintro ⟨⟨h1, h2⟩, h3⟩
          refine ⟨⟨h1, ?_⟩, h3⟩
          by_contra hc
          exact h ⟨by omega, h3⟩
        · rintro ⟨⟨h1, h2⟩, h3⟩
          exact ⟨⟨h1, by omega⟩, h3⟩
      simp only [h, if_false, e]

/-- With non-zero marginals the construction of `Q` succeeds and fills the block
`1..Ng x 1..Ng` with the sums of the quotients. -/
theorem f14_Q_eq (P : ℕ → ℕ → α) (Ng : ℕ) (px py : ℕ → α) (Q0 : ℕ → ℕ → α)
    (hpx : ∀ i, i < Ng → px i ≠ 0) (hpy : ∀ k, k < Ng → py k ≠ 0) :
    f14_Q P Ng px py Q0 = some (fun a b =>
      if (1 ≤ a ∧ a ≤ Ng) ∧ 1 ≤ b ∧ b ≤ Ng then
        ∑ k in Finset.range Ng, P (a - 1) k * P (b - 1) k / px (a - 1) / py k
      else Q0 a b) := by
  unfold f14_Q
  rw [forLoopO_some 0 Ng _ (fun i Q => forLoop 0 Ng (fun j Q => setM Q (i + 1) (j + 1)
      (∑ k in Finset.range Ng, P i k * P j k / px i / py k)) Q)]
  · rw [forLoop_setM_block]
  · intro i _ hi Q
    apply forLoopO_some
    intro j _ hj Q
    rw [forLoopO_some 0 Ng _ (fun k Q => setM Q (i + 1) (j + 1)
      (Q (i + 1) (j + 1) + P i k * P j k / px i / py k))]
    · rw [forLoop_setM_add]
      congr 1
      funext a b
      by_cases h : a = i + 1 ∧ b = j + 1
      · simp [setM, h]
      · simp [setM, h]
    · intro k _ hk Q
      rw [f14_term_num P px py i j k (hpx i hi) (hpy k hk)]
theorem marginals_P_corner :
    (marginals (P_corner (α := α)) 2).1 0 = 1 ∧ (marginals (P_corner (α := α)) 2).2 0 = 1 ∧
      (marginals (P_corner (α := α)) 2).1 1 = 0 ∧ (marginals (P_corner (α := α)) 2).2 1 = 0 := by
  rw [marginals_eq]
  simp [Finset.sum_range_succ, P_corner]

/-- C16 as stated fails: for `Ng = 2`, `P = [[1, 0], [0, 0]]` the marginal `py[1]` is 0, the
term `P[0][1] * P[0][1] / px[0] / py[1]` divides by it, and `f14_maxcorr`, which goes on with
the non-numbers in `Q`, has no number to return. -/
theorem f14_Q_divides_by_zero :
    (marginals (P_corner (α := ℝ)) 2).2 1 = 0 ∧
      f14_term (P_corner (α := ℝ)) (marginals P_corner 2).1 (marginals P_corner 2).2 0 0 1
        = Val.undef ∧
      f14_Q (P_corner (α := ℝ)) 2 (marginals P_corner 2).1 (marginals P_corner 2).2 zeroMem.Q
        = none ∧
      f14_maxcorr 1 Real.sqrt P_corner 2 zeroMem = some Val.undef := by
  obtain ⟨h1, h2, h3, h4⟩ := marginals_P_corner (α := ℝ)
  have hterm : f14_term (P_corner (α := ℝ)) (marginals P_corner 2).1 (marginals P_corner 2).2
      0 0 1 = Val.undef := f14_term_undef _ _ _ 0 0 1 (Or.inr h4)
  have hterm0 : f14_term (P_corner (α := ℝ)) (marginals P_corner 2).1 (marginals P_corner 2).2
      0 0 0 = Val.num 1 := by
    rw [f14_term_num _ _ _ 0 0 0 (by rw [h1]; norm_num) (by rw [h2]; norm_num), h1, h2]
    simp [P_corner]
  have hQ : f14_Q (P_corner (α := ℝ)) 2 (marginals P_corner 2).1 (marginals P_corner 2).2
      zeroMem.Q = none := by
    unfold f14_Q
    apply forLoopO_none _ _ _ _ (by norm_num)
    apply forLoopO_none _ _ _ _ (by norm_num)
    simp only [forLoopO, List.range', Nat.sub_zero, List.foldlM, hterm0, hterm]
    rfl
  refine ⟨h4, hterm, hQ, ?_⟩
  have hnan := (f14_maxcorr_nan_AllNaN 0 Real.sqrt (P_corner (α := ℝ)) 2 zeroMem
    (fun i j _ _ => ⟨1, by norm_num, f14_term_undef _ _ _ i j 1 (Or.inr h4)⟩)).2.1 rfl
  simp only [f14_maxcorr, f14_derived, hQ]
  exact hnan

/-- C16 as amended: a term of `Q` whose marginal `px[i]` or `py[k]` is zero is not guarded,
it divides by zero. When every `px[i]` and `py[k]` below `Ng` is non-zero, every term is a
number, the construction of `Q` succeeds and `Q[i+1][j+1]` is the sum over `k` of
`P[i][k] * P[j][k] / (px[i] * py[k])`, with `px`, `py` the row and column sums. -/
theorem f14_Q_unguarded (P : ℕ → ℕ → α) (Ng : ℕ) (Q0 : ℕ → ℕ → α)
    (hpx : ∀ i, i < Ng → (marginals P Ng).1 i ≠ 0)
    (hpy : ∀ k, k < Ng → (marginals P Ng).2 k ≠ 0) :
    (∀ i j k, (marginals P Ng).1 i = 0 ∨ (marginals P Ng).2 k = 0 →
        f14_term P (marginals P Ng).1 (marginals P Ng).2 i j k = Val.undef) ∧
      (∀ i j k, i < Ng → k < Ng →
        f14_term P (marginals P Ng).1 (marginals P Ng).2 i j k =
          Val.num (P i k * P j k / (marginals P Ng).1 i / (marginals P Ng).2 k)) ∧
      ∃ Q, f14_Q P Ng (marginals P Ng).1 (marginals P Ng).2 Q0 = some Q ∧
        ∀ i j, i < Ng → j < Ng →
          Q (i + 1) (j + 1) = ∑ k in Finset.range Ng,
            P i k * P j k / ((∑ l in Finset.range Ng, P i l) * (∑ l in Finset.range Ng, P l k)) := by
  refine ⟨fun i j k h => f14_term_undef _ _ _ i j k h,
    fun i j k hi hk => f14_term_num _ _ _ i j k (hpx i hi) (hpy k hk), ?_⟩
  refine ⟨_, f14_Q_eq P Ng _ _ Q0 hpx hpy, ?_⟩
  intro i j hi hj
  rw [if_pos ⟨⟨by omega, by omega⟩, by omega, by omega⟩]
  refine Finset.sum_congr rfl (fun k hk => ?_)
  have hk' := Finset.mem_range.mp hk
  simp only [Nat.add_sub_cancel, marginals_eq, hi, hk', if_true]
  rw [div_div]

/-- Witness for C16 as amended: `Ng = 2`, `P = [[3/8, 1/8], [1/8, 3/8]]`. -/
theorem f14_Q_unguarded_witness :
    ((∀ i, i < 2 → (marginals (P_dyadic (α := ℚ)) 2).1 i ≠ 0) ∧
      (∀ k, k < 2 → (marginals (P_dyadic (α := ℚ)) 2).2 k ≠ 0)) ∧
    ((∀ i j k, (marginals (P_dyadic (α := ℚ)) 2).1 i = 0 ∨
          (marginals (P_dyadic (α := ℚ)) 2).2 k = 0 →
        f14_term P_dyadic (marginals (P_dyadic (α := ℚ)) 2).1 (marginals P_dyadic 2).2 i j k
          = Val.undef) ∧
      (∀ i j k, i < 2 → k < 2 →
        f14_term P_dyadic (marginals (P_dyadic (α := ℚ)) 2).1 (marginals P_dyadic 2).2 i j k =
          Val.num (P_dyadic i k * P_dyadic j k / (marginals P_dyadic 2).1 i /
            (marginals P_dyadic 2).2 k)) ∧
      ∃ Q, f14_Q P_dyadic 2 (marginals (P_dyadic (α := ℚ)) 2).1 (marginals P_dyadic 2).2
          zeroMem.Q = some Q ∧
        ∀ i j, i < 2 → j < 2 →
          Q (i + 1) (j + 1) = ∑ k in Finset.range 2,
            P_dyadic i k * P_dyadic j k /
              ((∑ l in Finset.range 2, P_dyadic i l) * (∑ l in Finset.range 2, P_dyadic l k))) :=
  have hpx : ∀ i, i < 2 → (marginals (P_dyadic (α := ℚ)) 2).1 i ≠ 0 := fun i hi => by
    rw [(marginals_P_dyadic i hi).1]; norm_num
  have hpy : ∀ k, k < 2 → (marginals (P_dyadic (α := ℚ)) 2).2 k ≠ 0 := fun k hk => by
    rw [(marginals_P_dyadic k hk).2]; norm_num
  ⟨⟨hpx, hpy⟩, f14_Q_unguarded P_dyadic 2 zeroMem.Q hpx hpy⟩
/-! ### The all-zero matrix (C17) -/

theorem reduction_eq (a : ℕ → ℕ → α) (n : ℕ) :
    reduction a n = forLoop 2 n (reduction_step n) a := rfl

/-- The pivot of step `m` dominates column `m - 1` from row `m` down, and its row index
lies in `m..n`. -/
theorem reduction_pivot_spec (a : ℕ → ℕ → α) (n m : ℕ) (hm : m ≤ n) :
    (∀ j, m ≤ j → j ≤ n → |a j (m - 1)| ≤ |(reduction_pivot a n m).1|) ∧
      m ≤ (reduction_pivot a n m).2 ∧ (reduction_pivot a n m).2 ≤ n := by
  have h := forLoop_invariant_idx
    (fun k (xi : α × ℕ) => (∀ j, m ≤ j → j < k → |a j (m - 1)| ≤ |xi.1|) ∧ m ≤ xi.2 ∧ xi.2 ≤ n)
    m (n + 1) (by omega)
    (fun j (xi : α × ℕ) => if |a j (m - 1)| > |xi.1| then (a j (m - 1), j) else xi) (0, m)
    ⟨fun j h1 h2 => absurd h2 (by omega), le_refl _, hm⟩
    (by
      intro k xi hk1 hk2 ⟨h1, h2, h3⟩
      by_cases hc : |a k (m - 1)| > |xi.1|
      · simp only [hc, if_true]
        refine ⟨fun j hj1 hj2 => ?_, hk1, by omega⟩
        rcases Nat.lt_or_ge j k with hlt | hge
        · exact le_trans (h1 j hj1 hlt) hc.le
        · have : j = k := by omega
          rw [this]
      · simp only [hc, if_false]
        refine ⟨fun j hj1 hj2 => ?_, h2, h3⟩
        rcases Nat.lt_or_ge j k with hlt | hge
        · exact h1 j hj1 hlt
        · have : j = k := by omega
          rw [this]
          exact not_lt.mp hc)
  obtain ⟨h1, h2, h3⟩ := h
  exact ⟨fun j hj1 hj2 => h1 j hj1 (by omega), h2, h3⟩

omit [LinearOrderedField α] in
/-- The interchange of step `m` leaves every column left of `m - 1` alone. -/
theorem reduction_swap_frame (a : ℕ → ℕ → α) (n m i : ℕ) (hi : m ≤ i) (r c : ℕ)
    (hc : c + 1 < m) : reduction_swap a n m i r c = a r c := by
  unfold reduction_swap
  simp only
  have h1 : ∀ a' : ℕ → ℕ → α, forLoop 1 (n + 1) (fun j a =>
      setM (setM a j i (a j m)) j m (a j i)) a' r c = a' r c := by
    intro a'
    apply forLoop_frame
    intro j s _ _
    rw [setM_col_ne _ _ _ _ _ _ (by omega), setM_col_ne _ _ _ _ _ _ (by omega)]
  rw [h1]
  apply forLoop_frame
  intro j s hj _
  rw [setM_col_ne _ _ _ _ _ _ (by omega), setM_col_ne _ _ _ _ _ _ (by omega)]

omit [LinearOrderedField α] in
/-- In column `m - 1` the interchange of step `m` only exchanges rows `i` and `m`. -/
theorem reduction_swap_col (a : ℕ → ℕ → α) (n m i : ℕ) (hm : 2 ≤ m) (hmn : m ≤ n)
    (hi : m < i) (r : ℕ) :
    reduction_swap a n m i r (m - 1) =
      if r = i then a m (m - 1) else if r = m then a i (m - 1) else a r (m - 1) := by
  unfold reduction_swap
  simp only
  have h1 : ∀ a' : ℕ → ℕ → α, forLoop 1 (n + 1) (fun j a =>
      setM (setM a j i (a j m)) j m (a j i)) a' r (m - 1) = a' r (m - 1) := by
    intro a'
    apply forLoop_frame
    intro j s _ _
    rw [setM_col_ne _ _ _ _ _ _ (by omega), setM_col_ne _ _ _ _ _ _ (by omega)]
  rw [h1, forLoop_succ_left _ _ (by omega)]
  have h2 : ∀ a' : ℕ → ℕ → α, forLoop (m - 1 + 1) (n + 1) (fun j a =>
      setM (setM a i j (a m j)) m j (a i j)) a' r (m - 1) = a' r (m - 1) := by
    intro a'
    apply forLoop_frame
    intro j s hj _
    rw [setM_col_ne _ _ _ _ _ _ (by omega), setM_col_ne _ _ _ _ _ _ (by omega)]
  rw [h2]
  simp only [setM]
  by_cases hr : r = i
  · subst hr
    have : r ≠ m := by omega
    simp [this]
  · by_cases hr2 : r = m
    · subst hr2; simp [hr]
    · simp [hr, hr2]

/-- The elimination loop of step `m` leaves every column left of `m - 1` alone. -/
theorem reduction_elim_frame (a : ℕ → ℕ → α) (n m : ℕ) (x : α) (r c : ℕ) (hc : c + 1 < m) :
    reduction_elim a n m x r c = a r c := by
  unfold reduction_elim
  apply forLoop_frame
  intro i s _ _
  simp only
  split_ifs with hy
  · have h1 : ∀ a' : ℕ → ℕ → α, forLoop 1 (n + 1) (fun j a =>
        setM a j m (a j m + s i (m - 1) / x * a j i)) a' r c = a' r c := by
      intro a'
      apply forLoop_frame
      intro j t _ _
      rw [setM_col_ne _ _ _ _ _ _ (by omega)]
    have h2 : ∀ a' : ℕ → ℕ → α, forLoop m (n + 1) (fun j a =>
        setM a i j (a i j - s i (m - 1) / x * a m j)) a' r c = a' r c := by
      intro a'
      apply forLoop_frame
      intro j t hj _
      rw [setM_col_ne _ _ _ _ _ _ (by omega)]
    rw [h1, h2, setM_col_ne _ _ _ _ _ _ (by omega)]
  · rfl

/-- One pass of the elimination loop, seen in column `m - 1`: the entry of row `i` is
divided by the pivot. -/
theorem reduction_elim_body_col (s : ℕ → ℕ → α) (n m i : ℕ) (hm : 1 ≤ m) (x : α) (r : ℕ) :
    (if s i (m - 1) ≠ 0 then
        forLoop 1 (n + 1) (fun j a => setM a j m (a j m + s i (m - 1) / x * a j i))
          (forLoop m (n + 1) (fun j a => setM a i j (a i j - s i (m - 1) / x * a m j))
            (setM s i (m - 1) (s i (m - 1) / x)))
      else s) r (m - 1) = if r = i then s i (m - 1) / x else s r (m - 1) := by
  split_ifs with hy hr hr
  · have h1 : ∀ a' : ℕ → ℕ → α, forLoop 1 (n + 1) (fun j a =>
        setM a j m (a j m + s i (m - 1) / x * a j i)) a' r (m - 1) = a' r (m - 1) := by
      intro a'
      apply forLoop_frame
      intro j t _ _
      rw [setM_col_ne _ _ _ _ _ _ (by omega)]
    have h2 : ∀ a' : ℕ → ℕ → α, forLoop m (n + 1) (fun j a =>
        setM a i j (a i j - s i (m - 1) / x * a m j)) a' r (m - 1) = a' r (m - 1) := by
      intro a'
      apply forLoop_frame
      intro j t hj _
      rw [setM_col_ne _ _ _ _ _ _ (by omega)]
    rw [h1, h2, hr]
    simp [setM]
  · have h1 : ∀ a' : ℕ → ℕ → α, forLoop 1 (n + 1) (fun j a =>
        setM a j m (a j m + s i (m - 1) / x * a j i)) a' r (m - 1) = a' r (m - 1) := by
      intro a'
      apply forLoop_frame
      intro j t _ _
      rw [setM_col_ne _ _ _ _ _ _ (by omega)]
    have h2 : ∀ a' : ℕ → ℕ → α, forLoop m (n + 1) (fun j a =>
        setM a i j (a i j - s i (m - 1) / x * a m j)) a' r (m - 1) = a' r (m - 1) := by
      intro a'
      apply forLoop_frame
      intro j t hj _
      rw [setM_col_ne _ _ _ _ _ _ (by omega)]
    rw [h1, h2]
    simp [setM, hr]
  · rw [hr]
    have : s i (m - 1) = 0 := not_not.mp hy
    rw [this, zero_div]
  · rfl

/-- The elimination loop of step `m`, seen in column `m - 1`: every entry below row `m` is
divided by the pivot. -/
theorem reduction_elim_col (a : ℕ → ℕ → α) (n m : ℕ) (hm : 1 ≤ m) (x : α) (r : ℕ) :
    reduction_elim a n m x r (m - 1) =
      if m + 1 ≤ r ∧ r ≤ n then a r (m - 1) / x else a r (m - 1) := by
  unfold reduction_elim
  rcases Nat.lt_or_ge n (m + 1) with hlt | hge
  · rw [forLoop_ge _ _ (by omega), if_neg (by omega)]
  · have h := forLoop_invariant_idx
      (fun k (s : ℕ → ℕ → α) => ∀ r, s r (m - 1) =
        if m + 1 ≤ r ∧ r < k then a r (m - 1) / x else a r (m - 1))
      (m + 1) (n + 1) (by omega)
      (fun i a =>
        let y := a i (m - 1)
        if y ≠ 0 then
          let y := y / x
          let a := setM a i (m - 1) y
          let a := forLoop m (n + 1) (fun j a => setM a i j (a i j - y * a m j)) a
          forLoop 1 (n + 1) (fun j a => setM a j m (a j m + y * a j i)) a
        else a) a
      (fun r => by rw [if_neg (by omega)])
      (by
        intro k s hk1 hk2 hs r
        simp only
        rw [reduction_elim_body_col s n m k hm x r]
        by_cases hr : r = k
        · subst hr
          rw [if_pos rfl, hs r, if_neg (by omega), if_pos ⟨hk1, by omega⟩]
        · rw [if_neg hr, hs r]
          by_cases h2 : m + 1 ≤ r ∧ r < k
          · rw [if_pos h2, if_pos ⟨h2.1, by omega⟩]
          · rw [if_neg h2, if_neg (by omega)])
    rw [h r]
    by_cases h2 : m + 1 ≤ r ∧ r ≤ n
    · rw [if_pos h2, if_pos ⟨h2.1, by omega⟩]
    · rw [if_neg h2, if_neg (by omega)]

theorem reduction_step_frame (a : ℕ → ℕ → α) (n m : ℕ) (hmn : m ≤ n) (r c : ℕ)
    (hc : c + 1 < m) : reduction_step n m a r c = a r c := by
  obtain ⟨-, hp1, -⟩ := reduction_pivot_spec a n m hmn
  have hstep : reduction_step n m a =
      if (reduction_pivot a n m).1 ≠ 0 then
        reduction_elim (reduction_pivoted n m a) n m (reduction_pivot a n m).1
      else reduction_pivoted n m a := rfl
  have hsw : reduction_pivoted n m a r c = a r c := by
    unfold reduction_pivoted
    split_ifs
    · exact reduction_swap_frame a n m _ hp1 r c hc
    · rfl
  rw [hstep]
  split_ifs with hx
  · rw [reduction_elim_frame _ n m _ r c hc, hsw]
  · exact hsw

/-- After the interchange of step `m`, the pivot dominates column `m - 1` below row `m`. -/
theorem reduction_pivoted_le (a : ℕ → ℕ → α) (n m : ℕ) (hm : 2 ≤ m) (hmn : m ≤ n) (i : ℕ)
    (hi1 : m < i) (hi2 : i ≤ n) :
    |reduction_pivoted n m a i (m - 1)| ≤ |(reduction_pivot a n m).1| := by
  obtain ⟨hdom, hp1, hp2⟩ := reduction_pivot_spec a n m hmn
  unfold reduction_pivoted
  split_ifs with hsw
  · rw [reduction_swap_col a n m _ hm hmn (by omega) i]
    split_ifs with h1 h2
    · exact hdom m (le_refl _) hmn
    · omega
    · exact hdom i (by omega) hi2
  · exact hdom i (by omega) hi2

/-- Step `m` leaves in cell `[i][m-1]`, `i > m`, the multiplier of row `i`. -/
theorem reduction_step_col (a : ℕ → ℕ → α) (n m : ℕ) (hm : 2 ≤ m) (hmn : m ≤ n) (i : ℕ)
    (hi1 : m < i) (hi2 : i ≤ n) :
    reduction_step n m a i (m - 1) =
      reduction_pivoted n m a i (m - 1) / (reduction_pivot a n m).1 := by
  have hle := reduction_pivoted_le a n m hm hmn i hi1 hi2
  have hstep : reduction_step n m a =
      if (reduction_pivot a n m).1 ≠ 0 then
        reduction_elim (reduction_pivoted n m a) n m (reduction_pivot a n m).1
      else reduction_pivoted n m a := rfl
  rw [hstep]
  split_ifs with hx
  · rw [reduction_elim_col _ n m (by omega), if_pos ⟨by omega, hi2⟩]
  · have hx0 : (reduction_pivot a n m).1 = 0 := not_not.mp hx
    rw [hx0, abs_zero] at hle
    rw [hx0, div_zero]
    exact abs_eq_zero.mp (le_antisymm hle (abs_nonneg _))

/-- C18 as amended: after `reduction (a, n)` a sub-subdiagonal cell `a[i][j]` (`1 <= j`,
`j + 1 < i <= n`) holds the multiplier of the elimination of column `j`: the entry of that
cell after the interchange of step `m = j + 1`, divided by the pivot. Its absolute value is
at most 1, and it is zero exactly when the entry was already zero before the
elimination. -/
theorem reduction_keeps_multipliers (a : ℕ → ℕ → α) (n i j : ℕ) (hj : 1 ≤ j)
    (hij : j + 1 < i) (hi : i ≤ n) :
    reduction a n i j =
        reduction_pivoted n (j + 1) (forLoop 2 (j + 1) (reduction_step n) a) i j /
          (reduction_pivot (forLoop 2 (j + 1) (reduction_step n) a) n (j + 1)).1 ∧
      |reduction a n i j| ≤ 1 ∧
      (reduction a n i j = 0 ↔
        reduction_pivoted n (j + 1) (forLoop 2 (j + 1) (reduction_step n) a) i j = 0) := by
  set A := forLoop 2 (j + 1) (reduction_step n) a with hA
  have h1 : reduction a n = forLoop (j + 1 + 1) n (reduction_step n)
      (reduction_step n (j + 1) A) := by
    rw [reduction_eq, forLoop_split 2 (j + 1) n (by omega) (by omega),
      forLoop_succ_left _ _ (by omega)]
  have h2 : reduction a n i j = reduction_step n (j + 1) A i j := by
    rw [h1]
    apply forLoop_frame
    intro m s hm1 hm2
    exact reduction_step_frame s n m (by omega) i j (by omega)
  have h3 := reduction_step_col A n (j + 1) (by omega) (by omega) i hij hi
  have hle := reduction_pivoted_le A n (j + 1) (by omega) (by omega) i hij hi
  simp only [Nat.add_sub_cancel] at h3 hle
  rw [h2, h3]
  refine ⟨rfl, ?_, ?_⟩
  · rw [abs_div]
    by_cases hx : (reduction_pivot A n (j + 1)).1 = 0
    · rw [hx, abs_zero, div_zero]; exact zero_le_one
    · rw [div_le_one (abs_pos.mpr hx)]
      exact hle
  · by_cases hx : (reduction_pivot A n (j + 1)).1 = 0
    · rw [hx, abs_zero] at hle
      have : reduction_pivoted n (j + 1) A i j = 0 :=
        abs_eq_zero.mp (le_antisymm hle (abs_nonneg _))
      rw [this]
      simp
    · rw [div_eq_zero_iff]
      constructor
      · rintro (h | h)
        · exact h
        · exact absurd h hx
      · intro h; exact Or.inl h

/-- C18 as stated fails: for `n = 3` and the all-ones matrix, `reduction` leaves the
multiplier 1 in the sub-subdiagonal cell `a[3][1]`. -/
theorem reduction_leaves_multiplier :
    reduction (P_one (α := ℚ)) 3 3 1 = 1 ∧ reduction (P_one (α := ℚ)) 3 3 1 ≠ 0 := by
  have h : reduction (P_one (α := ℚ)) 3 3 1 = 1 := by
    have hp : reduction_pivot (P_one (α := ℚ)) 3 2 = (1, 2) := by
      simp [reduction_pivot, forLoop, List.range', P_one]
    rw [reduction_eq, forLoop_succ_left _ _ (by norm_num), forLoop_ge _ _ (by norm_num)]
    have := reduction_step_col (P_one (α := ℚ)) 3 2 (by norm_num) (by norm_num) 3
      (by norm_num) (by norm_num)
    simp only [show 2 - 1 = 1 from rfl] at this
    rw [this, hp]
    simp [reduction_pivoted, hp, P_one]
  exact ⟨h, by rw [h]; norm_num⟩

/-- Witness for C18 as amended: `n = 3`, the all-ones matrix, cell `a[3][1]`. -/
theorem reduction_keeps_multipliers_witness :
    (1 ≤ 1 ∧ 1 + 1 < 3 ∧ 3 ≤ 3) ∧
    (reduction (P_one (α := ℚ)) 3 3 1 =
        reduction_pivoted 3 (1 + 1) (forLoop 2 (1 + 1) (reduction_step 3) (P_one (α := ℚ))) 3 1 /
          (reduction_pivot (forLoop 2 (1 + 1) (reduction_step 3) (P_one (α := ℚ))) 3 (1 + 1)).1 ∧
      |reduction (P_one (α := ℚ)) 3 3 1| ≤ 1 ∧
      (reduction (P_one (α := ℚ)) 3 3 1 = 0 ↔
        reduction_pivoted 3 (1 + 1) (forLoop 2 (1 + 1) (reduction_step 3) (P_one (α := ℚ))) 3 1
          = 0)) :=
  ⟨⟨by decide, by decide, by decide⟩,
    reduction_keeps_multipliers P_one 3 3 1 (by decide) (by decide) (by decide)⟩
/-! ### Balancing -/

/-- The loop `while (c < g)` multiplies `f` by a power of the radix. -/
theorem mkbalanced_up_pow (fuel : ℕ) (g : α) :
    ∀ fc fc' : α × α, mkbalanced_up fuel g fc = some fc' → ∃ k : ℕ, fc'.1 = fc.1 * 2 ^ k := by
  induction fuel with
  | zero => intro fc fc' h; simp [mkbalanced_up] at h
  | succ fuel ih =>
    intro fc fc' h
    rw [mkbalanced_up] at h
    split_ifs at h with hc
    · obtain ⟨k, hk⟩ := ih _ _ h
      refine ⟨k + 1, ?_⟩
      rw [hk]
      simp only [RADIX]
      ring
    · refine ⟨0, ?_⟩
      injection h with h
      rw [← h]; simp

/-- The loop `while (c > g)` divides `f` by a power of the radix. -/
theorem mkbalanced_down_pow (fuel : ℕ) (g : α) :
    ∀ fc fc' : α × α, mkbalanced_down fuel g fc = some fc' →
      ∃ k : ℕ, fc'.1 = fc.1 / 2 ^ k := by
  induction fuel with
  | zero => intro fc fc' h; simp [mkbalanced_down] at h
  | succ fuel ih =>
    intro fc fc' h
    rw [mkbalanced_down] at h
    split_ifs at h with hc
    · obtain ⟨k, hk⟩ := ih _ _ h
      refine ⟨k + 1, ?_⟩
      rw [hk]
      simp only [RADIX]
      rw [div_div, pow_succ']
    · refine ⟨0, ?_⟩
      injection h with h
      rw [← h]; simp

/-- What a pass of the loop over `i` in `mkbalanced` can do: nothing, or rescale row and
column `i` by a power of 2 after finding `(c + r) / f < 0.95 * s`. -/
theorem mkbalanced_row_cases (fuel n i : ℕ) (st st' : (ℕ → ℕ → α) × Bool)
    (h : mkbalanced_row fuel n i st = some st') :
    (st' = st ∧
      ((mkbalanced_norms st.1 n i).1 = 0 ∨ (mkbalanced_norms st.1 n i).2 = 0 ∨
        ∃ fc fc' : α × α,
          mkbalanced_up fuel ((mkbalanced_norms st.1 n i).2 / RADIX)
            (1, (mkbalanced_norms st.1 n i).1) = some fc ∧
          mkbalanced_down fuel ((mkbalanced_norms st.1 n i).2 * RADIX) fc = some fc' ∧
          ¬ (fc'.2 + (mkbalanced_norms st.1 n i).2) / fc'.1 <
            95 / 100 * ((mkbalanced_norms st.1 n i).1 + (mkbalanced_norms st.1 n i).2))) ∨
    ∃ z : ℤ, st' = (mkbalanced_scale st.1 n i ((2 : α) ^ z), false) := by
  unfold mkbalanced_row at h
  simp only at h
  split_ifs at h with hcr
  · split at h
    · exact absurd h (by simp)
    · rename_i fc hup
      split at h
      · exact absurd h (by simp)
      · rename_i fc' hdown
        split_ifs at h with hcond
        · right
          obtain ⟨k1, hk1⟩ := mkbalanced_up_pow _ _ _ _ hup
          obtain ⟨k2, hk2⟩ := mkbalanced_down_pow _ _ _ _ hdown
          refine ⟨(k1 : ℤ) - (k2 : ℤ), ?_⟩
          injection h with h
          rw [← h]
          congr 2
          rw [hk2, hk1, one_mul, zpow_sub₀ (by norm_num), zpow_natCast, zpow_natCast]
        · left
          injection h with h
          exact ⟨h.symm, Or.inr (Or.inr ⟨fc, fc', hup, hdown, hcond⟩)⟩
  · left
    injection h with h
    refine ⟨h.symm, ?_⟩
    by_cases hc : (mkbalanced_norms st.1 n i).1 = 0
    · exact Or.inl hc
    · right; left
      by_contra hr
      exact hcr ⟨hc, hr⟩

omit [LinearOrderedField α] in
theorem forLoop_setM_row_map (n i : ℕ) (F : α → α) (a : ℕ → ℕ → α) :
    forLoop 1 (n + 1) (fun j a => setM a i j (F (a i j))) a =
      fun r c => if r = i ∧ 1 ≤ c ∧ c ≤ n then F (a r c) else a r c := by
  induction n with
  | zero =>
    rw [forLoop_ge _ _ (le_refl _)]
    funext r c
    rw [if_neg (by omega)]
  | succ n ih =>
    rw [forLoop_succ_right _ _ (by omega), ih]
    funext r c
    by_cases h : r = i ∧ c = n + 1
    · obtain ⟨rfl, rfl⟩ := h
      simp [setM]
    · have e : (r = i ∧ 1 ≤ c ∧ c ≤ n + 1) ↔ (r = i ∧ 1 ≤ c ∧ c ≤ n) := by
        constructor
        · rintro ⟨h1, h2, h3⟩
          refine ⟨h1, h2, ?_⟩
          by_contra hc
          exact h ⟨h1, by omega⟩
        · rintro ⟨h1, h2, h3⟩
          exact ⟨h1, h2, by omega⟩
      simp only [setM, h, if_false, e]

omit [LinearOrderedField α] in
theorem forLoop_setM_col_map (n i : ℕ) (F : α → α) (a : ℕ → ℕ → α) :
    forLoop 1 (n + 1) (fun j a => setM a j i (F (a j i))) a =
      fun r c => if c = i ∧ 1 ≤ r ∧ r ≤ n then F (a r c) else a r c := by
  induction n with
  | zero =>
    rw [forLoop_ge _ _ (le_refl _)]
    funext r c
    rw [if_neg (by omega)]
  | succ n ih =>
    rw [forLoop_succ_right _ _ (by omega), ih]
    funext r c
    by_cases h : r = n + 1 ∧ c = i
    · obtain ⟨rfl, rfl⟩ := h
      simp [setM]
    · have e : (c = i ∧ 1 ≤ r ∧ r ≤ n + 1) ↔ (c = i ∧ 1 ≤ r ∧ r ≤ n) := by
        constructor
        · rintro ⟨h1, h2, h3⟩
          refine ⟨h1, h2, ?_⟩
          by_contra hc
          exact h ⟨by omega, h1⟩
        · rintro ⟨h1, h2, h3⟩
          exact ⟨h1, h2, by omega⟩
      simp only [setM, h, if_false, e]

/-- Entries of the rescaled matrix: row `i` is divided by `f`, column `i` multiplied by `f`. -/
theorem mkbalanced_scale_eq (a : ℕ → ℕ → α) (n i : ℕ) (f : α) (r c : ℕ)
    (hr1 : 1 ≤ r) (hr2 : r ≤ n) (hc1 : 1 ≤ c) (hc2 : c ≤ n) :
    mkbalanced_scale a n i f r c =
      a r c * (if r = i then 1 / f else 1) * (if c = i then f else 1) := by
  unfold mkbalanced_scale
  rw [forLoop_setM_col_map n i (fun v => v * f), forLoop_setM_row_map n i (fun v => v * (1 / f))]
  by_cases h1 : r = i
  · subst h1
    by_cases h2 : c = r
    · subst h2
      simp [hc1, hc2]
    · simp [h2, hc1, hc2]
  · by_cases h2 : c = i
    · subst h2
      simp [h1, hr1, hr2]
    · simp [h1, h2]

/-- Every matrix is radix similar to itself. -/
theorem IsRadixSimilar_refl (n : ℕ) (a : ℕ → ℕ → α) : IsRadixSimilar n a a :=
  ⟨fun _ => 0, fun i j _ _ _ _ => by simp⟩

/-- Rescaling row and column `i` by `2 ^ z` keeps the radix similarity. -/
theorem IsRadixSimilar_scale (n : ℕ) (a b : ℕ → ℕ → α) (i : ℕ) (z : ℤ)
    (h : IsRadixSimilar n a b) : IsRadixSimilar n a (mkbalanced_scale b n i ((2 : α) ^ z)) := by
  obtain ⟨e, he⟩ := h
  refine ⟨fun k => if k = i then e k + z else e k, ?_⟩
  intro r c hr1 hr2 hc1 hc2
  have h2 : (2 : α) ≠ 0 := by norm_num
  rw [mkbalanced_scale_eq b n i _ r c hr1 hr2 hc1 hc2, he r c hr1 hr2 hc1 hc2]
  by_cases h1 : r = i <;> by_cases h3 : c = i <;> simp only [h1, h3, if_true, if_false]
  · rw [zpow_add₀ h2]
    field_simp
  · rw [zpow_add₀ h2]
    field_simp
  · rw [zpow_add₀ h2]
    field_simp
    ring
  · ring

/-- Radix similarity is symmetric: negate the exponents. -/
theorem IsRadixSimilar_symm (n : ℕ) (a b : ℕ → ℕ → α) (h : IsRadixSimilar n a b) :
    IsRadixSimilar n b a := by
  obtain ⟨e, he⟩ := h
  refine ⟨fun i => - e i, fun i j hi1 hi2 hj1 hj2 => ?_⟩
  rw [he i j hi1 hi2 hj1 hj2]
  have h1 : (2 : α) ^ e i ≠ 0 := zpow_ne_zero _ (by norm_num)
  have h2 : (2 : α) ^ e j ≠ 0 := zpow_ne_zero _ (by norm_num)
  simp only [zpow_neg]
  field_simp
  ring

/-- A radix similarity carries every eigenpair of `a` to an eigenpair of `b` with the same
eigenvalue. -/
theorem IsRadixSimilar_eigen (n : ℕ) (a b : ℕ → ℕ → α) (h : IsRadixSimilar n a b) (lam : α)
    (hv : ∃ v, IsEigenpair n a lam v) : ∃ w, IsEigenpair n b lam w := by
  obtain ⟨e, he⟩ := h
  obtain ⟨v, ⟨i0, hi1, hi2, hne⟩, hv⟩ := hv
  have hp : ∀ k, (2 : α) ^ e k ≠ 0 := fun k => zpow_ne_zero _ (by norm_num)
  refine ⟨fun k => v k / (2 : α) ^ e k, ⟨i0, hi1, hi2, div_ne_zero hne (hp i0)⟩, ?_⟩
  intro i h1 h2
  have : ∀ j ∈ Finset.Icc 1 n, b i j * (v j / (2 : α) ^ e j) = a i j * v j / (2 : α) ^ e i := by
    intro j hj
    rw [Finset.mem_Icc] at hj
    rw [he i j h1 h2 hj.1 hj.2]
    have := hp i
    have := hp j
    field_simp
    ring
  rw [Finset.sum_congr rfl this, ← Finset.sum_div, hv i h1 h2]
  ring

/-- Invariant rule for `forLoopO` with an invariant that depends on the counter. -/
theorem forLoopO_invariant_idx {σ : Type} (I : ℕ → σ → Prop) (lo hi : ℕ) (h : lo ≤ hi)
    (body : ℕ → σ → Option σ) (s s' : σ) (h0 : I lo s)
    (hstep : ∀ i s s', lo ≤ i → i < hi → I i s → body i s = some s' → I (i + 1) s')
    (hres : forLoopO lo hi body s = some s') : I hi s' := by
  unfold forLoopO at hres
  obtain ⟨d, rfl⟩ : ∃ d, hi = lo + d := ⟨hi - lo, by omega⟩
  clear h
  rw [Nat.add_sub_cancel_left] at hres
  induction d generalizing lo s with
  | zero =>
    simp only [List.range'_zero, List.foldlM_nil] at hres
    cases hres
    exact h0
  | succ d ih =>
    rw [List.range'_succ, List.foldlM_cons] at hres
    cases hb : body lo s with
    | none => rw [hb] at hres; exact absurd hres (by simp)
    | some s1 =>
      rw [hb] at hres
      have h1 : I (lo + 1) s1 := hstep lo s s1 (le_refl _) (by omega) h0 hb
      have := ih (lo + 1) s1 h1 (fun i s s' hi1 hi2 => hstep i s s' (by omega) (by omega)) hres
      rw [show lo + (d + 1) = lo + 1 + d by omega]
      exact this

/-- A full pass of `mkbalanced` keeps the similarity, and a pass that ends with
`last == 1` has changed nothing. -/
theorem mkbalanced_pass_spec (fuel n : ℕ) (a a' : ℕ → ℕ → α) (st : (ℕ → ℕ → α) × Bool)
    (hsim : IsRadixSimilar n a a')
    (h : forLoopO 1 (n + 1) (mkbalanced_row fuel n) (a', true) = some st) :
    IsRadixSimilar n a st.1 ∧
      (st.2 = true → st.1 = a' ∧
        ∀ i, 1 ≤ i → i ≤ n → mkbalanced_row fuel n i (a', true) = some (a', true)) := by
  have key := forLoopO_invariant_idx
    (fun k (s : (ℕ → ℕ → α) × Bool) => IsRadixSimilar n a s.1 ∧
      ((s = (a', true) ∧
        ∀ i, 1 ≤ i → i < k → mkbalanced_row fuel n i (a', true) = some (a', true)) ∨
        s.2 = false))
    1 (n + 1) (by omega) (mkbalanced_row fuel n) (a', true) st
    ⟨hsim, Or.inl ⟨rfl, fun i h1 h2 => absurd h2 (by omega)⟩⟩
    (by
      intro k s s' hk1 hk2 ⟨hs1, hs2⟩ hrow
      rcases mkbalanced_row_cases fuel n k s s' hrow with ⟨heq, -⟩ | ⟨z, hz⟩
      · rw [heq]
        refine ⟨hs1, ?_⟩
        rcases hs2 with ⟨e1, e2⟩ | e
        · left
          refine ⟨e1, fun i hi1 hi2 => ?_⟩
          rcases Nat.lt_or_ge i k with hlt | hge
          · exact e2 i hi1 hlt
          · have hik : i = k := by omega
            rw [hik, ← e1, hrow, heq]
        · right; exact e
      · rw [hz]
        exact ⟨IsRadixSimilar_scale n a s.1 k z hs1, Or.inr rfl⟩)
    h
  obtain ⟨k1, k2⟩ := key
  refine ⟨k1, fun hlast => ?_⟩
  rcases k2 with ⟨e1, e2⟩ | e
  · rw [e1]
    exact ⟨rfl, fun i hi1 hi2 => e2 i hi1 (by omega)⟩
  · rw [hlast] at e
    exact absurd e (by simp)

/-- The loop `while (last == 0)` keeps the radix similarity and ends after a pass in which
no index was rescaled. -/
theorem mkbalanced_loop_spec (fuel0 n : ℕ) (a : ℕ → ℕ → α) (fuel : ℕ) :
    ∀ a' b : ℕ → ℕ → α, IsRadixSimilar n a a' → mkbalanced_loop fuel0 n fuel a' = some b →
      IsRadixSimilar n a b ∧
        ∀ i, 1 ≤ i → i ≤ n → mkbalanced_row fuel0 n i (b, true) = some (b, true) := by
  induction fuel with
  | zero => intro a' b _ h; simp [mkbalanced_loop] at h
  | succ fuel ih =>
    intro a' b hsim h
    rw [mkbalanced_loop] at h
    cases hp : forLoopO 1 (n + 1) (mkbalanced_row fuel0 n) (a', true) with
    | none => rw [hp] at h; exact absurd h (by simp)
    | some st =>
      rw [hp] at h
      simp only at h
      obtain ⟨p1, p2⟩ := mkbalanced_pass_spec fuel0 n a a' st hsim hp
      split_ifs at h with hlast
      · exact ih st.1 b p1 h
      · have ht : st.2 = true := by
          cases hb : st.2 with
          | false => exact absurd hb hlast
          | true => rfl
        obtain ⟨q1, q2⟩ := p2 ht
        injection h with h
        rw [← h, q1]
        rw [q1] at p1
        exact ⟨p1, q2⟩

/-- C19: for every `n` (in particular `n ≥ 1`) and every matrix `a` on which `mkbalanced`
terminates with the result `b`, the result is `D⁻¹ a D` on the indices `1..n` for a diagonal `D` whose entries are
integer powers of 2; hence `a` and `b` have the same eigenvalues and the same diagonal; and the
last pass changed nothing: for each index `i` the loop body leaves `(b, last = 1)` as it is,
because a norm `c` or `r` is zero, so that the test is skipped, or because the two scaling
loops end with `(c + r) / f < 0.95 * (c₀ + r₀)` false. -/
theorem mkbalanced_similarity (fuel : ℕ) (a b : ℕ → ℕ → α) (n : ℕ)
    (h : mkbalanced fuel a n = some b) :
    IsRadixSimilar n a b ∧
      (∀ lam, (∃ v, IsEigenpair n a lam v) ↔ ∃ w, IsEigenpair n b lam w) ∧
      (∀ i, 1 ≤ i → i ≤ n → b i i = a i i) ∧
      ∀ i, 1 ≤ i → i ≤ n →
        mkbalanced_row fuel n i (b, true) = some (b, true) ∧
        ((mkbalanced_norms b n i).1 = 0 ∨ (mkbalanced_norms b n i).2 = 0 ∨
          ∃ fc fc' : α × α,
            mkbalanced_up fuel ((mkbalanced_norms b n i).2 / RADIX)
              (1, (mkbalanced_norms b n i).1) = some fc ∧
            mkbalanced_down fuel ((mkbalanced_norms b n i).2 * RADIX) fc = some fc' ∧
            ¬ (fc'.2 + (mkbalanced_norms b n i).2) / fc'.1 <
              95 / 100 * ((mkbalanced_norms b n i).1 + (mkbalanced_norms b n i).2)) := by
  obtain ⟨hsim, hfin⟩ := mkbalanced_loop_spec fuel n a fuel a b (IsRadixSimilar_refl n a) h
  refine ⟨hsim, ?_, ?_, ?_⟩
  · intro lam
    exact ⟨IsRadixSimilar_eigen n a b hsim lam,
      IsRadixSimilar_eigen n b a (IsRadixSimilar_symm n a b hsim) lam⟩
  · intro i hi1 hi2
    obtain ⟨e, he⟩ := hsim
    rw [he i i hi1 hi2 hi1 hi2]
    have : (2 : α) ^ e i ≠ 0 := zpow_ne_zero _ (by norm_num)
    field_simp
  · intro i hi1 hi2
    have hrow := hfin i hi1 hi2
    refine ⟨hrow, ?_⟩
    rcases mkbalanced_row_cases fuel n i (b, true) (b, true) hrow with ⟨-, hcase⟩ | ⟨z, hz⟩
    · exact hcase
    · have := congrArg Prod.snd hz
      simp at this

/-- Balancing `[[0, 8], [1, 0]]` rescales index 1 by the factor 2 and then stops. -/
theorem mkbalanced_A_skew :
    mkbalanced 2 (A_skew (α := α)) 2 = some (mkbalanced_scale A_skew 2 1 ((2 : α) ^ (1 : ℤ))) := by
  have h2 : ((2 : α) ^ (1 : ℤ)) = 2 := by simp
  rw [h2]
  set A1 := mkbalanced_scale (A_skew (α := α)) 2 1 2 with hA1
  have e12 : A1 1 2 = 4 := by
    rw [hA1, mkbalanced_scale_eq _ _ _ _ 1 2 (by norm_num) (by norm_num) (by norm_num)
      (by norm_num)]
    simp [A_skew]; norm_num
  have e21 : A1 2 1 = 2 := by
    rw [hA1, mkbalanced_scale_eq _ _ _ _ 2 1 (by norm_num) (by norm_num) (by norm_num)
      (by norm_num)]
    simp [A_skew]
  have n1 : mkbalanced_norms (A_skew (α := α)) 2 1 = (1, 8) := by
    simp [mkbalanced_norms, forLoop, List.range', A_skew]
  have m1 : mkbalanced_norms A1 2 1 = (2, 4) := by
    simp [mkbalanced_norms, forLoop, List.range', e12, e21]
  have m2 : mkbalanced_norms A1 2 2 = (4, 2) := by
    simp [mkbalanced_norms, forLoop, List.range', e12, e21]
  have hrow1 : mkbalanced_row 2 2 1 (A_skew (α := α), true) = some (A1, false) := by
    simp only [mkbalanced_row, n1, mkbalanced_up, mkbalanced_down, RADIX]
    norm_num
  have hrow2 : ∀ l, mkbalanced_row 2 2 2 (A1, l) = some (A1, l) := by
    intro l
    simp only [mkbalanced_row, m2, mkbalanced_up, mkbalanced_down, RADIX]
    norm_num
  have hrow3 : mkbalanced_row 2 2 1 (A1, true) = some (A1, true) := by
    simp only [mkbalanced_row, m1, mkbalanced_up, mkbalanced_down, RADIX]
    norm_num
  have hp1 : forLoopO 1 (2 + 1) (mkbalanced_row 2 2) (A_skew (α := α), true)
      = some (A1, false) := by
    simp [forLoopO, List.range', hrow1, hrow2]
  have hp2 : forLoopO 1 (2 + 1) (mkbalanced_row 2 2) (A1, true) = some (A1, true) := by
    simp [forLoopO, List.range', hrow3, hrow2]
  rw [mkbalanced, mkbalanced_loop, hp1]
  simp only [if_true]
  rw [mkbalanced_loop, hp2]
  simp

/-- Witness for C19: `n = 2`, `[[0, 8], [1, 0]]`, which balancing turns into `[[0, 4], [2, 0]]`. -/
theorem mkbalanced_similarity_witness :
    ∃ b, mkbalanced 2 (A_skew (α := ℚ)) 2 = some b ∧ b 1 2 = 4 ∧ b 2 1 = 2 ∧
      IsRadixSimilar 2 A_skew b ∧
      (∀ lam, (∃ v, IsEigenpair 2 A_skew lam v) ↔ ∃ w, IsEigenpair 2 b lam w) ∧
      (∀ i, 1 ≤ i → i ≤ 2 → b i i = A_skew i i) ∧
      ∀ i, 1 ≤ i → i ≤ 2 →
        mkbalanced_row 2 2 i (b, true) = some (b, true) ∧
        ((mkbalanced_norms b 2 i).1 = 0 ∨ (mkbalanced_norms b 2 i).2 = 0 ∨
          ∃ fc fc' : ℚ × ℚ,
            mkbalanced_up 2 ((mkbalanced_norms b 2 i).2 / RADIX)
              (1, (mkbalanced_norms b 2 i).1) = some fc ∧
            mkbalanced_down 2 ((mkbalanced_norms b 2 i).2 * RADIX) fc = some fc' ∧
            ¬ (fc'.2 + (mkbalanced_norms b 2 i).2) / fc'.1 <
              95 / 100 * ((mkbalanced_norms b 2 i).1 + (mkbalanced_norms b 2 i).2)) :=
  ⟨_, mkbalanced_A_skew,
    by
      rw [mkbalanced_scale_eq _ _ _ _ 1 2 (by norm_num) (by norm_num) (by norm_num)
        (by norm_num)]
      simp [A_skew]; norm_num,
    by
      rw [mkbalanced_scale_eq _ _ _ _ 2 1 (by norm_num) (by norm_num) (by norm_num)
        (by norm_num)]
      simp [A_skew],
    mkbalanced_similarity 2 A_skew _ 2 mkbalanced_A_skew⟩

/-! ### The range of `f14_maxcorr` -/

/-- For `Ng = 1` and `P = [[1]]` the matrix handed to `hessenberg` is `[[1]]`. -/
theorem f14_derived_P_one (fuel : ℕ) (mem : Mem α) :
    ∃ Q, f14_derived (fuel + 1) (P_one (α := α)) 1 mem = some (some Q) ∧ Q 1 1 = 1 := by
  have hm : (marginals (P_one (α := α)) 1).1 0 = 1 ∧ (marginals (P_one (α := α)) 1).2 0 = 1 := by
    simp [marginals, forLoop, List.range', Function.update, pgm_vector, P_one]
  have hQ : ∃ Q, f14_Q (P_one (α := α)) 1 (marginals P_one 1).1 (marginals P_one 1).2 mem.Q
      = some Q ∧ Q 1 1 = 1 := by
    simp only [f14_Q, forLoopO, List.range', Nat.sub_zero, List.foldlM, f14_term, cdiv,
      hm.1, hm.2]
    norm_num [setM, P_one]
  obtain ⟨Q, hQ, h11⟩ := hQ
  have hn : mkbalanced_norms Q 1 1 = (0, 0) := by
    simp [mkbalanced_norms, forLoop, List.range']
  have hr : ∀ i, 1 ≤ i → i < 1 + 1 →
      mkbalanced_row (fuel + 1) 1 i (Q, true) = some (Q, true) := by
    intro i hi1 hi2
    have hi : i = 1 := by omega
    subst hi
    simp [mkbalanced_row, hn]
  have hb : mkbalanced (fuel + 1) Q 1 = some Q := by
    rw [mkbalanced, mkbalanced_loop, forLoopO_fixed _ _ _ _ hr]
    simp
  have hred : reduction Q 1 = Q := by
    simp [reduction, forLoop, List.range']
  exact ⟨Q, by simp only [f14_derived, hQ, hb, hred], h11⟩

/-- On a matrix of order 1, `hessenberg` succeeds and stores `a[1][1]` in `wr[1]`, leaving
every other cell of `wr` as it was. -/
theorem hessenberg_order_one (sqrt : α → α) (a : ℕ → ℕ → α) (wr wi : ℕ → α) :
    ∃ st, hessenberg sqrt a 1 wr wi = HResult.ret 1 st ∧ st.wr 1 = a 1 1 ∧
      ∀ i, i ≠ 1 → st.wr i = wr i := by
  simp [hessenberg, hess_while, hess_dowhile, hess_scan, hess_deflate1, HState.setWr,
    HState.setWi, Function.update]
  intro i hi
  simp [hi]

/-- C20, the code at the failing input `Ng = 1`, `P = [[1]]` (non-negative, sum 1): the derived
matrix is `[[1]]`, `hessenberg` succeeds with `wr[1] = 1`, and `f14_maxcorr` returns
`sqrt (x[Ng - 1]) = sqrt (x[0])`, the square root of the cell in front of the block
`x[1..Ng]` that `pgm_vector (1, Ng)` allocated, whatever that cell holds; when it holds 4
the value returned is 2, which is not in `[0, 1]`. -/
theorem f14_maxcorr_reads_before_block :
    (∀ mem : Mem ℝ, ∃ Q st, f14_derived 1 (P_one (α := ℝ)) 1 mem = some (some Q) ∧
      hessenberg Real.sqrt Q 1 (pgm_vector 1 1 mem.x) (pgm_vector 1 1 mem.iy)
        = HResult.ret 1 st ∧
      st.wr 1 = 1 ∧
      f14_maxcorr 1 Real.sqrt P_one 1 mem = some (Val.num (Real.sqrt (mem.x 0)))) ∧
    f14_maxcorr 1 Real.sqrt (P_one (α := ℝ)) 1 memFour = some (Val.num 2) ∧
    ¬ ((2 : ℝ) ≤ 1) := by
  have key : ∀ mem : Mem ℝ, ∃ Q st, f14_derived 1 (P_one (α := ℝ)) 1 mem = some (some Q) ∧
      hessenberg Real.sqrt Q 1 (pgm_vector 1 1 mem.x) (pgm_vector 1 1 mem.iy)
        = HResult.ret 1 st ∧
      st.wr 1 = 1 ∧
      f14_maxcorr 1 Real.sqrt P_one 1 mem = some (Val.num (Real.sqrt (mem.x 0))) := by
    intro mem
    obtain ⟨Q, hQ, h11⟩ := f14_derived_P_one (α := ℝ) 0 mem
    obtain ⟨st, hst, hw1, hw⟩ :=
      hessenberg_order_one Real.sqrt Q (pgm_vector 1 1 mem.x) (pgm_vector 1 1 mem.iy)
    have h0 : st.wr 0 = mem.x 0 := by
      rw [hw 0 (by norm_num)]
      simp [pgm_vector]
    refine ⟨Q, st, hQ, hst, by rw [hw1, h11], ?_⟩
    simp only [zero_add] at hQ
    simp [f14_maxcorr, hQ, hst, h0]
  refine ⟨key, ?_, by norm_num⟩
  obtain ⟨Q, st, -, -, -, h⟩ := key memFour
  rw [h]
  have : Real.sqrt 4 = 2 := by
    rw [show (4 : ℝ) = 2 ^ 2 by norm_num]
    exact Real.sqrt_sq (by norm_num)
  simp [memFour, this]

/-! ### Matrices of order 2 in `hessenberg` -/

/-- In exact arithmetic the scan of a matrix of order 2 stops at `l = 1` exactly when the
subdiagonal entry is not zero: the test `fabs (a[2][1]) + s == s` fails. -/
theorem hess_scan_two (a : ℕ → ℕ → α) (anorm : α) (h21 : a 2 1 ≠ 0) :
    hess_scan a anorm 2 = 1 := by
  have h : 0 < |a 2 1| := abs_pos.mpr h21
  simp only [hess_scan]
  rw [if_neg (by intro he; linarith)]

/-- The eigenvalue cells after the branch `l == nn - 1` of `hessenberg` at `nn = 2`. -/
theorem hess_deflate2_two (sqrt : α → α) (st : HState α) (l : ℕ) (hnn : st.nn = 2) :
    (0 ≤ 1 / 2 * (st.a 1 1 - st.a 2 2) * (1 / 2 * (st.a 1 1 - st.a 2 2)) + st.a 2 1 * st.a 1 2 →
      (hess_deflate2 sqrt st l).wi 1 = 0 ∧ (hess_deflate2 sqrt st l).wi 2 = 0 ∧
      (hess_deflate2 sqrt st l).wr 1 = st.a 2 2 + st.t + (1 / 2 * (st.a 1 1 - st.a 2 2) +
        SIGN (sqrt |1 / 2 * (st.a 1 1 - st.a 2 2) * (1 / 2 * (st.a 1 1 - st.a 2 2))
          + st.a 2 1 * st.a 1 2|) (1 / 2 * (st.a 1 1 - st.a 2 2))) ∧
      (hess_deflate2 sqrt st l).wr 2 =
        if 1 / 2 * (st.a 1 1 - st.a 2 2) +
          SIGN (sqrt |1 / 2 * (st.a 1 1 - st.a 2 2) * (1 / 2 * (st.a 1 1 - st.a 2 2))
            + st.a 2 1 * st.a 1 2|) (1 / 2 * (st.a 1 1 - st.a 2 2)) ≠ 0
        then st.a 2 2 + st.t - st.a 2 1 * st.a 1 2 / (1 / 2 * (st.a 1 1 - st.a 2 2) +
          SIGN (sqrt |1 / 2 * (st.a 1 1 - st.a 2 2) * (1 / 2 * (st.a 1 1 - st.a 2 2))
            + st.a 2 1 * st.a 1 2|) (1 / 2 * (st.a 1 1 - st.a 2 2)))
        else st.a 2 2 + st.t + (1 / 2 * (st.a 1 1 - st.a 2 2) +
          SIGN (sqrt |1 / 2 * (st.a 1 1 - st.a 2 2) * (1 / 2 * (st.a 1 1 - st.a 2 2))
            + st.a 2 1 * st.a 1 2|) (1 / 2 * (st.a 1 1 - st.a 2 2)))) ∧
    (1 / 2 * (st.a 1 1 - st.a 2 2) * (1 / 2 * (st.a 1 1 - st.a 2 2)) + st.a 2 1 * st.a 1 2 < 0 →
      (hess_deflate2 sqrt st l).wr 1 = st.a 2 2 + st.t + 1 / 2 * (st.a 1 1 - st.a 2 2) ∧
      (hess_deflate2 sqrt st l).wr 2 = st.a 2 2 + st.t + 1 / 2 * (st.a 1 1 - st.a 2 2) ∧
      (hess_deflate2 sqrt st l).wi 1 =
        -sqrt |1 / 2 * (st.a 1 1 - st.a 2 2) * (1 / 2 * (st.a 1 1 - st.a 2 2))
          + st.a 2 1 * st.a 1 2| ∧
      (hess_deflate2 sqrt st l).wi 2 =
        sqrt |1 / 2 * (st.a 1 1 - st.a 2 2) * (1 / 2 * (st.a 1 1 - st.a 2 2))
          + st.a 2 1 * st.a 1 2|) := by
  constructor
  · intro hq
    simp only [hess_deflate2, hnn, ge_iff_le, hq, if_true, Nat.reduceSub]
    split_ifs with hz <;>
    simp [HState.setWr, HState.setWi, Function.update]
  · intro hq
    simp only [hess_deflate2, hnn, ge_iff_le, not_le.mpr hq, if_false, Nat.reduceSub]
    simp [HState.setWr, HState.setWi, Function.update]

/-- Two complex numbers with the sum `tr` and the product `det` are the two roots of
`λ² - tr λ + det`. -/
theorem quadratic_factor (r1 i1 r2 i2 tr det : ℝ) (hs : r1 + r2 = tr) (hi : i1 + i2 = 0)
    (hd : r1 * r2 - i1 * i2 = det) (hc : r1 * i2 + i1 * r2 = 0) (lam : ℂ) :
    lam ^ 2 - (tr : ℂ) * lam + (det : ℂ) =
      (lam - Complex.mk r1 i1) * (lam - Complex.mk r2 i2) := by
  apply Complex.ext
  · simp [sq]
    linear_combination lam.re * hs - hd - lam.im * hi
  · simp [sq]
    linear_combination lam.im * hs + lam.re * hi - hc

/-- On a matrix of order 2 with a non-zero subdiagonal entry `hessenberg` makes one pass
through the branch `l == nn - 1` and returns 1. -/
theorem hessenberg_two (sqrt : α → α) (a : ℕ → ℕ → α) (wr wi : ℕ → α) (h21 : a 2 1 ≠ 0) :
    hessenberg sqrt a 2 wr wi = HResult.ret 1
      (hess_deflate2 sqrt
        { a := a, wr := wr, wi := wi, wrLog := [], wiLog := [], qrLog := [], t := 0, nn := 2,
          its := 0, l := 0 } 1) := by
  have hsc := hess_scan_two a (hess_anorm a 2) h21
  unfold hessenberg
  rw [hess_while_succ _ _ _ _ (by simp), hess_dowhile_deflate2 _ _ _ _ (by simp [hsc])]
  simp only
  rw [hess_while_done _ _ _ _ (by simp [hess_deflate2_nn])]
  simp only [hsc]

/-- C21: for every real matrix of order 2 whose subdiagonal entry `a[2][1]` is not negligible
(in exact arithmetic: not zero, so that the scan ends with `l = 1`), `hessenberg` returns 1
and the pairs `(wr[1], wi[1])`, `(wr[2], wi[2])` are the two roots of
`λ² - (a11 + a22) λ + (a11 a22 - a12 a21)`, with multiplicity: when the discriminant
`q = ((a11 - a22) / 2)² + a12 a21` is `≥ 0` both `wi` are 0 and the `wr` are
`(a11 + a22) / 2 ± sqrt q` in one of the two orders; when `q < 0` both `wr` are
`(a11 + a22) / 2` and the `wi` are `-sqrt (-q)` and `sqrt (-q)`. -/
theorem hessenberg_two_by_two (a : ℕ → ℕ → ℝ) (wr wi : ℕ → ℝ) (h21 : a 2 1 ≠ 0) :
    ∃ st, hessenberg Real.sqrt a 2 wr wi = HResult.ret 1 st ∧
      hess_scan a (hess_anorm a 2) 2 = 1 ∧
      (∀ lam : ℂ,
        lam ^ 2 - ((a 1 1 + a 2 2 : ℝ) : ℂ) * lam + ((a 1 1 * a 2 2 - a 1 2 * a 2 1 : ℝ) : ℂ) =
          (lam - Complex.mk (st.wr 1) (st.wi 1)) * (lam - Complex.mk (st.wr 2) (st.wi 2))) ∧
      (0 ≤ ((a 1 1 - a 2 2) / 2) ^ 2 + a 1 2 * a 2 1 →
        st.wi 1 = 0 ∧ st.wi 2 = 0 ∧
        ((st.wr 1 = (a 1 1 + a 2 2) / 2 + Real.sqrt (((a 1 1 - a 2 2) / 2) ^ 2 + a 1 2 * a 2 1) ∧
          st.wr 2 = (a 1 1 + a 2 2) / 2 - Real.sqrt (((a 1 1 - a 2 2) / 2) ^ 2 + a 1 2 * a 2 1)) ∨
         (st.wr 1 = (a 1 1 + a 2 2) / 2 - Real.sqrt (((a 1 1 - a 2 2) / 2) ^ 2 + a 1 2 * a 2 1) ∧
          st.wr 2 = (a 1 1 + a 2 2) / 2 + Real.sqrt (((a 1 1 - a 2 2) / 2) ^ 2 + a 1 2 * a 2 1)))) ∧
      (((a 1 1 - a 2 2) / 2) ^ 2 + a 1 2 * a 2 1 < 0 →
        st.wr 1 = (a 1 1 + a 2 2) / 2 ∧ st.wr 2 = (a 1 1 + a 2 2) / 2 ∧
        st.wi 1 = -Real.sqrt (-(((a 1 1 - a 2 2) / 2) ^ 2 + a 1 2 * a 2 1)) ∧
        st.wi 2 = Real.sqrt (-(((a 1 1 - a 2 2) / 2) ^ 2 + a 1 2 * a 2 1))) := by
  refine ⟨_, hessenberg_two Real.sqrt a wr wi h21, hess_scan_two a _ h21, ?_⟩
  obtain ⟨hre, him⟩ := hess_deflate2_two Real.sqrt
    { a := a, wr := wr, wi := wi, wrLog := [], wiLog := [], qrLog := [], t := 0, nn := 2,
      its := 0, l := 0 } 1 rfl
  simp only [add_zero] at hre him
  generalize hess_deflate2 Real.sqrt
    { a := a, wr := wr, wi := wi, wrLog := [], wiLog := [], qrLog := [], t := 0, nn := 2,
      its := 0, l := 0 } 1 = st at hre him
  have hqq : 1 / 2 * (a 1 1 - a 2 2) * (1 / 2 * (a 1 1 - a 2 2)) + a 2 1 * a 1 2 =
      ((a 1 1 - a 2 2) / 2) ^ 2 + a 1 2 * a 2 1 := by ring
  rw [hqq] at hre him
  generalize hq : ((a 1 1 - a 2 2) / 2) ^ 2 + a 1 2 * a 2 1 = q at hre him ⊢
  have hreal : 0 ≤ q → st.wi 1 = 0 ∧ st.wi 2 = 0 ∧
      ((st.wr 1 = (a 1 1 + a 2 2) / 2 + Real.sqrt q ∧
        st.wr 2 = (a 1 1 + a 2 2) / 2 - Real.sqrt q) ∨
       (st.wr 1 = (a 1 1 + a 2 2) / 2 - Real.sqrt q ∧
        st.wr 2 = (a 1 1 + a 2 2) / 2 + Real.sqrt q)) := by
    intro h0
    obtain ⟨e1, e2, e3, e4⟩ := hre h0
    refine ⟨e1, e2, ?_⟩
    rw [abs_of_nonneg h0] at e3 e4
    have hs0 : 0 ≤ Real.sqrt q := Real.sqrt_nonneg q
    have hss : Real.sqrt q * Real.sqrt q = q := Real.mul_self_sqrt h0
    have hw : a 2 1 * a 1 2 = Real.sqrt q * Real.sqrt q - ((a 1 1 - a 2 2) / 2) ^ 2 := by
      rw [hss, ← hq]; ring
    by_cases hp : 1 / 2 * (a 1 1 - a 2 2) < 0
    · have hS : SIGN (Real.sqrt q) (1 / 2 * (a 1 1 - a 2 2)) = -Real.sqrt q := by
        rw [SIGN, if_pos hp, abs_of_nonneg hs0]
      rw [hS] at e3 e4
      have hz : 1 / 2 * (a 1 1 - a 2 2) + -Real.sqrt q ≠ 0 := by
        intro h; linarith
      rw [if_pos hz] at e4
      right
      refine ⟨by rw [e3]; ring, ?_⟩
      have hdiv : a 2 1 * a 1 2 / (1 / 2 * (a 1 1 - a 2 2) + -Real.sqrt q) =
          -(1 / 2 * (a 1 1 - a 2 2)) - Real.sqrt q := by
        rw [div_eq_iff hz, hw]; ring
      rw [e4, hdiv]; ring
    · have hS : SIGN (Real.sqrt q) (1 / 2 * (a 1 1 - a 2 2)) = Real.sqrt q := by
        rw [SIGN, if_neg hp, abs_of_nonneg hs0]
      rw [hS] at e3 e4
      left
      refine ⟨by rw [e3]; ring, ?_⟩
      by_cases hz : 1 / 2 * (a 1 1 - a 2 2) + Real.sqrt q ≠ 0
      · rw [if_pos hz] at e4
        have hdiv : a 2 1 * a 1 2 / (1 / 2 * (a 1 1 - a 2 2) + Real.sqrt q) =
            Real.sqrt q - 1 / 2 * (a 1 1 - a 2 2) := by
          rw [div_eq_iff hz, hw]; ring
        rw [e4, hdiv]; ring
      · rw [if_neg hz] at e4
        have hz0 : 1 / 2 * (a 1 1 - a 2 2) + Real.sqrt q = 0 := not_not.mp hz
        have hs : Real.sqrt q = 0 := by linarith [not_lt.mp hp]
        rw [e4, hs]
        rw [hs] at hz0
        linarith
  have hcomplex : q < 0 → st.wr 1 = (a 1 1 + a 2 2) / 2 ∧ st.wr 2 = (a 1 1 + a 2 2) / 2 ∧
      st.wi 1 = -Real.sqrt (-q) ∧ st.wi 2 = Real.sqrt (-q) := by
    intro h0
    obtain ⟨e1, e2, e3, e4⟩ := him h0
    rw [abs_of_neg h0] at e3 e4
    exact ⟨by rw [e1]; ring, by rw [e2]; ring, e3, e4⟩
  refine ⟨?_, hreal, hcomplex⟩
  intro lam
  rcases le_or_lt 0 q with h0 | h0
  · obtain ⟨e1, e2, e⟩ := hreal h0
    have hss : Real.sqrt q * Real.sqrt q = q := Real.mul_self_sqrt h0
    rw [e1, e2]
    rcases e with ⟨e3, e4⟩ | ⟨e3, e4⟩ <;>
    · rw [e3, e4]
      apply quadratic_factor
      · ring
      · ring
      · rw [mul_zero, sub_zero]
        have : ∀ m s : ℝ, (m + s) * (m - s) = m * m - s * s := fun m s => by ring
        first
          | rw [this, hss, ← hq]; ring
          | rw [mul_comm, this, hss, ← hq]; ring
      · ring
  · obtain ⟨e1, e2, e3, e4⟩ := hcomplex h0
    have hss : Real.sqrt (-q) * Real.sqrt (-q) = -q := Real.mul_self_sqrt (by linarith)
    rw [e1, e2, e3, e4]
    apply quadratic_factor
    · ring
    · ring
    · have : (a 1 1 + a 2 2) / 2 * ((a 1 1 + a 2 2) / 2) - -Real.sqrt (-q) * Real.sqrt (-q)
          = (a 1 1 + a 2 2) / 2 * ((a 1 1 + a 2 2) / 2) + Real.sqrt (-q) * Real.sqrt (-q) := by
        ring
      rw [this, hss, ← hq]; ring
    · ring

/-- Witness for C21: the rotation `[[0, -1], [1, 0]]`, with `q = -1` and the eigenvalues
`-i` and `i`. -/
theorem hessenberg_two_by_two_witness :
    (A_rot (α := ℝ)) 2 1 ≠ 0 ∧
    ∃ st, hessenberg Real.sqrt (A_rot (α := ℝ)) 2 (fun _ => 0) (fun _ => 0) = HResult.ret 1 st ∧
      st.wr 1 = 0 ∧ st.wr 2 = 0 ∧ st.wi 1 = -1 ∧ st.wi 2 = 1 := by
  have h21 : (A_rot (α := ℝ)) 2 1 ≠ 0 := by simp [A_rot]
  refine ⟨h21, ?_⟩
  obtain ⟨st, hst, -, -, -, hc⟩ :=
    hessenberg_two_by_two (A_rot (α := ℝ)) (fun _ => 0) (fun _ => 0) h21
  have hq : ((A_rot (α := ℝ) 1 1 - A_rot 2 2) / 2) ^ 2 + A_rot 1 2 * A_rot 2 1 = -1 := by
    simp [A_rot]
  rw [hq] at hc
  obtain ⟨e1, e2, e3, e4⟩ := hc (by norm_num)
  refine ⟨st, hst, ?_, ?_, ?_, ?_⟩
  · rw [e1]; simp [A_rot]
  · rw [e2]; simp [A_rot]
  · rw [e3]; simp
  · rw [e4]; simp

/-! ### Truncation in `f13_icorr` -/

/-- Conversion to `int` sends every value of absolute value below 1 to 0. -/
theorem ctrunc_eq_zero [FloorRing α] (x : α) (h : |x| < 1) : ctrunc x = 0 := by
  obtain ⟨h1, h2⟩ := abs_lt.mp h
  unfold ctrunc
  split_ifs with h0
  · rw [Int.floor_eq_iff]
    exact ⟨by simpa using h0, by simpa using h2⟩
  · rw [Int.ceil_eq_iff]
    exact ⟨by simpa using h1, by simpa using le_of_lt (not_le.mp h0)⟩

/-- C22: whenever `hxy2 - hxy >= 0`, or more generally whenever
`|1 - exp (-2 * (hxy2 - hxy))| < 1`, the integer `abs` of `f13_icorr` receives an argument
that the conversion to `int` truncates to 0, and `f13_icorr` returns exactly 0 (real
arithmetic, any `log10`); the first condition implies the second. -/
theorem f13_icorr_returns_zero (log10 : ℝ → ℝ) (P : ℕ → ℕ → ℝ) (Ng : ℕ)
    (h : 0 ≤ icorr_hxy2 log10 P Ng - icorr_hxy log10 P Ng ∨
      |1 - Real.exp (-2 * (icorr_hxy2 log10 P Ng - icorr_hxy log10 P Ng))| < 1) :
    |1 - Real.exp (-2 * (icorr_hxy2 log10 P Ng - icorr_hxy log10 P Ng))| < 1 ∧
    ctrunc (1 - Real.exp (-2 * (icorr_hxy2 log10 P Ng - icorr_hxy log10 P Ng))) = 0 ∧
    f13_icorr Real.sqrt log10 Real.exp P Ng = 0 := by
  have hlt : |1 - Real.exp (-2 * (icorr_hxy2 log10 P Ng - icorr_hxy log10 P Ng))| < 1 := by
    rcases h with h | h
    · have h0 : 0 < Real.exp (-2 * (icorr_hxy2 log10 P Ng - icorr_hxy log10 P Ng)) :=
        Real.exp_pos _
      have h1 : Real.exp (-2 * (icorr_hxy2 log10 P Ng - icorr_hxy log10 P Ng)) ≤ 1 := by
        rw [Real.exp_le_one_iff]; linarith
      rw [abs_lt]
      constructor <;> linarith
    · exact h
  have hz := ctrunc_eq_zero _ hlt
  refine ⟨hlt, hz, ?_⟩
  simp only [f13_icorr, hz]
  simp

/-- Witness for C22: `Ng = 2`, `P = [[1/2, 0], [0, 1/2]]`, where `hxy2 - hxy > 0`. -/
theorem f13_icorr_returns_zero_witness :
    (0 ≤ icorr_hxy2 (Real.logb 10) P_half 2 - icorr_hxy (Real.logb 10) P_half 2 ∨
      |1 - Real.exp (-2 * (icorr_hxy2 (Real.logb 10) P_half 2 -
        icorr_hxy (Real.logb 10) P_half 2))| < 1) ∧
    |1 - Real.exp (-2 * (icorr_hxy2 (Real.logb 10) P_half 2 -
      icorr_hxy (Real.logb 10) P_half 2))| < 1 ∧
    ctrunc (1 - Real.exp (-2 * (icorr_hxy2 (Real.logb 10) P_half 2 -
      icorr_hxy (Real.logb 10) P_half 2))) = 0 ∧
    f13_icorr Real.sqrt (Real.logb 10) Real.exp P_half 2 = 0 :=
  ⟨Or.inl (le_of_lt icorr_gap_P_half),
    f13_icorr_returns_zero (Real.logb 10) P_half 2 (Or.inl (le_of_lt icorr_gap_P_half))⟩

/-! ### The shared local `icorr` of the aggregator -/

/-- C23: with the flag `meas_corr1` set and the flag `meas_corr2` unset, the aggregator
returns a record unless `max_corr_coef` is selected and `f14_maxcorr` does not return, and
in every record it returns the field `meas_corr2` equals the field `meas_corr1`, which is
`f12_icorr (P, Ng)`: both are written from the local `icorr`. -/
theorem meas_corr2_reuses_icorr [FloorRing α] (fuel : ℕ) (sqrt log10 exp : α → α)
    (P : ℕ → ℕ → α) (tones : ℕ) (fu : TEXTURE_FEATURE_MAP) (loc : Locals α) (Pxpy : ℕ → α)
    (mem : Mem α) (h1 : fu.meas_corr1 = true) (h2 : fu.meas_corr2 = false) :
    ((fu.max_corr_coef = false ∨ ∃ v, f14_maxcorr fuel sqrt P tones mem = some v) →
      ∃ T, ml_Extract_Temporal_Texture fuel sqrt log10 exp P tones fu loc Pxpy mem = some T) ∧
    ∀ T, ml_Extract_Temporal_Texture fuel sqrt log10 exp P tones fu loc Pxpy mem = some T →
      T.meas_corr2 = T.meas_corr1 ∧ T.meas_corr1 = f12_icorr log10 P tones := by
  constructor
  · rintro (h | ⟨v, hv⟩)
    · simp [ml_Extract_Temporal_Texture, h]
    · by_cases h : fu.max_corr_coef = true
      · simp [ml_Extract_Temporal_Texture, h, hv]
      · simp [ml_Extract_Temporal_Texture, h]
  · intro T hT
    simp only [ml_Extract_Temporal_Texture, h1, h2] at hT
    by_cases h : fu.max_corr_coef = true
    · simp only [h, if_true] at hT
      cases hv : f14_maxcorr fuel sqrt P tones mem with
      | none => rw [hv] at hT; simp at hT
      | some v =>
        rw [hv] at hT
        simp only [Option.some.injEq] at hT
        rw [← hT]
        simp
    · have hf : fu.max_corr_coef = false := by simpa using h
      simp only [hf, Bool.false_eq_true, if_false, Option.some.injEq] at hT
      rw [← hT]
      simp

/-- Witness for C23: `meas_corr1` alone selected, `Ng = 2`, `P = [[1/2, 0], [0, 1/2]]`. -/
theorem meas_corr2_reuses_icorr_witness :
    corr1Only.meas_corr1 = true ∧ corr1Only.meas_corr2 = false ∧
    ((corr1Only.max_corr_coef = false ∨
        ∃ v, f14_maxcorr 1 (fun x : ℚ => x) (P_half (α := ℚ)) 2 zeroMem = some v) →
      ∃ T, ml_Extract_Temporal_Texture 1 (fun x : ℚ => x) (fun x => x) (fun x => x)
        (P_half (α := ℚ)) 2 corr1Only (staleLocals 1) (fun _ => 0) zeroMem = some T) ∧
    ∀ T, ml_Extract_Temporal_Texture 1 (fun x : ℚ => x) (fun x => x) (fun x => x)
        (P_half (α := ℚ)) 2 corr1Only (staleLocals 1) (fun _ => 0) zeroMem = some T →
      T.meas_corr2 = T.meas_corr1 ∧ T.meas_corr1 = f12_icorr (fun x => x) P_half 2 :=
  ⟨rfl, rfl, meas_corr2_reuses_icorr 1 (fun x : ℚ => x) (fun x => x) (fun x => x)
    (P_half (α := ℚ)) 2 corr1Only (staleLocals 1) (fun _ => 0) zeroMem rfl rfl⟩

/-! ### Difference variance and contrast -/

/-- C24: for every `P` and `Ng`, `f10_dvar` returns `f2_contrast (P, Ng)` minus the square of
the sum of the `|i - j| * P[i][j]`: the scratch cells `Pxpy[k]` it fills hold the difference
distribution `D[k]`, the sum of the `P[i][j]` with `|i - j| = k`, and the second moment
`sum_sqr` of `D` that it accumulates is the Contrast feature. -/
theorem f10_dvar_contrast (P : ℕ → ℕ → α) (Ng : ℕ) (Pxpy : ℕ → α) :
    (f10_dvar P Ng Pxpy).1 = f2_contrast P Ng -
      (∑ i in Finset.range Ng, ∑ j in Finset.range Ng,
        ((Int.natAbs ((i : ℤ) - (j : ℤ)) : ℕ) : α) * P i j) ^ 2 ∧
    (∀ k, k ≤ 2 * Ng → (f10_dvar P Ng Pxpy).2 k = diffDistribution P Ng k) ∧
    ∑ k in Finset.range Ng, ((k * k : ℕ) : α) * (f10_dvar P Ng Pxpy).2 k = f2_contrast P Ng := by
  refine ⟨?_, ?_, ?_⟩
  · rw [f10_dvar_eq, f2_contrast_eq, sum_diff_weights P Ng (fun k => (k : α))]
    ring
  · intro k hk
    simp only [f10_dvar]
    exact Pxpy_diff_reset P Ng k Pxpy hk
  · rw [f2_contrast_eq]
    refine Finset.sum_congr rfl (fun k hk => ?_)
    simp only [f10_dvar]
    rw [Pxpy_diff_reset P Ng k Pxpy (by have := Finset.mem_range.mp hk; omega)]

end Features

end SLIC
